import Mathlib

/-!
The natsy repository: event envelope protocol and type dispatch

A shallow embedding of the two programs of the repository:

* `src/api-producer/main.go` : `publishMessage` and the subjects it is called with;
* `src/consumer/main.go` : the subscription callback, `EventEnvelope.Process` and
  `DBStore.handleProductCreatedEvent`.

Texts (Go `string` and `[]byte`) are lists of Unicode code points, that is, the
embedding covers the texts that are valid UTF-8.  The calls into `encoding/json`,
`github.com/google/uuid` and `time` are embedded by executable definitions that
follow the documented behaviour of these libraries on the struct types of the
repository.  Logging is not embedded: it has no effect on the results or the store.
-/

namespace Natsy

/-! ## JSON texts (the part of `encoding/json` the programs use) -/

/-- A parsed JSON value.  Numbers keep their literal; every member of an object keeps
the raw text of its value, which is what a `json.RawMessage` field receives. -/
inductive JSON where
  | null : JSON
  | bool (b : Bool) : JSON
  | num (lit : List Char) : JSON
  | str (s : List Char) : JSON
  | arr (items : List JSON) : JSON
  | obj (members : List (List Char × List Char × JSON)) : JSON

/-- The nesting limit of the `encoding/json` scanner (`maxNestingDepth`). -/
def maxNestingDepth : Nat := 10000

/-- JSON white space: space, tab, carriage return, line feed (`isSpace`). -/
def isSpace (c : Char) : Bool :=
  c.toNat = 32 || c.toNat = 9 || c.toNat = 13 || c.toNat = 10

/-- Drops leading white space. -/
def skipWS : List Char → List Char
  | [] => []
  | c :: cs => if isSpace c then skipWS cs else c :: cs

/-- Value of a hexadecimal digit, if it is one. -/
def hexVal (c : Char) : Option Nat :=
  let n := c.toNat
  if 48 ≤ n ∧ n ≤ 57 then some (n - 48)
  else if 97 ≤ n ∧ n ≤ 102 then some (n - 87)
  else if 65 ≤ n ∧ n ≤ 70 then some (n - 55)
  else none

/-- The number written by four hexadecimal digits (`getu4` after the `\u`). -/
def hex4 (a b c d : Char) : Option Nat :=
  match hexVal a, hexVal b, hexVal c, hexVal d with
  | some x, some y, some z, some w => some (x * 4096 + y * 256 + z * 16 + w)
  | _, _, _, _ => none

/-- The character of a one-letter escape, if the letter is one of the JSON escapes. -/
def simpleEscape (c : Char) : Option Char :=
  if c = '"' then some '"'
  else if c = '\\' then some '\\'
  else if c = '/' then some '/'
  else if c = 'b' then some (Char.ofNat 8)
  else if c = 'f' then some (Char.ofNat 12)
  else if c = 'n' then some (Char.ofNat 10)
  else if c = 'r' then some (Char.ofNat 13)
  else if c = 't' then some (Char.ofNat 9)
  else none

/-- The replacement character, pending an unpaired high surrogate escape. -/
def flushSurrogate (pending : Option Nat) : List Char :=
  match pending with
  | some _ => [Char.ofNat 0xFFFD]
  | none => []

/-- The body of a string literal, after the opening quote: the decoded text (`unquote`)
and what follows the closing quote.  Control characters and malformed escapes are
syntax errors.  `pending` is a high surrogate written by the escape just before: it
combines with a low surrogate escape that follows at once, and decodes to U+FFFD
otherwise, as does every other unpaired surrogate escape. -/
def parseStringFrom (pending : Option Nat) : List Char → Option (List Char × List Char)
  | [] => none
  | c :: cs =>
    if c = '"' then some (flushSurrogate pending, cs)
    else if c = '\\' then
      match cs with
      | [] => none
      | e :: cs1 =>
        if e = 'u' then
          match cs1 with
          | a :: b :: c2 :: d :: cs2 =>
            match hex4 a b c2 d with
            | none => none
            | some n =>
              if 0xDC00 ≤ n ∧ n < 0xE000 then
                match pending with
                | some hi =>
                  (parseStringFrom none cs2).map fun p =>
                    (Char.ofNat ((hi - 0xD800) * 1024 + (n - 0xDC00) + 0x10000) :: p.1, p.2)
                | none =>
                  (parseStringFrom none cs2).map fun p => (Char.ofNat 0xFFFD :: p.1, p.2)
              else if 0xD800 ≤ n ∧ n < 0xDC00 then
                (parseStringFrom (some n) cs2).map fun p => (flushSurrogate pending ++ p.1, p.2)
              else
                (parseStringFrom none cs2).map fun p =>
                  (flushSurrogate pending ++ Char.ofNat n :: p.1, p.2)
          | _ => none
        else
          match simpleEscape e with
          | some x =>
            (parseStringFrom none cs1).map fun p => (flushSurrogate pending ++ x :: p.1, p.2)
          | none => none
    else if c.toNat < 32 then none
    else (parseStringFrom none cs).map fun p => (flushSurrogate pending ++ c :: p.1, p.2)

/-- The body of a string literal, after the opening quote. -/
def parseString (cs : List Char) : Option (List Char × List Char) := parseStringFrom none cs

/-- Is the character a decimal digit. -/
def isDigit (c : Char) : Bool := 48 ≤ c.toNat && c.toNat ≤ 57

/-- The leading decimal digits and the rest. -/
def spanDigits : List Char → List Char × List Char
  | [] => ([], [])
  | c :: cs => if isDigit c then ((spanDigits cs).1.cons c, (spanDigits cs).2) else ([], c :: cs)

/-- Integer part of a number literal: `0`, or a non-zero digit followed by digits. -/
def parseIntPart : List Char → Option (List Char × List Char)
  | [] => none
  | c :: cs =>
    if c = '0' then some (['0'], cs)
    else if isDigit c then some (c :: (spanDigits cs).1, (spanDigits cs).2)
    else none

/-- Optional fraction: a dot followed by at least one digit. -/
def parseFrac : List Char → Option (List Char × List Char)
  | '.' :: cs =>
    match spanDigits cs with
    | ([], _) => none
    | (ds, r) => some ('.' :: ds, r)
  | cs => some ([], cs)

/-- Optional exponent: `e` or `E`, an optional sign, at least one digit. -/
def parseExp : List Char → Option (List Char × List Char)
  | [] => some ([], [])
  | c :: cs =>
    if c = 'e' ∨ c = 'E' then
      match cs with
      | [] => none
      | s :: cs1 =>
        if s = '+' ∨ s = '-' then
          match spanDigits cs1 with
          | ([], _) => none
          | (ds, r) => some (c :: s :: ds, r)
        else
          match spanDigits cs with
          | ([], _) => none
          | (ds, r) => some (c :: ds, r)
    else some ([], c :: cs)

/-- A number literal: the literal and the rest. -/
def parseNumber (cs : List Char) : Option (List Char × List Char) :=
  let neg : Bool := cs.head? = some '-'
  match parseIntPart (if neg then cs.tail else cs) with
  | none => none
  | some (ip, r1) =>
    match parseFrac r1 with
    | none => none
    | some (fp, r2) =>
      match parseExp r2 with
      | none => none
      | some (ep, r3) => some ((if neg then ['-'] else []) ++ ip ++ fp ++ ep, r3)

/-- The rest of the text after the given characters, if the text starts with them (the
letters of `true`, `false` and `null` after the first). -/
def expect : List Char → List Char → Option (List Char)
  | [], cs => some cs
  | _ :: _, [] => none
  | p :: ps, c :: cs => if p = c then expect ps cs else none

/-- The text up to where `rest` starts: the raw text of a value parsed from `cs`. -/
def consumed (cs rest : List Char) : List Char := cs.take (cs.length - rest.length)

mutual
/-- One JSON value at the head of the text (no leading white space) at nesting depth `d`,
with what follows it.  `fuel` bounds the recursion; see `parseJSON`.  An array or object
opened at depth `maxNestingDepth` is an error (`exceeded max depth`). -/
def parseValue : Nat → Nat → List Char → Option (JSON × List Char)
  | 0, _, _ => none
  | _ + 1, _, [] => none
  | fuel + 1, d, c :: cs =>
    if c = '"' then (parseString cs).map fun p => (JSON.str p.1, p.2)
    else if c = '\x7b' then
      if d < maxNestingDepth then
        match skipWS cs with
        | [] => none
        | x :: r =>
          if x = '\x7d' then some (JSON.obj [], r)
          else (parseMembers fuel (d + 1) (x :: r)).map fun p => (JSON.obj p.1, p.2)
      else none
    else if c = '[' then
      if d < maxNestingDepth then
        match skipWS cs with
        | [] => none
        | x :: r =>
          if x = ']' then some (JSON.arr [], r)
          else (parseElems fuel (d + 1) (x :: r)).map fun p => (JSON.arr p.1, p.2)
      else none
    else if c = 't' then (expect ['r', 'u', 'e'] cs).map fun r => (JSON.bool true, r)
    else if c = 'f' then (expect ['a', 'l', 's', 'e'] cs).map fun r => (JSON.bool false, r)
    else if c = 'n' then (expect ['u', 'l', 'l'] cs).map fun r => (JSON.null, r)
    else (parseNumber (c :: cs)).map fun p => (JSON.num p.1, p.2)
/-- The elements of a non-empty array, up to and including the closing bracket. -/
def parseElems : Nat → Nat → List Char → Option (List JSON × List Char)
  | 0, _, _ => none
  | fuel + 1, d, cs =>
    match parseValue fuel d cs with
    | none => none
    | some (v, r) =>
      match skipWS r with
      | [] => none
      | x :: r1 =>
        if x = ',' then (parseElems fuel d (skipWS r1)).map fun p => (v :: p.1, p.2)
        else if x = ']' then some ([v], r1)
        else none
/-- The members of a non-empty object, up to and including the closing brace. -/
def parseMembers : Nat → Nat → List Char → Option (List (List Char × List Char × JSON) × List Char)
  | 0, _, _ => none
  | _ + 1, _, [] => none
  | fuel + 1, d, q :: ks =>
    if q = '"' then
      match parseString ks with
      | none => none
      | some (k, r) =>
        match skipWS r with
        | [] => none
        | x :: r1 =>
          if x = ':' then
            match parseValue fuel d (skipWS r1) with
            | none => none
            | some (v, r2) =>
              match skipWS r2 with
              | [] => none
              | y :: r3 =>
                if y = ',' then
                  (parseMembers fuel d (skipWS r3)).map fun p =>
                    ((k, consumed (skipWS r1) r2, v) :: p.1, p.2)
                else if y = '\x7d' then some ([(k, consumed (skipWS r1) r2, v)], r3)
                else none
          else none
    else none
end

/-- Is the text one JSON value with optional white space around it, when it stands at
nesting depth `d`.  The fuel `2 * length + 2` is never exhausted (`parse_fuel`). -/
def validJSONAt (d : Nat) (cs : List Char) : Bool :=
  match parseValue (2 * cs.length + 2) d (skipWS cs) with
  | some (_, r) => (skipWS r).isEmpty
  | none => false

/-- A whole JSON text read with the given fuel: one value with optional white space
around it. -/
def parseJSONFuel (fuel : Nat) (cs : List Char) : Option JSON :=
  match parseValue fuel 0 (skipWS cs) with
  | some (v, r) => if skipWS r = [] then some v else none
  | none => none

/-- A whole JSON text: one value with optional white space around it (`checkValid`
followed by the decoder's scan).  The fuel `2 * length + 2` is never exhausted: more fuel
gives the same result (`parseJSONFuel_eq`). -/
def parseJSON (cs : List Char) : Option JSON := parseJSONFuel (2 * cs.length + 2) cs

/-! ## Identifiers (`github.com/google/uuid`) -/

/-- A `uuid.UUID`: an array of 16 bytes. -/
abbrev UUID := Fin 16 → Fin 256

/-- The zero value `uuid.Nil`. -/
def UUID.nil : UUID := fun _ => 0

/-- The lower-case hexadecimal digit of a number below 16. -/
def hexDigit (n : Nat) : Char :=
  if n < 10 then Char.ofNat (48 + n) else Char.ofNat (87 + n)

/-- The two hexadecimal digits of a byte. -/
def hexByte (b : Fin 256) : List Char := [hexDigit (b.val / 16), hexDigit (b.val % 16)]

/-- The canonical text `xxxxxxxx-xxxx-xxxx-xxxx-xxxxxxxxxxxx` of an identifier
(`UUID.String`, which `UUID.MarshalText` and `uuid.NewString` produce). -/
def UUID.toText (u : UUID) : List Char :=
  hexByte (u 0) ++ hexByte (u 1) ++ hexByte (u 2) ++ hexByte (u 3) ++ '-' ::
  hexByte (u 4) ++ hexByte (u 5) ++ '-' ::
  hexByte (u 6) ++ hexByte (u 7) ++ '-' ::
  hexByte (u 8) ++ hexByte (u 9) ++ '-' ::
  hexByte (u 10) ++ hexByte (u 11) ++ hexByte (u 12) ++ hexByte (u 13) ++
  hexByte (u 14) ++ hexByte (u 15)

/-- The byte written by two hexadecimal digits (`xtob`). -/
def xtob (a b : Char) : Option (Fin 256) :=
  match hexVal a, hexVal b with
  | some x, some y => some (Fin.ofNat (x * 16 + y))
  | _, _ => none

/-- The bytes written by pairs of hexadecimal digits; `none` on a bad digit or odd length. -/
def hexBytes : List Char → Option (List (Fin 256))
  | [] => some []
  | [_] => none
  | a :: b :: cs =>
    match xtob a b, hexBytes cs with
    | some x, some xs => some (x :: xs)
    | _, _ => none

/-- The identifier with the given 16 bytes. -/
def UUID.ofBytes : List (Fin 256) → Option UUID
  | [b0, b1, b2, b3, b4, b5, b6, b7, b8, b9, b10, b11, b12, b13, b14, b15] =>
    some ![b0, b1, b2, b3, b4, b5, b6, b7, b8, b9, b10, b11, b12, b13, b14, b15]
  | _ => none

/-- The 36-character form with dashes at positions 8, 13, 18 and 23. -/
def parseDashed (cs : List Char) : Option UUID :=
  if cs.length = 36 ∧ cs.get? 8 = some '-' ∧ cs.get? 13 = some '-' ∧
      cs.get? 18 = some '-' ∧ cs.get? 23 = some '-' then
    (hexBytes (cs.take 8 ++ (cs.drop 9).take 4 ++ (cs.drop 14).take 4 ++
      (cs.drop 19).take 4 ++ cs.drop 24)).bind UUID.ofBytes
  else none

/-- ASCII lower case of a character. -/
def asciiLower (c : Char) : Char :=
  if 65 ≤ c.toNat ∧ c.toNat ≤ 90 then Char.ofNat (c.toNat + 32) else c

/-- Reading an identifier from text (`UUID.UnmarshalText`, that is `uuid.ParseBytes`): the
36-character form, the same with a `urn:uuid:` prefix in any case, the same between two
delimiters (braces), or 32 hexadecimal digits.  The library counts and reads bytes, so a
text with a character outside ASCII is never accepted. -/
def UUID.parse (cs : List Char) : Option UUID :=
  if cs.any (fun c => decide (128 ≤ c.toNat)) then none
  else if cs.length = 36 then parseDashed cs
  else if cs.length = 45 then
    if (cs.take 9).map asciiLower = "urn:uuid:".toList then parseDashed (cs.drop 9) else none
  else if cs.length = 38 then parseDashed ((cs.drop 1).take 36)
  else if cs.length = 32 then (hexBytes cs).bind UUID.ofBytes
  else none

/-! ## Timestamps (`time.Time` as `encoding/json` reads and writes it) -/

/-- The location of a `time.Time`.  `parsed` is the location `time.Parse` attaches to a
time read with a numeric zone offset: `time.Local` when the local zone has that offset at
that instant, and an unnamed fixed zone otherwise; which of the two depends on the machine
that reads, so it is kept apart from the location `time.Local` of a time that was not
read. -/
inductive Location where
  | utc : Location
  | «local» : Location
  | named (name : String) : Location
  | parsed : Location
  deriving DecidableEq, Repr

/-- A `time.Time`: its reading in its location (civil date, time of day, nanoseconds), the
offset of the location at that instant in seconds east of UTC, the location, and the
monotonic clock reading, which `time.Now` sets and which takes part in `==`. -/
structure Time where
  year : Int
  month : Nat
  day : Nat
  hour : Nat
  minute : Nat
  second : Nat
  nanos : Nat
  offset : Int
  loc : Location
  mono : Option Int
  deriving DecidableEq, Repr

/-- The zero value of `time.Time`: January 1, year 1, 00:00:00 UTC. -/
def Time.zero : Time := ⟨1, 1, 1, 0, 0, 0, 0, 0, Location.utc, none⟩

/-- Days of a month of the Gregorian calendar. -/
def daysIn (year : Int) (month : Nat) : Nat :=
  if month = 2 then
    if year % 4 = 0 ∧ (year % 100 ≠ 0 ∨ year % 400 = 0) then 29 else 28
  else if month = 4 ∨ month = 6 ∨ month = 9 ∨ month = 11 then 30
  else 31

/-- The readings a `time.Time` can have: every field of the date and the time of day in its
range, and no offset in the location UTC. -/
def Time.wellFormed (t : Time) : Prop :=
  1 ≤ t.month ∧ t.month ≤ 12 ∧ 1 ≤ t.day ∧ t.day ≤ daysIn t.year t.month ∧
  t.hour < 24 ∧ t.minute < 60 ∧ t.second < 60 ∧ t.nanos < 1000000000 ∧
  (t.loc = Location.utc → t.offset = 0)

instance (t : Time) : Decidable t.wellFormed := by unfold Time.wellFormed; infer_instance

/-- The times `Time.MarshalJSON` accepts: the year within `[0,9999]` and the hours of the
zone offset within `[0,23]`. -/
def Time.marshals (t : Time) : Prop :=
  0 ≤ t.year ∧ t.year ≤ 9999 ∧ t.offset.natAbs / 3600 < 24

instance (t : Time) : Decidable t.marshals := by unfold Time.marshals; infer_instance

/-- The number written by decimal digits, most significant first; `none` unless all
characters are digits. -/
def digitsVal : List Char → Option Nat
  | [] => some 0
  | c :: cs =>
    if isDigit c then (digitsVal cs).map fun v => (c.toNat - 48) * 10 ^ cs.length + v
    else none

/-- The nanoseconds written by the digits of a fraction of a second (`parseNanoseconds`):
the first nine digits count, padded with zeros on the right. -/
def fracNanos (ds : List Char) : Option Nat :=
  digitsVal ((ds ++ List.replicate 9 '0').take 9)

/-- A number of one or two digits at the head of the text and the rest (`getnum`); when
`fixed`, two digits are required. -/
def getnum (s : List Char) (fixed : Bool) : Option (Nat × List Char) :=
  match s with
  | [] => none
  | c1 :: r1 =>
    if isDigit c1 then
      match r1 with
      | [] => if fixed then none else some (c1.toNat - 48, [])
      | c2 :: r2 =>
        if isDigit c2 then some ((c1.toNat - 48) * 10 + (c2.toNat - 48), r2)
        else if fixed then none else some (c1.toNat - 48, r1)
    else none

/-- The rest of the text after the given character, which must be its first. -/
def skipChar (c : Char) (s : List Char) : Option (List Char) :=
  match s with
  | [] => none
  | x :: r => if x = c then some r else none

/-- The fraction of a second that may follow the seconds, though the layout has none: a
period or a comma and at least one digit.  The nanoseconds and the rest. -/
def parseFrac9 (value : List Char) : Option (Nat × List Char) :=
  match value with
  | sep :: d :: r =>
    if (sep = '.' ∨ sep = ',') ∧ isDigit d = true then
      (fracNanos (spanDigits (d :: r)).1).map fun n => (n, (spanDigits (d :: r)).2)
    else some (0, value)
  | _ => some (0, value)

/-- The zone in the layout `Z07:00`: `Z`, or a sign, two digits, a colon and two digits,
the hours at most 24 and the minutes at most 60.  The offset in seconds, the location and
the rest. -/
def parseZone (value : List Char) : Option (Int × Location × List Char) :=
  match value with
  | [] => none
  | z :: r0 =>
    if z = 'Z' then some (0, Location.utc, r0)
    else
      match r0 with
      | h1 :: h2 :: c :: m1 :: m2 :: r =>
        if c = ':' then
          match getnum [h1, h2] true, getnum [m1, m2] true with
          | some (hr, _), some (mm, _) =>
            if hr ≤ 24 ∧ mm ≤ 60 then
              if z = '+' then some ((((hr * 60 + mm) * 60 : Nat) : Int), Location.parsed, r)
              else if z = '-' then
                some (-(((hr * 60 + mm) * 60 : Nat) : Int), Location.parsed, r)
              else none
            else none
          | _, _ => none
        else none
      | _ => none

/-- The time of day, fraction and zone of an RFC 3339 text, after the `T`: the hour of one
or two digits, the minute and second of two digits, all in range. -/
def parseClock (v : List Char) :
    Option (Nat × Nat × Nat × Nat × Int × Location) :=
  match getnum v false with
  | none => none
  | some (h, v1) =>
    if 24 ≤ h then none
    else
      match (skipChar ':' v1).bind fun v2 => getnum v2 true with
      | none => none
      | some (mi, v3) =>
        if 60 ≤ mi then none
        else
          match (skipChar ':' v3).bind fun v4 => getnum v4 true with
          | none => none
          | some (s, v5) =>
            if 60 ≤ s then none
            else
              match parseFrac9 v5 with
              | none => none
              | some (n, v6) =>
                match parseZone v6 with
                | some (o, l, []) => some (h, mi, s, n, o, l)
                | _ => none

/-- Reading a time as `time.Parse(time.RFC3339, s)` does, which is what
`Time.UnmarshalJSON` accepts: four digits of year, two of month and of day, the clock, and
a day that exists in the month.  The time read has no monotonic reading. -/
def Time.parse (s : List Char) : Option Time :=
  match digitsVal (s.take 4) with
  | none => none
  | some y =>
    if s.length < 4 then none
    else
      match (skipChar '-' (s.drop 4)).bind fun v1 => getnum v1 true with
      | none => none
      | some (mo, v2) =>
        if mo < 1 ∨ 12 < mo then none
        else
          match (skipChar '-' v2).bind fun v3 => getnum v3 true with
          | none => none
          | some (d, v4) =>
            match (skipChar 'T' v4).bind parseClock with
            | none => none
            | some (h, mi, sec, n, o, l) =>
              if d < 1 ∨ daysIn (y : Int) mo < d then none
              else some ⟨(y : Int), mo, d, h, mi, sec, n, o, l, none⟩

/-- The text between the quotes of a raw JSON string literal, not unescaped. -/
def betweenQuotes (raw : List Char) : Option (List Char) :=
  match raw with
  | '"' :: r => if r.getLast? = some '"' then some r.dropLast else none
  | _ => none

/-- What `Time.UnmarshalJSON` does with the raw text of a JSON value: `null` leaves the
time as it is, a string literal is read as RFC 3339, anything else is an error. -/
def Time.unmarshalJSON (old : Time) (raw : List Char) : Option Time :=
  if raw = "null".toList then some old
  else (betweenQuotes raw).bind Time.parse

/-! ## Decoding into the structs of the repository (`json.Unmarshal`) -/

/-- Why `json.Unmarshal` fails: the text is not JSON, or a value does not fit its target
(an `UnmarshalTypeError`, or the error of `UnmarshalText` or `UnmarshalJSON`). -/
inductive UnmarshalError where
  | syntaxError : UnmarshalError
  | mismatch : UnmarshalError
  deriving DecidableEq, Repr

/-- Case folding of object keys (`foldName`), as far as it can reach an ASCII name: ASCII
letters fold to upper case, and so do the long s (U+017F) and the Kelvin sign (U+212A). -/
def foldChar (c : Char) : Char :=
  if 97 ≤ c.toNat ∧ c.toNat ≤ 122 then Char.ofNat (c.toNat - 32)
  else if c.toNat = 0x17F then 'S'
  else if c.toNat = 0x212A then 'K'
  else c

/-- Does an object key select the field with the given JSON name: an exact match or a
match up to case. -/
def keyIs (key : List Char) (name : String) : Bool :=
  key.map foldChar = name.toList.map foldChar

/-- A decimal literal as `strconv.ParseInt(lit, 10, 64)` reads it: an optional minus
sign and digits only, within the range of `int64`. -/
def parseInt64 (lit : List Char) : Option Int :=
  let neg : Bool := lit.head? = some '-'
  let ds : List Char := if neg then lit.tail else lit
  match ds, digitsVal ds with
  | _ :: _, some n =>
    let v : Int := if neg then -(n : Int) else (n : Int)
    if -9223372036854775808 ≤ v ∧ v ≤ 9223372036854775807 then some v else none
  | _, _ => none

/-- A JSON value stored into a `string` field: a string sets it, `null` leaves it. -/
def stringField (old : String) : JSON → Option String
  | JSON.str s => some (String.mk s)
  | JSON.null => some old
  | _ => none

/-- A JSON value stored into an `int64` (or 64-bit `int`) field. -/
def intField (old : Int) : JSON → Option Int
  | JSON.num lit => parseInt64 lit
  | JSON.null => some old
  | _ => none

/-- A JSON value stored into a `uuid.UUID` field (a `TextUnmarshaler`). -/
def uuidField (old : UUID) : JSON → Option UUID
  | JSON.str s => UUID.parse s
  | JSON.null => some old
  | _ => none

/-- Decoding a JSON text into a struct whose value before the call is `init`: the members
of an object are stored in order by `setField` (key, raw text of the value, value; `none`
when the value does not fit), `null` leaves the struct as it is, any other value does not
fit a struct. -/
def storeMembers {T : Type} (setField : T → List Char → List Char → JSON → Option T) :
    T → List (List Char × List Char × JSON) → Option T
  | t, [] => some t
  | t, m :: ms =>
    match setField t m.1 m.2.1 m.2.2 with
    | some t1 => storeMembers setField t1 ms
    | none => none

/-- The call `json.Unmarshal(data, &t)` for a struct `t` with value `init`. -/
def unmarshalStruct {T : Type} (setField : T → List Char → List Char → JSON → Option T)
    (init : T) (data : List Char) : Except UnmarshalError T :=
  match parseJSON data with
  | none => Except.error UnmarshalError.syntaxError
  | some (JSON.obj ms) =>
    match storeMembers setField init ms with
    | some t => Except.ok t
    | none => Except.error UnmarshalError.mismatch
  | some JSON.null => Except.ok init
  | some _ => Except.error UnmarshalError.mismatch

/-- A `json.RawMessage`: a byte slice, `none` for the nil slice. -/
abbrev RawMessage := Option (List Char)

/-- The bytes of a slice: none for nil. -/
def RawMessage.bytes (m : RawMessage) : List Char := m.getD []

/-- The struct `EventEnvelope` of both programs (its field `Type` is `Type_` here). -/
structure EventEnvelope where
  ID : UUID
  Type_ : String
  Version : Int
  Timestamp : Time
  Data : RawMessage

/-- The struct `PriceCreatedEvent`. -/
structure PriceCreatedEvent where
  StbxProductID : UUID
  StbxPriceID : UUID
  Name : String
  Amount : Int
  Currency : String

/-- The struct `PingEvent`. -/
structure PingEvent where
  Status : String
  deriving DecidableEq, Repr

/-- Zero value of `EventEnvelope` (`var event EventEnvelope`). -/
def EventEnvelope.zero : EventEnvelope := ⟨UUID.nil, "", 0, Time.zero, none⟩

/-- Zero value of `PriceCreatedEvent` (`var productEvent PriceCreatedEvent`). -/
def PriceCreatedEvent.zero : PriceCreatedEvent := ⟨UUID.nil, UUID.nil, "", 0, ""⟩

/-- Zero value of `PingEvent` (`var pingEvent PingEvent`). -/
def PingEvent.zero : PingEvent := ⟨""⟩

/-- Storing one object member into an `EventEnvelope`, by the `json` tags of its fields;
a key that names no field is ignored. -/
def EventEnvelope.setField (e : EventEnvelope) (key raw : List Char) (v : JSON) :
    Option EventEnvelope :=
  if keyIs key "id" then (uuidField e.ID v).map fun x => { e with ID := x }
  else if keyIs key "type" then (stringField e.Type_ v).map fun x => { e with Type_ := x }
  else if keyIs key "version" then (intField e.Version v).map fun x => { e with Version := x }
  else if keyIs key "timestamp" then
    (Time.unmarshalJSON e.Timestamp raw).map fun x => { e with Timestamp := x }
  else if keyIs key "data" then some { e with Data := some raw }
  else some e

/-- Storing one object member into a `PriceCreatedEvent`. -/
def PriceCreatedEvent.setField (e : PriceCreatedEvent) (key _raw : List Char) (v : JSON) :
    Option PriceCreatedEvent :=
  if keyIs key "stbx_product_id" then
    (uuidField e.StbxProductID v).map fun x => { e with StbxProductID := x }
  else if keyIs key "stbx_price_id" then
    (uuidField e.StbxPriceID v).map fun x => { e with StbxPriceID := x }
  else if keyIs key "name" then (stringField e.Name v).map fun x => { e with Name := x }
  else if keyIs key "amount" then (intField e.Amount v).map fun x => { e with Amount := x }
  else if keyIs key "currency" then
    (stringField e.Currency v).map fun x => { e with Currency := x }
  else some e

/-- Storing one object member into a `PingEvent`. -/
def PingEvent.setField (e : PingEvent) (key _raw : List Char) (v : JSON) : Option PingEvent :=
  if keyIs key "status" then (stringField e.Status v).map fun x => { e with Status := x }
  else some e

/-- The call `json.Unmarshal(msg.Data, &event)` of the subscription callbacks. -/
def unmarshalEnvelope (data : List Char) : Except UnmarshalError EventEnvelope :=
  unmarshalStruct EventEnvelope.setField EventEnvelope.zero data

/-- The call `json.Unmarshal(ee.Data, &productEvent)` of `Process`. -/
def unmarshalPriceCreated (data : RawMessage) : Except UnmarshalError PriceCreatedEvent :=
  unmarshalStruct PriceCreatedEvent.setField PriceCreatedEvent.zero data.bytes

/-- The call `json.Unmarshal(ee.Data, &pingEvent)` of `Process`. -/
def unmarshalPing (data : RawMessage) : Except UnmarshalError PingEvent :=
  unmarshalStruct PingEvent.setField PingEvent.zero data.bytes

/-! ## The consumer (`src/consumer/main.go`) -/

/-- The subject constant `priceCreatedSubject` (the same in both programs). -/
def priceCreatedSubject : String := "price.created"

/-- The struct `DBStore`: the map `Data` from product identifiers to records. -/
structure DBStore where
  Data : UUID → Option String

/-- The store of `main`: an empty map. -/
def DBStore.empty : DBStore := ⟨fun _ => none⟩

/-- The errors `Process` returns, by the `fmt.Errorf` that builds them. -/
inductive ProcessError where
  | productData (e : UnmarshalError) : ProcessError
  | pingData (e : UnmarshalError) : ProcessError
  | unknownType (t : String) : ProcessError
  deriving DecidableEq, Repr

/-- The record `prod_<a>:price_<b>` of two generated identifiers. -/
def fakeStripeRecord (a b : UUID) : String :=
  String.mk ("prod_".toList ++ a.toText) ++ ":" ++ String.mk ("price_".toList ++ b.toText)

/-- The method `DBStore.handleProductCreatedEvent`; `a` and `b` are the identifiers the two
calls of `uuid.NewString` generate. -/
def DBStore.handleProductCreatedEvent (db : DBStore) (event : PriceCreatedEvent)
    (a b : UUID) : DBStore :=
  ⟨Function.update db.Data event.StbxProductID (some (fakeStripeRecord a b))⟩

/-- The branch of the `switch` in `Process` a type selects. -/
inductive Branch where
  | priceCreated : Branch
  | pingStatus : Branch
  | unknown : Branch
  deriving DecidableEq, Repr

/-- The `switch ee.Type_` of `Process`. -/
def route (t : String) : Branch :=
  if t = priceCreatedSubject then Branch.priceCreated
  else if t = "ping.api.status" ∨ t = "ping.db.status" ∨ t = "ping.cache.status" then
    Branch.pingStatus
  else Branch.unknown

/-- The method `EventEnvelope.Process`: the error it returns (`none` for `nil`) and the
store after the call.  `a` and `b` are the identifiers `uuid.NewString` would generate. -/
def EventEnvelope.Process (ee : EventEnvelope) (db : DBStore) (a b : UUID) :
    Option ProcessError × DBStore :=
  match route ee.Type_ with
  | Branch.priceCreated =>
    match unmarshalPriceCreated ee.Data with
    | Except.error err => (some (ProcessError.productData err), db)
    | Except.ok productEvent => (none, db.handleProductCreatedEvent productEvent a b)
  | Branch.pingStatus =>
    match unmarshalPing ee.Data with
    | Except.error err => (some (ProcessError.pingData err), db)
    | Except.ok _ => (none, db)
  | Branch.unknown => (some (ProcessError.unknownType ee.Type_), db)

/-- How a subscription callback of `main` ends. -/
inductive Outcome where
  | dropped (e : UnmarshalError) : Outcome
  | failed (e : ProcessError) : Outcome
  | processed : Outcome
  deriving DecidableEq, Repr

/-- The subscription callback of `main` (both subscriptions run the same code) on a message
with bytes `data`: how it ends and the store after it. -/
def onMessage (db : DBStore) (data : List Char) (a b : UUID) : Outcome × DBStore :=
  match unmarshalEnvelope data with
  | Except.error err => (Outcome.dropped err, db)
  | Except.ok event =>
    match event.Process db a b with
    | (some err, db1) => (Outcome.failed err, db1)
    | (none, db1) => (Outcome.processed, db1)


/-! ## Encoding (`json.Marshal` on the structs of the repository) -/

/-- The character of a decimal digit. -/
def digitChar (n : Nat) : Char := Char.ofNat (48 + n % 10)

/-- The decimal digits of a number in front of `acc`; `fuel` bounds the number of digits. -/
def natDigits : Nat → Nat → List Char → List Char
  | 0, _, acc => acc
  | fuel + 1, n, acc =>
    if n < 10 then digitChar n :: acc else natDigits fuel (n / 10) (digitChar n :: acc)

/-- A natural number in decimal. -/
def formatNat (n : Nat) : List Char := natDigits (n + 1) n []

/-- An integer in decimal, as `strconv.AppendInt` writes it. -/
def formatInt (v : Int) : List Char :=
  if v < 0 then '-' :: formatNat v.natAbs else formatNat v.natAbs

/-- A number with two digits. -/
def pad2 (n : Nat) : List Char := [digitChar (n / 10), digitChar n]

/-- A number with four digits. -/
def pad4 (n : Nat) : List Char := pad2 (n / 100) ++ pad2 (n % 100)

/-- Removes the zeros at the end of a fraction. -/
def trimZeros : List Char → List Char
  | [] => []
  | c :: cs =>
    match trimZeros cs with
    | [] => if c = '0' then [] else [c]
    | r => c :: r

/-- The nine digits of the nanoseconds. -/
def nineDigits (n : Nat) : List Char :=
  [digitChar (n / 100000000), digitChar (n / 10000000), digitChar (n / 1000000),
   digitChar (n / 100000), digitChar (n / 10000), digitChar (n / 1000),
   digitChar (n / 100), digitChar (n / 10), digitChar n]

/-- The fraction of a second in the layout `.999999999`: nothing for zero, else a dot and
the digits without the zeros at the end. -/
def formatFrac (nanos : Nat) : List Char :=
  match trimZeros (nineDigits nanos) with
  | [] => []
  | ds => '.' :: ds

/-- The zone as `Time.MarshalJSON` writes it: `Z` for the offset zero, else the sign and
the hours and minutes of the offset, its seconds cut off. -/
def formatZone (offset : Int) : List Char :=
  if offset = 0 then ['Z']
  else (if offset < 0 ∧ 0 < offset.natAbs / 60 then '-' else '+') ::
    (pad2 (offset.natAbs / 60 / 60) ++ ':' :: pad2 (offset.natAbs / 60 % 60))

/-- The time in the layout `time.RFC3339Nano`, for a year of four digits. -/
def Time.format (t : Time) : List Char :=
  pad4 t.year.toNat ++ '-' :: pad2 t.month ++ '-' :: pad2 t.day ++ 'T' :: pad2 t.hour ++
    ':' :: pad2 t.minute ++ ':' :: pad2 t.second ++ formatFrac t.nanos ++ formatZone t.offset

/-- The method `Time.MarshalJSON`: the quoted RFC 3339 text, an error when the year is
outside `[0,9999]` or the hours of the zone offset are outside `[0,23]`. -/
def Time.marshalJSON (t : Time) : Option (List Char) :=
  if 0 ≤ t.year ∧ t.year ≤ 9999 ∧ t.offset.natAbs / 3600 < 24 then
    some ('"' :: t.format ++ ['"'])
  else none

/-- The time that reading the text of a time gives back: the same date and time of day, the
zone offset cut to whole minutes, the location UTC for the offset zero and the location
of `time.Parse` otherwise, and no monotonic reading. -/
def Time.wire (t : Time) : Time :=
  { t with
    offset := if t.offset < 0 then -((t.offset.natAbs / 60 * 60 : Nat) : Int)
      else ((t.offset.natAbs / 60 * 60 : Nat) : Int)
    loc := if t.offset = 0 then Location.utc else Location.parsed
    mono := none }

/-- The escape `\u00XX` or `\u20XX` of a character. -/
def unicodeEscape (c : Char) : List Char :=
  ['\\', 'u', hexDigit (c.toNat / 4096 % 16), hexDigit (c.toNat / 256 % 16),
    hexDigit (c.toNat / 16 % 16), hexDigit (c.toNat % 16)]

/-- Is the character escaped for HTML: `<`, `>`, `&`, U+2028, U+2029. -/
def isHTMLUnsafe (c : Char) : Bool :=
  c = '<' || c = '>' || c = '&' || c.toNat = 0x2028 || c.toNat = 0x2029

/-- One character of a string as `json.Marshal` writes it (with HTML escaping). -/
def escapeChar (c : Char) : List Char :=
  if c = '"' then ['\\', '"']
  else if c = '\\' then ['\\', '\\']
  else if c.toNat = 8 then ['\\', 'b']
  else if c.toNat = 12 then ['\\', 'f']
  else if c.toNat = 10 then ['\\', 'n']
  else if c.toNat = 13 then ['\\', 'r']
  else if c.toNat = 9 then ['\\', 't']
  else if c.toNat < 32 ∨ isHTMLUnsafe c then unicodeEscape c
  else [c]

/-- The characters of a string, escaped. -/
def escapeString : List Char → List Char
  | [] => []
  | c :: cs => escapeChar c ++ escapeString cs

/-- A string as a JSON string literal. -/
def quote (s : String) : List Char := '"' :: escapeString s.toList ++ ['"']

/-- The text of a JSON value without the white space between its tokens and with the
HTML-unsafe characters of its strings escaped; `inStr` tells whether the text starts inside
a string literal. -/
def squeeze : Bool → List Char → List Char
  | _, [] => []
  | false, c :: cs =>
    if isSpace c then squeeze false cs
    else if c = '"' then c :: squeeze true cs
    else c :: squeeze false cs
  | true, c :: cs =>
    if c = '"' then c :: squeeze false cs
    else if c = '\\' then
      match cs with
      | [] => [c]
      | e :: r => c :: e :: squeeze true r
    else if isHTMLUnsafe c then unicodeEscape c ++ squeeze true cs
    else c :: squeeze true cs

/-- The function `compact` with HTML escaping, which `json.Marshal` applies to what a
`MarshalJSON` method returns: an error unless the text is JSON. -/
def compact (data : List Char) : Option (List Char) :=
  match parseJSON data with
  | some _ => some (squeeze false data)
  | none => none

/-- A `json.RawMessage` as `json.Marshal` writes it: `null` for the nil slice, else the
compacted bytes. -/
def RawMessage.marshal (m : RawMessage) : Option (List Char) :=
  match m with
  | none => some "null".toList
  | some bs => compact bs

/-- The call `json.Marshal(eventData)` on an `EventEnvelope`; `none` when it returns an
error. -/
def marshalEnvelope (e : EventEnvelope) : Option (List Char) :=
  match Time.marshalJSON e.Timestamp, e.Data.marshal with
  | some ts, some d =>
    some ("\x7b\"id\":\"".toList ++ e.ID.toText ++ "\",\"type\":".toList ++ quote e.Type_ ++
      ",\"version\":".toList ++ formatInt e.Version ++ ",\"timestamp\":".toList ++ ts ++
      ",\"data\":".toList ++ d ++ "\x7d".toList)
  | _, _ => none

/-- The call `json.Marshal` on a `PingEvent`. -/
def marshalPing (e : PingEvent) : List Char :=
  "\x7b\"status\":".toList ++ quote e.Status ++ "\x7d".toList

/-- The call `json.Marshal` on a `PriceCreatedEvent`. -/
def marshalPriceCreated (e : PriceCreatedEvent) : List Char :=
  "\x7b\"stbx_product_id\":\"".toList ++ e.StbxProductID.toText ++
    "\",\"stbx_price_id\":\"".toList ++ e.StbxPriceID.toText ++ "\",\"name\":".toList ++
    quote e.Name ++ ",\"amount\":".toList ++ formatInt e.Amount ++ ",\"currency\":".toList ++
    quote e.Currency ++ "\x7d".toList

/-! ## The producer (`src/api-producer/main.go`) -/

/-- The subject constant `pingedAPISubject`. -/
def pingedAPISubject : String := "ping.api.status"

/-- The subject constant `pingedDBSubject`. -/
def pingedDBSubject : String := "ping.db.status"

/-- The subject constant `pingedCacheSubject`. -/
def pingedCacheSubject : String := "ping.cache.status"

/-- The subjects `main` passes to `publishMessage`: three in the `/ping` handler, one in
the `/products` handler. -/
def publishedSubjects : List String :=
  [pingedAPISubject, pingedDBSubject, pingedCacheSubject, priceCreatedSubject]

/-- The function `publishMessage`: the envelope `eventData` it builds and the calls of
`nc.Publish` it makes (subject, bytes).  `id` is what `uuid.New` returns and `now` what
`time.Now` returns.  When `json.Marshal` fails it returns before publishing. -/
def publishMessage (subject : String) (message : RawMessage) (id : UUID) (now : Time) :
    EventEnvelope × List (String × List Char) :=
  let eventData : EventEnvelope := ⟨id, subject, 1, now, message⟩
  match marshalEnvelope eventData with
  | none => (eventData, [])
  | some eventBytes => (eventData, [(subject, eventBytes)])


/-! ## Concrete inputs for the examples -/

/-- The status payload `{"status":"Down"}` the producer sends for the cache. -/
def downPayload : List Char := "\x7b\"status\":\"Down\"\x7d".toList

/-- An envelope for the examples: the given type, version and payload. -/
def sampleEnvelope (t : String) (v : Int) (payload : List Char) : EventEnvelope :=
  ⟨UUID.nil, t, v, Time.zero, some payload⟩

/-- A Price-Created payload with product identifier `6ba7b810-...-c8`. -/
def widgetPayload : List Char :=
  ("\x7b\"stbx_product_id\":\"6ba7b810-9dad-11d1-80b4-00c04fd430c8\"," ++
   "\"stbx_price_id\":\"6ba7b811-9dad-11d1-80b4-00c04fd430c8\"," ++
   "\"name\":\"Widget\",\"amount\":500,\"currency\":\"USD\"\x7d").toList

/-- The product identifier of `widgetPayload`. -/
def widgetID : UUID :=
  ![0x6b, 0xa7, 0xb8, 0x10, 0x9d, 0xad, 0x11, 0xd1, 0x80, 0xb4, 0x00, 0xc0, 0x4f, 0xd4, 0x30, 0xc8]

/-- The event `widgetPayload` decodes to. -/
def widgetEvent : PriceCreatedEvent :=
  ⟨widgetID, ![0x6b, 0xa7, 0xb8, 0x11, 0x9d, 0xad, 0x11, 0xd1, 0x80, 0xb4, 0x00, 0xc0, 0x4f, 0xd4, 0x30, 0xc8],
    "Widget", 500, "USD"⟩

/-- A time as `time.Now` returns it: 15 January 2024, 12:30:00 in the local zone, one hour
east of UTC, with a monotonic clock reading. -/
def sampleNow : Time := ⟨2024, 1, 15, 12, 30, 0, 0, 3600, Location.local, some 1⟩

/-- A JSON array as a payload. -/
def arrayPayload : List Char := "[1,2]".toList

/-- A well-formed payload with white space between its tokens. -/
def spacedPayload : List Char := "\x7b\"a\": 1\x7d".toList

/-! ## Predicates used in the proofs -/

/-- Does a key select a field of `PriceCreatedEvent`. -/
def PriceCreatedEvent.isFieldKey (key : List Char) : Bool :=
  keyIs key "stbx_product_id" || keyIs key "stbx_price_id" || keyIs key "name" ||
    keyIs key "amount" || keyIs key "currency"

/-- Can the text follow a number literal: it is empty or starts with a character that is
not a digit, a dot or an exponent mark. -/
def endsNumber : List Char → Bool
  | [] => true
  | c :: _ => !isDigit c && c != '.' && c != 'e' && c != 'E'

/-- Is the character one of those of a number literal: a digit, a sign, a dot or an
exponent mark. -/
def isNumChar (c : Char) : Bool :=
  isDigit c || c = '-' || c = '+' || c = '.' || c = 'e' || c = 'E'

/-- Can the text follow a JSON value inside an array or object, or end the text: it is
empty or starts with a comma, a closing bracket or a closing brace. -/
def isDelim : List Char → Bool
  | [] => true
  | c :: _ => c = ',' || c = ']' || c = '\x7d'

/-- With fuel `f`, a value that parses is squeezed to a text that parses again, with any
fuel above twice its length, in front of any text that can follow a value. -/
def SqueezeValue (f : Nat) : Prop :=
  ∀ (d : Nat) (cs : List Char) (v : JSON) (r : List Char), parseValue f d cs = some (v, r) →
    ∃ (c : Char) (X : List Char), cs.head? = some c ∧ isSpace c = false ∧
      squeeze false cs = (c :: X) ++ squeeze false r ∧
      ∀ (f1 : Nat) (t : List Char), 2 * (X.length + 1) + 1 ≤ f1 → isDelim t = true →
        ∃ v1, parseValue f1 d (c :: X ++ t) = some (v1, t)

/-- The same for the elements of an array up to the closing bracket. -/
def SqueezeElems (f : Nat) : Prop :=
  ∀ (d : Nat) (cs : List Char) (vs : List JSON) (r : List Char),
    parseElems f d cs = some (vs, r) →
    ∃ (c : Char) (X : List Char), cs.head? = some c ∧ isSpace c = false ∧
      squeeze false cs = (c :: X) ++ squeeze false r ∧
      ∀ (f1 : Nat) (t : List Char), 2 * (X.length + 1) + 2 ≤ f1 →
        ∃ vs1, parseElems f1 d (c :: X ++ t) = some (vs1, t)

/-- The same for the members of an object up to the closing brace. -/
def SqueezeMembers (f : Nat) : Prop :=
  ∀ (d : Nat) (cs : List Char) (ms : List (List Char × List Char × JSON)) (r : List Char),
    parseMembers f d cs = some (ms, r) →
    ∃ (X : List Char), squeeze false cs = ('"' :: X) ++ squeeze false r ∧
      ∀ (f1 : Nat) (t : List Char), 2 * (X.length + 1) + 2 ≤ f1 →
        ∃ ms1, parseMembers f1 d ('"' :: X ++ t) = some (ms1, t)

/-- The text of an object with the five members of an envelope, given the raw texts of
their values. -/
def envelopeText (idV tyV verV tsV dataV : List Char) : List Char :=
  '\x7b' :: '"' :: ("id".toList ++ '"' :: ':' ::
    (idV ++ ',' :: '"' :: ("type".toList ++ '"' :: ':' ::
    (tyV ++ ',' :: '"' :: ("version".toList ++ '"' :: ':' ::
    (verV ++ ',' :: '"' :: ("timestamp".toList ++ '"' :: ':' ::
    (tsV ++ ',' :: '"' :: ("data".toList ++ '"' :: ':' ::
    (dataV ++ '\x7d' :: []))))))))))

/-- The text of an encoded Price-Created event, given the texts of its five values. -/
def priceCreatedText (productV priceV nameV amountV currencyV : List Char) : List Char :=
  '\x7b' :: '"' :: ("stbx_product_id".toList ++ '"' :: ':' ::
    (productV ++ ',' :: '"' :: ("stbx_price_id".toList ++ '"' :: ':' ::
    (priceV ++ ',' :: '"' :: ("name".toList ++ '"' :: ':' ::
    (nameV ++ ',' :: '"' :: ("amount".toList ++ '"' :: ':' ::
    (amountV ++ ',' :: '"' :: ("currency".toList ++ '"' :: ':' ::
    (currencyV ++ '\x7d' :: []))))))))))

/-- The text of an encoded status event, given the text of its value. -/
def pingText (statusV : List Char) : List Char :=
  '\x7b' :: '"' :: ("status".toList ++ '"' :: ':' :: (statusV ++ '\x7d' :: []))

/-! # Theorems -/

/-! ## Routing -/

theorem route_priceCreated_iff (t : String) :
    route t = Branch.priceCreated ↔ t = "price.created" := by
  unfold route priceCreatedSubject
  split_ifs with h1 h2 <;> simp_all

theorem route_pingStatus_iff (t : String) :
    route t = Branch.pingStatus ↔
      (t = "ping.api.status" ∨ t = "ping.db.status" ∨ t = "ping.cache.status") := by
  unfold route priceCreatedSubject
  split_ifs with h1 h2
  · subst h1; simp
  · simp [h2]
  · simp [h2]

theorem route_unknown_iff (t : String) :
    route t = Branch.unknown ↔
      ¬ (t = "price.created" ∨ t = "ping.api.status" ∨ t = "ping.db.status" ∨
          t = "ping.cache.status") := by
  unfold route priceCreatedSubject
  split_ifs with h1 h2 <;> simp_all

theorem process_unknown_iff (ee : EventEnvelope) (db : DBStore) (a b : UUID) :
    (∃ t, (ee.Process db a b).1 = some (ProcessError.unknownType t)) ↔
      route ee.Type_ = Branch.unknown := by
  unfold EventEnvelope.Process
  cases h : route ee.Type_ with
  | priceCreated => cases unmarshalPriceCreated ee.Data <;> simp
  | pingStatus => cases unmarshalPing ee.Data <;> simp
  | unknown => simp

/-! ## The store under `Process` and the callback -/

theorem process_error_keeps_store (ee : EventEnvelope) (db : DBStore) (a b : UUID)
    (h : (ee.Process db a b).1 ≠ none) : (ee.Process db a b).2 = db := by
  unfold EventEnvelope.Process at h ⊢
  cases hr : route ee.Type_ with
  | priceCreated =>
    simp only [hr] at h ⊢
    cases hu : unmarshalPriceCreated ee.Data with
    | error e => rfl
    | ok ev => simp [hu] at h
  | pingStatus =>
    simp only [hr]
    cases hu : unmarshalPing ee.Data <;> rfl
  | unknown => rfl

/-! ## Identifiers: text round trip -/

set_option maxRecDepth 100000 in
theorem xtob_hexByte : ∀ b : Fin 256,
    xtob (hexDigit (b.val / 16)) (hexDigit (b.val % 16)) = some b := by decide

theorem hexBytes_hexByte (b : Fin 256) (cs : List Char) :
    hexBytes (hexByte b ++ cs) = (hexBytes cs).map fun xs => b :: xs := by
  cases h : hexBytes cs <;> simp [hexByte, hexBytes, xtob_hexByte, h]

theorem UUID.toText_length (u : UUID) : u.toText.length = 36 := by
  simp [UUID.toText, hexByte]

theorem UUID.ofBytes_self (u : UUID) :
    UUID.ofBytes [u 0, u 1, u 2, u 3, u 4, u 5, u 6, u 7, u 8, u 9, u 10, u 11, u 12, u 13,
      u 14, u 15] = some u := by
  simp only [UUID.ofBytes, Option.some.injEq]
  funext i
  fin_cases i <;> rfl

set_option maxRecDepth 100000 in
theorem hexByte_ascii : ∀ b : Fin 256,
    (hexByte b).any (fun c => decide (128 ≤ c.toNat)) = false := by decide

theorem UUID.toText_ascii (u : UUID) :
    u.toText.any (fun c => decide (128 ≤ c.toNat)) = false := by
  have hd : decide (128 ≤ ('-' : Char).toNat) = false := by decide
  simp only [UUID.toText, List.any_append, List.any_cons, hexByte_ascii, hd, Bool.or_false,
    Bool.false_or]

theorem UUID.parse_toText (u : UUID) : UUID.parse u.toText = some u := by
  have hl := UUID.toText_length u
  unfold UUID.parse
  rw [UUID.toText_ascii, if_neg (by simp), if_pos hl]
  unfold parseDashed
  rw [if_pos ⟨hl, by simp [UUID.toText, hexByte], by simp [UUID.toText, hexByte],
    by simp [UUID.toText, hexByte], by simp [UUID.toText, hexByte]⟩]
  have : List.take 8 u.toText ++ List.take 4 (List.drop 9 u.toText) ++
      List.take 4 (List.drop 14 u.toText) ++ List.take 4 (List.drop 19 u.toText) ++
      List.drop 24 u.toText =
      hexByte (u 0) ++ (hexByte (u 1) ++ (hexByte (u 2) ++ (hexByte (u 3) ++ (hexByte (u 4) ++
      (hexByte (u 5) ++ (hexByte (u 6) ++ (hexByte (u 7) ++ (hexByte (u 8) ++ (hexByte (u 9) ++
      (hexByte (u 10) ++ (hexByte (u 11) ++ (hexByte (u 12) ++ (hexByte (u 13) ++
      (hexByte (u 14) ++ (hexByte (u 15) ++ []))))))))))))))) := by
    simp [UUID.toText, hexByte]
  rw [this]
  have h0 : hexBytes [] = some [] := rfl
  simp only [hexBytes_hexByte, h0, Option.map_some', Option.some_bind]
  exact UUID.ofBytes_self u

theorem UUID.toText_inj (u v : UUID) (h : u.toText = v.toText) : u = v := by
  have h1 := UUID.parse_toText u
  rw [h, UUID.parse_toText] at h1
  exact (Option.some.inj h1).symm

theorem fakeStripeRecord_inj (a b c d : UUID) (h : fakeStripeRecord a b = fakeStripeRecord c d) :
    a = c ∧ b = d := by
  unfold fakeStripeRecord at h
  have h1 := congrArg String.data h
  simp only [String.data_append, List.append_assoc] at h1
  have h2 := (List.append_inj h1 rfl).2
  have h3 := List.append_inj h2 (by simp [UUID.toText_length])
  have h4 := (List.append_inj h3.2 rfl).2
  have h5 := (List.append_inj h4 rfl).2
  exact ⟨UUID.toText_inj _ _ h3.1, UUID.toText_inj _ _ h5⟩

set_option maxRecDepth 100000 in
theorem widgetPayload_decodes :
    unmarshalPriceCreated (some widgetPayload) = Except.ok widgetEvent := by
  rfl

theorem storeMembers_no_field (e : PriceCreatedEvent)
    (ms : List (List Char × List Char × JSON))
    (h : ∀ m ∈ ms, PriceCreatedEvent.isFieldKey m.1 = false) :
    storeMembers PriceCreatedEvent.setField e ms = some e := by
  induction ms with
  | nil => rfl
  | cons m ms ih =>
    have hm := h m (List.mem_cons_self _ _)
    simp only [PriceCreatedEvent.isFieldKey, Bool.or_eq_false_iff] at hm
    have hs : PriceCreatedEvent.setField e m.1 m.2.1 m.2.2 = some e := by
      simp [PriceCreatedEvent.setField, hm.1.1.1.1, hm.1.1.1.2, hm.1.1.2, hm.1.2, hm.2]
    simp only [storeMembers, hs]
    exact ih fun x hx => h x (List.mem_cons_of_mem _ hx)

theorem publishMessage_envelope (t : String) (p : RawMessage) (id : UUID) (now : Time) :
    (publishMessage t p id now).1 = ⟨id, t, 1, now, p⟩ := by
  unfold publishMessage
  dsimp only
  split <;> rfl

theorem publishMessage_calls (t : String) (p : RawMessage) (id : UUID) (now : Time) :
    (publishMessage t p id now).2 =
      match marshalEnvelope ⟨id, t, 1, now, p⟩ with
      | some eventBytes => [(t, eventBytes)]
      | none => [] := by
  unfold publishMessage
  dsimp only
  split <;> rename_i h <;> simp [h]

/-! ## JSON strings: encoding then decoding -/

theorem hexVal_hexDigit : ∀ n : Fin 16, hexVal (hexDigit n.val) = some n.val := by decide

theorem hex4_unicodeEscape (n : Nat) (h : n < 65536) :
    hex4 (hexDigit (n / 4096 % 16)) (hexDigit (n / 256 % 16)) (hexDigit (n / 16 % 16))
      (hexDigit (n % 16)) = some n := by
  have h3 := hexVal_hexDigit ⟨n / 4096 % 16, Nat.mod_lt _ (by norm_num)⟩
  have h2 := hexVal_hexDigit ⟨n / 256 % 16, Nat.mod_lt _ (by norm_num)⟩
  have h1 := hexVal_hexDigit ⟨n / 16 % 16, Nat.mod_lt _ (by norm_num)⟩
  have h0 := hexVal_hexDigit ⟨n % 16, Nat.mod_lt _ (by norm_num)⟩
  simp only at h3 h2 h1 h0
  simp only [hex4, h3, h2, h1, h0, Option.some.injEq]
  omega

theorem parseStringFrom_unicodeEscape (c : Char) (rest : List Char)
    (h : c.toNat < 32 ∨ isHTMLUnsafe c = true) :
    parseStringFrom none (unicodeEscape c ++ rest) =
      (parseStringFrom none rest).map fun p => (c :: p.1, p.2) := by
  have hlt : c.toNat < 65536 := by
    rcases h with h | h
    · omega
    · simp only [isHTMLUnsafe, Bool.or_eq_true, decide_eq_true_eq] at h
      rcases h with (((h | h) | h) | h) | h
      · subst h; decide
      · subst h; decide
      · subst h; decide
      · omega
      · omega
  have hns : ¬ (0xDC00 ≤ c.toNat ∧ c.toNat < 0xE000) ∧ ¬ (0xD800 ≤ c.toNat ∧ c.toNat < 0xDC00) := by
    rcases h with h | h
    · omega
    · simp only [isHTMLUnsafe, Bool.or_eq_true, decide_eq_true_eq] at h
      rcases h with (((h | h) | h) | h) | h
      · subst h; decide
      · subst h; decide
      · subst h; decide
      · omega
      · omega
  simp only [unicodeEscape, List.cons_append, List.nil_append]
  rw [parseStringFrom]
  simp only [show ¬ ('\\' = '"') by decide, if_false, if_true, hex4_unicodeEscape _ hlt,
    hns.1, hns.2, flushSurrogate, List.nil_append, Char.ofNat_toNat]

theorem parseStringFrom_simple (e x : Char) (rest : List Char) (he : e ≠ 'u')
    (hs : simpleEscape e = some x) :
    parseStringFrom none ('\\' :: e :: rest) =
      (parseStringFrom none rest).map fun p => (x :: p.1, p.2) := by
  rw [parseStringFrom.eq_def]
  simp [he, hs, flushSurrogate]

theorem parseStringFrom_escapeChar (c : Char) (rest : List Char) :
    parseStringFrom none (escapeChar c ++ rest) =
      (parseStringFrom none rest).map fun p => (c :: p.1, p.2) := by
  unfold escapeChar
  split_ifs with h1 h2 h3 h4 h5 h6 h7 h8
  · subst h1
    exact parseStringFrom_simple _ _ _ (by decide) (by decide)
  · subst h2
    exact parseStringFrom_simple _ _ _ (by decide) (by decide)
  · have : c = Char.ofNat 8 := by rw [← h3, Char.ofNat_toNat]
    subst this
    exact parseStringFrom_simple _ _ _ (by decide) (by decide)
  · have : c = Char.ofNat 12 := by rw [← h4, Char.ofNat_toNat]
    subst this
    exact parseStringFrom_simple _ _ _ (by decide) (by decide)
  · have : c = Char.ofNat 10 := by rw [← h5, Char.ofNat_toNat]
    subst this
    exact parseStringFrom_simple _ _ _ (by decide) (by decide)
  · have : c = Char.ofNat 13 := by rw [← h6, Char.ofNat_toNat]
    subst this
    exact parseStringFrom_simple _ _ _ (by decide) (by decide)
  · have : c = Char.ofNat 9 := by rw [← h7, Char.ofNat_toNat]
    subst this
    exact parseStringFrom_simple _ _ _ (by decide) (by decide)
  · exact parseStringFrom_unicodeEscape c rest (by simpa using h8)
  · have h32 : ¬ c.toNat < 32 := fun h => h8 (Or.inl h)
    simp only [List.cons_append, List.nil_append]
    rw [parseStringFrom.eq_def]
    simp [h1, h2, h32, flushSurrogate]

theorem parseStringFrom_escapeString (s rest : List Char) :
    parseStringFrom none (escapeString s ++ '"' :: rest) = some (s, rest) := by
  induction s with
  | nil =>
    rw [escapeString, List.nil_append, parseStringFrom.eq_def]
    simp [flushSurrogate]
  | cons c cs ih =>
    simp only [escapeString, List.append_assoc]
    rw [parseStringFrom_escapeChar, ih]
    rfl

theorem parseString_quote (s : String) (rest : List Char) :
    parseString (escapeString s.toList ++ '"' :: rest) = some (s.toList, rest) :=
  parseStringFrom_escapeString _ _

/-! ## Decimal numbers -/

theorem isDigit_digitChar (n : Nat) : isDigit (digitChar n) = true := by
  have h : ∀ k : Fin 10, isDigit (Char.ofNat (48 + k.val)) = true := by decide
  exact h ⟨n % 10, Nat.mod_lt _ (by norm_num)⟩

theorem digitChar_toNat (n : Nat) : (digitChar n).toNat - 48 = n % 10 := by
  have h : ∀ k : Fin 10, (Char.ofNat (48 + k.val)).toNat - 48 = k.val := by decide
  exact h ⟨n % 10, Nat.mod_lt _ (by norm_num)⟩

theorem digitChar_eq_zero (n : Nat) : digitChar n = '0' ↔ n % 10 = 0 := by
  have h : ∀ k : Fin 10, Char.ofNat (48 + k.val) = '0' ↔ k.val = 0 := by decide
  exact h ⟨n % 10, Nat.mod_lt _ (by norm_num)⟩

theorem digitsVal_append (xs ys : List Char) (a b : Nat) (hx : digitsVal xs = some a)
    (hy : digitsVal ys = some b) : digitsVal (xs ++ ys) = some (a * 10 ^ ys.length + b) := by
  induction xs generalizing a with
  | nil =>
    simp only [digitsVal, Option.some.injEq] at hx
    subst hx
    simpa using hy
  | cons c cs ih =>
    simp only [digitsVal] at hx
    split_ifs at hx with hc
    cases hcs : digitsVal cs with
    | none => simp [hcs] at hx
    | some v =>
      simp only [hcs, Option.map_some', Option.some.injEq] at hx
      have ih' := ih v hcs
      rw [← hx]
      show digitsVal (c :: (cs ++ ys)) = _
      simp only [digitsVal, hc, if_true, ih', Option.map_some', Option.some.injEq,
        List.length_append]
      ring

theorem digitsVal_single (n : Nat) : digitsVal [digitChar n] = some (n % 10) := by
  simp [digitsVal, isDigit_digitChar, digitChar_toNat]

/-- What `natDigits` produces with enough fuel: digits in front of `acc` that read as `n`,
without a leading zero unless `n` is zero. -/
theorem natDigits_spec (fuel : Nat) : ∀ (n : Nat) (acc : List Char), n < 10 ^ fuel → 0 < fuel →
    ∃ ds, natDigits fuel n acc = ds ++ acc ∧ digitsVal ds = some n ∧ ds ≠ [] ∧
      (∀ c ∈ ds, isDigit c = true) ∧ (ds.head? = some '0' → ds = ['0']) := by
  induction fuel with
  | zero => intro n acc _ h; omega
  | succ f ih =>
    intro n acc hn _
    unfold natDigits
    split_ifs with h10
    · refine ⟨[digitChar n], rfl, ?_, by simp, ?_, by simp⟩
      · rw [digitsVal_single, Nat.mod_eq_of_lt h10]
      · intro c hc
        simp only [List.mem_singleton] at hc
        rw [hc]; exact isDigit_digitChar n
    · have hf : 0 < f := by
        rcases Nat.eq_zero_or_pos f with h0 | h0
        · subst h0; simp at hn; omega
        · exact h0
      have hn' : n / 10 < 10 ^ f := by
        rw [pow_succ] at hn
        exact Nat.div_lt_of_lt_mul (by omega)
      obtain ⟨ds, h1, h2, h3, h4, h5⟩ := ih (n / 10) (digitChar n :: acc) hn' hf
      refine ⟨ds ++ [digitChar n], by simp [h1], ?_, by simp, ?_, ?_⟩
      · rw [digitsVal_append ds [digitChar n] _ _ h2 (digitsVal_single n)]
        simp only [List.length_singleton, pow_one, Option.some.injEq]
        omega
      · intro c hc
        rcases List.mem_append.1 hc with hc | hc
        · exact h4 c hc
        · simp only [List.mem_singleton] at hc
          rw [hc]; exact isDigit_digitChar n
      · intro hh
        exfalso
        cases ds with
        | nil => exact h3 rfl
        | cons d ds' =>
          simp only [List.cons_append, List.head?_cons, Option.some.injEq] at hh
          have := h5 (by simp [hh])
          rw [this] at h2
          simp only [digitsVal, Option.map_some'] at h2
          have h0 : isDigit '0' = true := by decide
          simp only [h0, if_true, Option.some.injEq] at h2
          have : ('0' : Char).toNat - 48 = 0 := by decide
          simp [this] at h2
          omega

theorem formatNat_spec (n : Nat) :
    digitsVal (formatNat n) = some n ∧ formatNat n ≠ [] ∧
      (∀ c ∈ formatNat n, isDigit c = true) ∧
      ((formatNat n).head? = some '0' → formatNat n = ['0']) := by
  have hlt : n < 10 ^ (n + 1) := by
    calc n < 2 ^ n := Nat.lt_two_pow n
      _ ≤ 10 ^ n := Nat.pow_le_pow_left (by norm_num) n
      _ ≤ 10 ^ (n + 1) := Nat.pow_le_pow_right (by norm_num) (by omega)
  obtain ⟨ds, h1, h2, h3, h4, h5⟩ := natDigits_spec (n + 1) n [] hlt (by omega)
  rw [List.append_nil] at h1
  unfold formatNat
  rw [h1]
  exact ⟨h2, h3, h4, h5⟩

theorem spanDigits_append (ds t : List Char) (hd : ∀ c ∈ ds, isDigit c = true)
    (ht : endsNumber t = true) : spanDigits (ds ++ t) = (ds, t) := by
  induction ds with
  | nil =>
    cases t with
    | nil => rfl
    | cons c r =>
      simp only [endsNumber, Bool.and_eq_true, Bool.not_eq_true'] at ht
      simp [spanDigits, ht.1.1.1]
  | cons d ds ih =>
    have hd' : isDigit d = true := hd d (List.mem_cons_self _ _)
    have := ih fun c hc => hd c (List.mem_cons_of_mem _ hc)
    simp [spanDigits, hd', this]

theorem parseFrac_end (t : List Char) (ht : endsNumber t = true) : parseFrac t = some ([], t) := by
  cases t with
  | nil => rfl
  | cons c r =>
    simp only [endsNumber, Bool.and_eq_true, Bool.not_eq_true', bne_iff_ne, ne_eq] at ht
    unfold parseFrac
    split
    · rename_i h; simp only [List.cons.injEq] at h; exact absurd h.1 ht.1.1.2
    · rfl

theorem parseExp_end (t : List Char) (ht : endsNumber t = true) : parseExp t = some ([], t) := by
  cases t with
  | nil => rfl
  | cons c r =>
    simp only [endsNumber, Bool.and_eq_true, Bool.not_eq_true', bne_iff_ne, ne_eq] at ht
    simp [parseExp, ht.1.2, ht.2]

theorem parseIntPart_formatNat (n : Nat) (t : List Char) (ht : endsNumber t = true) :
    parseIntPart (formatNat n ++ t) = some (formatNat n, t) := by
  obtain ⟨_, h2, h3, h4⟩ := formatNat_spec n
  cases hds : formatNat n with
  | nil => exact absurd hds h2
  | cons c ds =>
    rw [hds] at h3 h4
    have hc : isDigit c = true := h3 c (List.mem_cons_self _ _)
    simp only [List.cons_append, parseIntPart]
    by_cases h0 : c = '0'
    · have := h4 (by simp [h0])
      simp only [List.cons.injEq] at this
      simp [h0, this.2]
    · have hs := spanDigits_append ds t (fun x hx => h3 x (List.mem_cons_of_mem _ hx)) ht
      simp [h0, hc, hs]

theorem parseNumber_formatInt (v : Int) (t : List Char) (ht : endsNumber t = true) :
    parseNumber (formatInt v ++ t) = some (formatInt v, t) := by
  obtain ⟨_, h2, h3, _⟩ := formatNat_spec v.natAbs
  unfold formatInt
  split_ifs with hneg
  · simp [parseNumber, parseIntPart_formatNat _ t ht, parseFrac_end t ht, parseExp_end t ht]
  · cases hds : formatNat v.natAbs with
    | nil => exact absurd hds h2
    | cons c ds =>
      have hc : isDigit c = true := by rw [hds] at h3; exact h3 c (List.mem_cons_self _ _)
      have hne : c ≠ '-' := by intro h; rw [h] at hc; revert hc; decide
      have hp := parseIntPart_formatNat v.natAbs t ht
      rw [hds] at hp
      simp only [List.cons_append] at hp
      simp [parseNumber, hne, hp, parseFrac_end t ht, parseExp_end t ht]

theorem parseInt64_formatInt (v : Int)
    (hv : -9223372036854775808 ≤ v ∧ v ≤ 9223372036854775807) :
    parseInt64 (formatInt v) = some v := by
  obtain ⟨h1, h2, h3, _⟩ := formatNat_spec v.natAbs
  unfold formatInt
  split_ifs with hneg
  · cases hds : formatNat v.natAbs with
    | nil => exact absurd hds h2
    | cons c ds =>
      rw [hds] at h1
      have hv' : |v| = -v := abs_of_neg hneg
      simp [parseInt64, h1, hv']
      omega
  · cases hds : formatNat v.natAbs with
    | nil => exact absurd hds h2
    | cons c ds =>
      have hc : isDigit c = true := by rw [hds] at h3; exact h3 c (List.mem_cons_self _ _)
      have hne : c ≠ '-' := by intro h; rw [h] at hc; revert hc; decide
      rw [hds] at h1
      have hv' : |v| = v := abs_of_nonneg (by omega)
      simp [parseInt64, h1, hv', hne]
      omega

/-! ## Timestamps: formatting then parsing -/

theorem digitsVal_pad2 (n : Nat) (h : n < 100) :
    digitsVal [digitChar (n / 10), digitChar n] = some n := by
  simp only [digitsVal, isDigit_digitChar, if_true, digitChar_toNat, Option.map_some',
    List.length_cons, List.length_nil, Option.some.injEq]
  omega

theorem digitsVal_pad4 (n : Nat) (h : n ≤ 9999) :
    digitsVal [digitChar (n / 100 / 10), digitChar (n / 100), digitChar (n % 100 / 10),
      digitChar (n % 100)] = some n := by
  simp only [digitsVal, isDigit_digitChar, if_true, digitChar_toNat, Option.map_some',
    List.length_cons, List.length_nil, Option.some.injEq]
  omega

theorem digitsVal_nineDigits (n : Nat) (h : n < 1000000000) :
    digitsVal (nineDigits n) = some n := by
  simp only [nineDigits, digitsVal, isDigit_digitChar, if_true, digitChar_toNat,
    Option.map_some', List.length_cons, List.length_nil, Option.some.injEq]
  omega

theorem trimZeros_spec (l : List Char) :
    ∃ k, l = trimZeros l ++ List.replicate k '0' ∧ (trimZeros l = [] → ∀ c ∈ l, c = '0') ∧
      (∀ c ∈ trimZeros l, c ∈ l) := by
  induction l with
  | nil => exact ⟨0, rfl, by simp, by simp [trimZeros]⟩
  | cons c cs ih =>
    obtain ⟨k, hk, h0, hm⟩ := ih
    cases ht : trimZeros cs with
    | nil =>
      rw [ht] at hk h0
      by_cases hc : c = '0'
      · refine ⟨k + 1, ?_, ?_, ?_⟩
        · simp only [trimZeros, ht, hc, if_true, List.nil_append]
          rw [List.replicate_succ, ← List.nil_append (List.replicate k '0'), ← hk]
        · intro _ x hx
          rcases List.mem_cons.1 hx with hx | hx
          · rw [hx, hc]
          · exact h0 rfl x hx
        · simp [trimZeros, ht, hc]
      · refine ⟨k, ?_, ?_, ?_⟩
        · simp only [trimZeros, ht, hc, if_false]
          rw [List.singleton_append, ← List.nil_append (List.replicate k '0'), ← hk]
        · simp [trimZeros, ht, hc]
        · simp [trimZeros, ht, hc]
    | cons d ds =>
      rw [ht] at hk hm
      refine ⟨k, ?_, ?_, ?_⟩
      · simp only [trimZeros, ht]
        rw [List.cons_append, ← hk]
      · simp [trimZeros, ht]
      · intro x hx
        simp only [trimZeros, ht] at hx
        rcases List.mem_cons.1 hx with hx | hx
        · rw [hx]; exact List.mem_cons_self _ _
        · exact List.mem_cons_of_mem _ (hm x (by simpa using hx))

theorem nineDigits_digits (n : Nat) : ∀ c ∈ nineDigits n, isDigit c = true := by
  intro c hc
  simp only [nineDigits, List.mem_cons, List.mem_singleton, List.not_mem_nil, or_false] at hc
  rcases hc with h | h | h | h | h | h | h | h | h <;> rw [h] <;> exact isDigit_digitChar _

theorem fracNanos_trimZeros (n : Nat) (h : n < 1000000000) :
    fracNanos (trimZeros (nineDigits n)) = some n := by
  obtain ⟨k, hk, _, _⟩ := trimZeros_spec (nineDigits n)
  have hlen : (trimZeros (nineDigits n)).length + k = 9 := by
    have := congrArg List.length hk
    simp only [List.length_append, List.length_replicate] at this
    rw [← this]; rfl
  have h9 : List.replicate 9 '0' = List.replicate k '0' ++ List.replicate (9 - k) '0' := by
    rw [← List.replicate_add]; congr 1; omega
  unfold fracNanos
  rw [h9, ← List.append_assoc, ← hk, List.take_append_of_le_length (by simp [nineDigits]),
    List.take_of_length_le (by simp [nineDigits])]
  exact digitsVal_nineDigits n h

theorem nineDigits_all_zero (n : Nat) (h : n < 1000000000)
    (h0 : ∀ c ∈ nineDigits n, c = '0') : n = 0 := by
  have e1 := (digitChar_eq_zero _).1 (h0 (digitChar (n / 100000000)) (by simp [nineDigits]))
  have e2 := (digitChar_eq_zero _).1 (h0 (digitChar (n / 10000000)) (by simp [nineDigits]))
  have e3 := (digitChar_eq_zero _).1 (h0 (digitChar (n / 1000000)) (by simp [nineDigits]))
  have e4 := (digitChar_eq_zero _).1 (h0 (digitChar (n / 100000)) (by simp [nineDigits]))
  have e5 := (digitChar_eq_zero _).1 (h0 (digitChar (n / 10000)) (by simp [nineDigits]))
  have e6 := (digitChar_eq_zero _).1 (h0 (digitChar (n / 1000)) (by simp [nineDigits]))
  have e7 := (digitChar_eq_zero _).1 (h0 (digitChar (n / 100)) (by simp [nineDigits]))
  have e8 := (digitChar_eq_zero _).1 (h0 (digitChar (n / 10)) (by simp [nineDigits]))
  have e9 := (digitChar_eq_zero _).1 (h0 (digitChar n) (by simp [nineDigits]))
  omega

theorem getnum_digits (n : Nat) (h : n < 100) (rest : List Char) (fixed : Bool) :
    getnum (digitChar (n / 10) :: digitChar n :: rest) fixed = some (n, rest) := by
  simp only [getnum, isDigit_digitChar, if_true, digitChar_toNat, Option.some.injEq,
    Prod.mk.injEq, and_true]
  omega

theorem parseZone_formatZone (o : Int) (h : o.natAbs / 3600 < 24) :
    parseZone (formatZone o) =
      some (if o < 0 then -((o.natAbs / 60 * 60 : Nat) : Int)
          else ((o.natAbs / 60 * 60 : Nat) : Int),
        if o = 0 then Location.utc else Location.parsed, []) := by
  unfold formatZone
  have h1 : o.natAbs / 60 / 60 < 100 := by omega
  have h2 : o.natAbs / 60 % 60 < 100 := by omega
  have h3 : o.natAbs / 60 / 60 ≤ 24 ∧ o.natAbs / 60 % 60 ≤ 60 := by omega
  have he : (o.natAbs / 60 / 60 * 60 + o.natAbs / 60 % 60) * 60 = o.natAbs / 60 * 60 := by
    omega
  by_cases h0 : o = 0
  · subst h0; rfl
  · by_cases hneg : o < 0 ∧ 0 < o.natAbs / 60
    · simp only [h0, hneg, and_self, if_true, if_false, pad2, List.cons_append,
        List.nil_append, parseZone, show ¬ ('-' = 'Z') by decide,
        show ¬ ('-' = '+') by decide, getnum_digits _ h1, getnum_digits _ h2, h3, he]
    · simp only [h0, hneg, if_false, pad2, List.cons_append,
        List.nil_append, parseZone, show ¬ ('+' = 'Z') by decide, if_true,
        getnum_digits _ h1, getnum_digits _ h2, h3, and_self, he, Option.some.injEq,
        Prod.mk.injEq, and_true]
      by_cases hn : o < 0
      · have hz : o.natAbs / 60 = 0 := by
          by_contra hc; exact hneg ⟨hn, Nat.pos_of_ne_zero hc⟩
        simp [hn, hz]
      · simp [hn]

theorem formatZone_head (o : Int) :
    ∃ c r, formatZone o = c :: r ∧ c ≠ '.' ∧ c ≠ ',' ∧ endsNumber (c :: r) = true := by
  unfold formatZone
  split_ifs with h0 hneg
  · exact ⟨'Z', [], rfl, by decide, by decide, by decide⟩
  · exact ⟨'-', _, rfl, by decide, by decide, rfl⟩
  · exact ⟨'+', _, rfl, by decide, by decide, rfl⟩

theorem parseFrac9_format (n : Nat) (o : Int) (hn : n < 1000000000) :
    parseFrac9 (formatFrac n ++ formatZone o) = some (n, formatZone o) := by
  obtain ⟨c, r, hz, hc, hc2, he⟩ := formatZone_head o
  obtain ⟨k, hk, hzero, hmem⟩ := trimZeros_spec (nineDigits n)
  unfold formatFrac
  cases ht : trimZeros (nineDigits n) with
  | nil =>
    have hn0 : n = 0 := nineDigits_all_zero n hn (hzero ht)
    simp only [List.nil_append]
    rw [hz, hn0]
    cases r with
    | nil => rfl
    | cons d r2 => simp only [parseFrac9, hc, hc2, or_self, false_and, if_false]
  | cons d ds =>
    have hdig : ∀ x ∈ d :: ds, isDigit x = true := by
      intro x hx
      exact nineDigits_digits n x (hmem x (by rw [ht]; exact hx))
    have hs := spanDigits_append (d :: ds) (formatZone o) hdig (by rw [hz]; exact he)
    have hf := fracNanos_trimZeros n hn
    rw [ht] at hf
    have hd : isDigit d = true := hdig d (List.mem_cons_self _ _)
    simp only [List.cons_append] at hs ⊢
    simp only [parseFrac9, true_or, hd, and_self, if_true, hs, hf, Option.map_some']

theorem parseClock_format (h mi s n : Nat) (o : Int) (hh : h < 24) (hmi : mi < 60)
    (hs : s < 60) (hn : n < 1000000000) (ho : o.natAbs / 3600 < 24) :
    parseClock (digitChar (h / 10) :: digitChar h :: ':' :: digitChar (mi / 10) ::
        digitChar mi :: ':' :: digitChar (s / 10) :: digitChar s ::
        (formatFrac n ++ formatZone o)) =
      some (h, mi, s, n, (if o < 0 then -((o.natAbs / 60 * 60 : Nat) : Int)
          else ((o.natAbs / 60 * 60 : Nat) : Int)),
        if o = 0 then Location.utc else Location.parsed) := by
  simp only [parseClock, getnum_digits h (by omega), skipChar, if_true, Option.bind_some,
    Option.some_bind, getnum_digits mi (by omega), getnum_digits s (by omega),
    show ¬ 24 ≤ h by omega, show ¬ 60 ≤ mi by omega, show ¬ 60 ≤ s by omega, if_false,
    parseFrac9_format n o hn, parseZone_formatZone o ho]

theorem Time.parse_format (t : Time) (hw : t.wellFormed) (hm : t.marshals) :
    Time.parse t.format = some t.wire := by
  obtain ⟨hm1, hm2, hd1, hd2, hh, hmi, hs, hn, _⟩ := hw
  obtain ⟨hy0, hy1, ho⟩ := hm
  have hy : ((t.year.toNat : Nat) : Int) = t.year := Int.toNat_of_nonneg hy0
  have hy2 : t.year.toNat ≤ 9999 := by omega
  have hd3 : t.day ≤ 31 := by
    refine le_trans hd2 ?_
    unfold daysIn
    split_ifs <;> omega
  simp only [Time.format, pad4, pad2, List.cons_append, List.nil_append, List.append_assoc,
    Time.parse, List.take_succ_cons, List.take_zero, digitsVal_pad4 _ hy2,
    List.length_cons, List.drop_succ_cons, List.drop_zero, skipChar, if_true,
    Option.some_bind, getnum_digits t.month (by omega), getnum_digits t.day (by omega),
    parseClock_format t.hour t.minute t.second t.nanos t.offset hh hmi hs hn ho, hy]
  have e1 : ¬ (t.month < 1 ∨ 12 < t.month) := by omega
  have e2 : ¬ (t.day < 1 ∨ daysIn t.year t.month < t.day) := by omega
  rw [if_neg (by omega), if_neg e1, if_neg e2]
  rfl

/-! ## Number literals in a new context -/

theorem squeeze_numChars (lit r : List Char) (h : ∀ c ∈ lit, isNumChar c = true) :
    squeeze false (lit ++ r) = lit ++ squeeze false r := by
  induction lit with
  | nil => rfl
  | cons c cs ih =>
    have hc := h c (List.mem_cons_self _ _)
    have h1 : isSpace c = false := by
      simp only [isNumChar, Bool.or_eq_true, decide_eq_true_eq] at hc
      rcases hc with ((((hc | hc) | hc) | hc) | hc) | hc
      · simp only [isDigit, Bool.and_eq_true, decide_eq_true_eq] at hc
        simp only [isSpace, Bool.or_eq_false_iff, decide_eq_false_iff_not]
        omega
      all_goals subst hc; decide
    have h2 : c ≠ '"' := by
      simp only [isNumChar, Bool.or_eq_true, decide_eq_true_eq] at hc
      rcases hc with ((((hc | hc) | hc) | hc) | hc) | hc
      · intro hq; subst hq; revert hc; decide
      all_goals subst hc; decide
    simp only [List.cons_append, squeeze, h1, h2, if_false, Bool.false_eq_true]
    exact congrArg _ (ih fun x hx => h x (List.mem_cons_of_mem _ hx))

theorem spanDigits_append_head (ds t : List Char) (hd : ∀ c ∈ ds, isDigit c = true)
    (ht : ∀ c, t.head? = some c → isDigit c = false) : spanDigits (ds ++ t) = (ds, t) := by
  induction ds with
  | nil =>
    cases t with
    | nil => rfl
    | cons c r => simp [spanDigits, ht c rfl]
  | cons d ds ih =>
    have hd1 : isDigit d = true := hd d (List.mem_cons_self _ _)
    have := ih fun c hc => hd c (List.mem_cons_of_mem _ hc)
    simp [spanDigits, hd1, this]

theorem spanDigits_spec (cs : List Char) :
    cs = (spanDigits cs).1 ++ (spanDigits cs).2 ∧
    (∀ c ∈ (spanDigits cs).1, isDigit c = true) := by
  induction cs with
  | nil => exact ⟨rfl, by simp [spanDigits]⟩
  | cons c cs ih =>
    by_cases hc : isDigit c = true
    · simp only [spanDigits, hc, if_true, List.cons_append]
      refine ⟨by rw [← ih.1], ?_⟩
      intro x hx
      rcases List.mem_cons.1 hx with hx | hx
      · rw [hx]; exact hc
      · exact ih.2 x hx
    · simp only [spanDigits, hc, if_false, Bool.false_eq_true]
      exact ⟨rfl, by simp⟩

theorem isNumChar_of_isDigit (c : Char) (h : isDigit c = true) : isNumChar c = true := by
  simp [isNumChar, h]

theorem parseIntPart_spec (cs ip r : List Char) (h : parseIntPart cs = some (ip, r)) :
    cs = ip ++ r ∧ (∀ c ∈ ip, isDigit c = true) ∧ ip ≠ [] ∧
    ∀ t, (∀ c, t.head? = some c → isDigit c = false) →
      parseIntPart (ip ++ t) = some (ip, t) := by
  cases cs with
  | nil => simp [parseIntPart] at h
  | cons c cs =>
    simp only [parseIntPart] at h
    split_ifs at h with h0 hd
    · simp only [Option.some.injEq, Prod.mk.injEq] at h
      obtain ⟨h1, h2⟩ := h
      subst h1 h2 h0
      exact ⟨rfl, by simp; decide, by simp, fun t _ => by simp [parseIntPart]⟩
    · simp only [Option.some.injEq, Prod.mk.injEq] at h
      obtain ⟨h1, h2⟩ := h
      have hs := spanDigits_spec cs
      subst h1 h2
      refine ⟨by rw [List.cons_append, ← hs.1], ?_, by simp, fun t ht => ?_⟩
      · intro x hx
        rcases List.mem_cons.1 hx with hx | hx
        · rw [hx]; exact hd
        · exact hs.2 x hx
      · have := spanDigits_append_head _ t hs.2 ht
        simp [parseIntPart, h0, hd, this]

theorem parseFrac_spec (cs fp r : List Char) (h : parseFrac cs = some (fp, r)) :
    cs = fp ++ r ∧ (∀ c ∈ fp, isNumChar c = true) ∧ (fp = [] ∨ fp.head? = some '.') ∧
    ∀ t, (∀ c, t.head? = some c → isDigit c = false) →
      (fp = [] → ∀ c, t.head? = some c → c ≠ '.') →
      parseFrac (fp ++ t) = some (fp, t) := by
  unfold parseFrac at h
  split at h
  · rename_i cs1
    have hs := spanDigits_spec cs1
    cases hsd : spanDigits cs1 with
    | mk ds z =>
      rw [hsd] at hs h
      cases ds with
      | nil => simp at h
      | cons d ds =>
        simp only [Option.some.injEq, Prod.mk.injEq] at h
        obtain ⟨h1, h2⟩ := h
        subst h1 h2
        refine ⟨by simp only [List.cons_append]; rw [← List.cons_append, ← hs.1], ?_,
          Or.inr rfl, fun t ht _ => ?_⟩
        · intro x hx
          rcases List.mem_cons.1 hx with hx | hx
          · rw [hx]; decide
          · exact isNumChar_of_isDigit x (hs.2 x hx)
        · have := spanDigits_append_head (d :: ds) t hs.2 ht
          simp only [List.cons_append] at this ⊢
          simp [parseFrac, this]
  · rename_i hne
    simp only [Option.some.injEq, Prod.mk.injEq] at h
    obtain ⟨h1, h2⟩ := h
    subst h1 h2
    refine ⟨rfl, by simp, Or.inl rfl, fun t _ ht => ?_⟩
    cases t with
    | nil => rfl
    | cons c t1 =>
      have := ht rfl c rfl
      simp only [List.nil_append]
      unfold parseFrac
      split
      · rename_i heq; simp only [List.cons.injEq] at heq; exact absurd heq.1 this
      · rfl

theorem parseExp_spec (cs ep r : List Char) (h : parseExp cs = some (ep, r)) :
    cs = ep ++ r ∧ (∀ c ∈ ep, isNumChar c = true) ∧
    (ep = [] ∨ ep.head? = some 'e' ∨ ep.head? = some 'E') ∧
    ∀ t, (∀ c, t.head? = some c → isDigit c = false) →
      (ep = [] → ∀ c, t.head? = some c → c ≠ 'e' ∧ c ≠ 'E') →
      parseExp (ep ++ t) = some (ep, t) := by
  cases cs with
  | nil =>
    simp only [parseExp, Option.some.injEq, Prod.mk.injEq] at h
    obtain ⟨h1, h2⟩ := h
    subst h1 h2
    refine ⟨rfl, by simp, Or.inl rfl, fun t _ ht => ?_⟩
    cases t with
    | nil => rfl
    | cons c t1 =>
      have := ht rfl c rfl
      simp [parseExp, this.1, this.2]
  | cons c cs =>
    simp only [parseExp] at h
    split_ifs at h with he
    · have hce : isNumChar c = true := by
        rcases he with he | he <;> subst he <;> decide
      have hhead : (c :: ([] : List Char)).head? = some 'e' ∨
          (c :: ([] : List Char)).head? = some 'E' := by
        rcases he with he | he <;> simp [he]
      cases cs with
      | nil => simp at h
      | cons s cs1 =>
        simp only at h
        split_ifs at h with hs
        · have hsn : isNumChar s = true := by
            rcases hs with hs | hs <;> subst hs <;> decide
          have hsd : isDigit s = false := by
            rcases hs with hs | hs <;> subst hs <;> decide
          have hsp := spanDigits_spec cs1
          cases hsd1 : spanDigits cs1 with
          | mk ds z =>
            rw [hsd1] at hsp h
            cases ds with
            | nil => simp at h
            | cons d ds =>
              simp only [Option.some.injEq, Prod.mk.injEq] at h
              obtain ⟨h1, h2⟩ := h
              subst h1 h2
              refine ⟨by simp only [List.cons_append]; rw [← List.cons_append d, ← hsp.1], ?_,
                Or.inr (by simpa using hhead), fun t ht _ => ?_⟩
              · intro x hx
                rcases List.mem_cons.1 hx with hx | hx
                · rw [hx]; exact hce
                · rcases List.mem_cons.1 hx with hx | hx
                  · rw [hx]; exact hsn
                  · exact isNumChar_of_isDigit x (hsp.2 x hx)
              · have := spanDigits_append_head (d :: ds) t hsp.2 ht
                simp only [List.cons_append] at this ⊢
                simp [parseExp, he, hs, this]
        · have hsp := spanDigits_spec (s :: cs1)
          cases hsd1 : spanDigits (s :: cs1) with
          | mk ds z =>
            rw [hsd1] at hsp h
            cases ds with
            | nil => simp at h
            | cons d ds =>
              simp only [Option.some.injEq, Prod.mk.injEq] at h
              obtain ⟨h1, h2⟩ := h
              subst h1 h2
              have hd : isDigit d = true := hsp.2 d (List.mem_cons_self _ _)
              have hds : ¬ (d = '+' ∨ d = '-') := by
                intro hh
                rcases hh with hh | hh <;> subst hh <;> revert hd <;> decide
              refine ⟨by simp only [List.cons_append]; rw [← List.cons_append d, ← hsp.1], ?_,
                Or.inr (by simpa using hhead), fun t ht _ => ?_⟩
              · intro x hx
                rcases List.mem_cons.1 hx with hx | hx
                · rw [hx]; exact hce
                · exact isNumChar_of_isDigit x (hsp.2 x hx)
              · have := spanDigits_append_head (d :: ds) t hsp.2 ht
                simp only [List.cons_append] at this ⊢
                simp [parseExp, he, hds, this]
    · simp only [Option.some.injEq, Prod.mk.injEq] at h
      obtain ⟨h1, h2⟩ := h
      subst h1 h2
      refine ⟨rfl, by simp, Or.inl rfl, fun t _ ht => ?_⟩
      cases t with
      | nil => rfl
      | cons c1 t1 =>
        have := ht rfl c1 rfl
        simp [parseExp, this.1, this.2]

theorem head_append_digit_false (xs t : List Char)
    (hx : xs = [] ∨ ∃ c, xs.head? = some c ∧ isDigit c = false)
    (ht : ∀ c, t.head? = some c → isDigit c = false) :
    ∀ c, (xs ++ t).head? = some c → isDigit c = false := by
  intro c hc
  cases xs with
  | nil => exact ht c hc
  | cons x xs =>
    rcases hx with hx | ⟨d, hd, hdd⟩
    · cases hx
    · simp only [List.head?_cons, Option.some.injEq] at hd
      simp only [List.cons_append, List.head?_cons, Option.some.injEq] at hc
      rw [← hc, hd]; exact hdd

theorem endsNumber_iff (t : List Char) : endsNumber t = true ↔
    ∀ c, t.head? = some c → isDigit c = false ∧ c ≠ '.' ∧ c ≠ 'e' ∧ c ≠ 'E' := by
  cases t with
  | nil => simp [endsNumber]
  | cons c r =>
    simp only [endsNumber, Bool.and_eq_true, Bool.not_eq_true', bne_iff_ne, ne_eq,
      List.head?_cons, Option.some.injEq, forall_eq']
    tauto

theorem parseNumber_body (body lit r : List Char) (sign : List Char)
    (h : (match parseIntPart body with
      | none => none
      | some (ip, r1) =>
        match parseFrac r1 with
        | none => none
        | some (fp, r2) =>
          match parseExp r2 with
          | none => none
          | some (ep, r3) => some (sign ++ ip ++ fp ++ ep, r3)) = some (lit, r)) :
    ∃ num, lit = sign ++ num ∧ body = num ++ r ∧ (∀ c ∈ num, isNumChar c = true) ∧
      (∃ c, num.head? = some c ∧ isDigit c = true) ∧
      ∀ t, endsNumber t = true →
        (match parseIntPart (num ++ t) with
        | none => none
        | some (ip, r1) =>
          match parseFrac r1 with
          | none => none
          | some (fp, r2) =>
            match parseExp r2 with
            | none => none
            | some (ep, r3) => some (sign ++ ip ++ fp ++ ep, r3)) = some (sign ++ num, t) := by
  cases hi : parseIntPart body with
  | none => simp [hi] at h
  | some p1 =>
    obtain ⟨ip, r1⟩ := p1
    simp only [hi] at h
    cases hf : parseFrac r1 with
    | none => simp [hf] at h
    | some p2 =>
      obtain ⟨fp, r2⟩ := p2
      simp only [hf] at h
      cases he : parseExp r2 with
      | none => simp [he] at h
      | some p3 =>
        obtain ⟨ep, r3⟩ := p3
        simp only [he, Option.some.injEq, Prod.mk.injEq] at h
        obtain ⟨h1, h2⟩ := h
        subst h2
        obtain ⟨i1, i2, i3, i4⟩ := parseIntPart_spec _ _ _ hi
        obtain ⟨f1, f2, f3, f4⟩ := parseFrac_spec _ _ _ hf
        obtain ⟨e1, e2, e3, e4⟩ := parseExp_spec _ _ _ he
        refine ⟨ip ++ fp ++ ep, by rw [← h1]; simp [List.append_assoc],
          by rw [i1, f1, e1]; simp [List.append_assoc], ?_, ?_, fun t ht => ?_⟩
        · intro c hc
          rcases List.mem_append.1 hc with hc | hc
          · rcases List.mem_append.1 hc with hc | hc
            · exact isNumChar_of_isDigit c (i2 c hc)
            · exact f2 c hc
          · exact e2 c hc
        · cases ip with
          | nil => exact absurd rfl i3
          | cons c ip1 => exact ⟨c, rfl, i2 c (List.mem_cons_self _ _)⟩
        · have ht1 := (endsNumber_iff t).1 ht
          have htd : ∀ c, t.head? = some c → isDigit c = false := fun c hc => (ht1 c hc).1
          have hep : ∀ c, (ep ++ t).head? = some c → isDigit c = false := by
            apply head_append_digit_false _ _ _ htd
            rcases e3 with e3 | e3 | e3
            · exact Or.inl e3
            · exact Or.inr ⟨'e', e3, by decide⟩
            · exact Or.inr ⟨'E', e3, by decide⟩
          have hfp : ∀ c, (fp ++ (ep ++ t)).head? = some c → isDigit c = false := by
            apply head_append_digit_false _ _ _ hep
            rcases f3 with f3 | f3
            · exact Or.inl f3
            · exact Or.inr ⟨'.', f3, by decide⟩
          have hdot : fp = [] → ∀ c, (ep ++ t).head? = some c → c ≠ '.' := by
            intro _ c hc
            cases ep with
            | nil => exact (ht1 c hc).2.1
            | cons x ep1 =>
              simp only [List.cons_append, List.head?_cons, Option.some.injEq] at hc
              simp only [List.head?_cons, Option.some.injEq, reduceCtorEq, false_or] at e3
              rcases e3 with e3 | e3 <;> rw [← hc, e3] <;> decide
          have p1 := i4 (fp ++ (ep ++ t)) hfp
          have p2 := f4 (ep ++ t) hep hdot
          have p3 := e4 t htd (fun _ c hc => (ht1 c hc).2.2)
          simp only [List.append_assoc, p1, p2, p3]

theorem parseNumber_spec (cs lit r : List Char) (h : parseNumber cs = some (lit, r)) :
    cs = lit ++ r ∧ (∀ c ∈ lit, isNumChar c = true) ∧
    (∃ c, lit.head? = some c ∧ cs.head? = some c ∧ (isDigit c = true ∨ c = '-')) ∧
    ∀ t, endsNumber t = true → parseNumber (lit ++ t) = some (lit, t) := by
  unfold parseNumber at h
  by_cases hneg : cs.head? = some '-'
  · cases cs with
    | nil => simp at hneg
    | cons c cs1 =>
      simp only [List.head?_cons, Option.some.injEq] at hneg
      subst hneg
      simp only [List.head?_cons, decide_True, if_true, List.tail_cons] at h
      obtain ⟨num, h1, h2, h3, h4, h5⟩ := parseNumber_body cs1 lit r ['-'] h
      subst h1
      refine ⟨by rw [h2]; rfl, ?_, ⟨'-', rfl, rfl, Or.inr rfl⟩, fun t ht => ?_⟩
      · intro c hc
        rcases List.mem_append.1 hc with hc | hc
        · simp only [List.mem_singleton] at hc; rw [hc]; decide
        · exact h3 c hc
      · have := h5 t ht
        unfold parseNumber
        simpa using this
  · simp only [hneg, decide_False, Bool.false_eq_true, if_false] at h
    obtain ⟨num, h1, h2, h3, ⟨c, h4, h4d⟩, h5⟩ := parseNumber_body cs lit r [] h
    simp only [List.nil_append] at h1
    subst h1
    have hcs : cs.head? = some c := by
      rw [h2]
      cases lit with
      | nil => simp at h4
      | cons x xs => simpa using h4
    refine ⟨h2, h3, ⟨c, h4, hcs, Or.inl h4d⟩, fun t ht => ?_⟩
    have := h5 t ht
    have hneg2 : ¬ (lit ++ t).head? = some '-' := by
      cases lit with
      | nil => simp at h4
      | cons x xs =>
        simp only [List.head?_cons, Option.some.injEq] at h4
        simp only [List.cons_append, List.head?_cons, Option.some.injEq]
        intro hx
        rw [h4] at hx
        subst hx
        revert h4d; decide
    unfold parseNumber
    simp only [hneg2, decide_False, Bool.false_eq_true, if_false, List.nil_append] at this ⊢
    exact this

/-! ## String literals under `squeeze` -/

theorem hexVal_plain (a : Char) (n : Nat) (h : hexVal a = some n) :
    a ≠ '"' ∧ a ≠ '\\' ∧ isHTMLUnsafe a = false := by
  have hr : (48 ≤ a.toNat ∧ a.toNat ≤ 57) ∨ (97 ≤ a.toNat ∧ a.toNat ≤ 102) ∨
      (65 ≤ a.toNat ∧ a.toNat ≤ 70) := by
    simp only [hexVal] at h
    split_ifs at h with h1 h2 h3
    · exact Or.inl h1
    · exact Or.inr (Or.inl h2)
    · exact Or.inr (Or.inr h3)
  refine ⟨?_, ?_, ?_⟩
  · intro ha; subst ha; revert hr; decide
  · intro ha; subst ha; revert hr; decide
  · simp only [isHTMLUnsafe, Bool.or_eq_false_iff, decide_eq_false_iff_not]
    refine ⟨⟨⟨⟨?_, ?_⟩, ?_⟩, ?_⟩, ?_⟩
    · intro ha; subst ha; revert hr; decide
    · intro ha; subst ha; revert hr; decide
    · intro ha; subst ha; revert hr; decide
    · omega
    · omega

theorem hex4_plain (a b c d : Char) (n : Nat) (h : hex4 a b c d = some n) :
    (a ≠ '"' ∧ a ≠ '\\' ∧ isHTMLUnsafe a = false) ∧ (b ≠ '"' ∧ b ≠ '\\' ∧ isHTMLUnsafe b = false) ∧
    (c ≠ '"' ∧ c ≠ '\\' ∧ isHTMLUnsafe c = false) ∧ (d ≠ '"' ∧ d ≠ '\\' ∧ isHTMLUnsafe d = false) := by
  unfold hex4 at h
  cases ha : hexVal a with
  | none => simp [ha] at h
  | some x =>
    cases hb : hexVal b with
    | none => simp [ha, hb] at h
    | some y =>
      cases hc : hexVal c with
      | none => simp [ha, hb, hc] at h
      | some z =>
        cases hd : hexVal d with
        | none => simp [ha, hb, hc, hd] at h
        | some w =>
          exact ⟨hexVal_plain a x ha, hexVal_plain b y hb, hexVal_plain c z hc,
            hexVal_plain d w hd⟩

theorem squeeze_true_plain (c : Char) (cs : List Char) (h : c ≠ '"' ∧ c ≠ '\\' ∧ isHTMLUnsafe c = false) :
    squeeze true (c :: cs) = c :: squeeze true cs := by
  rw [squeeze.eq_def]
  simp [h.1, h.2.1, h.2.2]

theorem squeeze_true_hex (a b c d : Char) (cs : List Char) (n : Nat)
    (h : hex4 a b c d = some n) :
    squeeze true (a :: b :: c :: d :: cs) = a :: b :: c :: d :: squeeze true cs := by
  obtain ⟨h1, h2, h3, h4⟩ := hex4_plain a b c d n h
  rw [squeeze_true_plain a _ h1, squeeze_true_plain b _ h2, squeeze_true_plain c _ h3,
    squeeze_true_plain d _ h4]

theorem parseStringFrom_unicodeEscape_pending (pending : Option Nat) (c : Char)
    (rest : List Char) (h : isHTMLUnsafe c = true) :
    parseStringFrom pending (unicodeEscape c ++ rest) =
      (parseStringFrom none rest).map fun p => (flushSurrogate pending ++ c :: p.1, p.2) := by
  have hlt : c.toNat < 65536 ∧ ¬ (0xDC00 ≤ c.toNat ∧ c.toNat < 0xE000) ∧
      ¬ (0xD800 ≤ c.toNat ∧ c.toNat < 0xDC00) := by
    simp only [isHTMLUnsafe, Bool.or_eq_true, decide_eq_true_eq] at h
    rcases h with (((h | h) | h) | h) | h
    · subst h; decide
    · subst h; decide
    · subst h; decide
    · omega
    · omega
  simp only [unicodeEscape, List.cons_append, List.nil_append]
  rw [parseStringFrom.eq_def]
  simp only [show ¬ ('\\' = '"') by decide, if_false, if_true, hex4_unicodeEscape _ hlt.1,
    hlt.2.1, hlt.2.2, Char.ofNat_toNat]

theorem map_snd_eq {g : List Char × List Char → List Char × List Char}
    {o : Option (List Char × List Char)} {k r : List Char}
    (h : o.map g = some (k, r)) (hg : ∀ p, (g p).2 = p.2) : ∃ k1, o = some (k1, r) := by
  cases o with
  | none => simp at h
  | some p =>
    simp only [Option.map_some', Option.some.injEq] at h
    have := hg p
    rw [h] at this
    simp only at this
    exact ⟨p.1, by rw [this]⟩

/-- A string literal body that parses is squeezed to a body that parses, in front of any
text. -/
theorem squeeze_string (n : Nat) : ∀ (pending : Option Nat) (ks k r0 : List Char),
    ks.length ≤ n → parseStringFrom pending ks = some (k, r0) →
    ∃ Ks, squeeze true ks = Ks ++ squeeze false r0 ∧
      ∀ t, ∃ k1, parseStringFrom pending (Ks ++ t) = some (k1, t) := by
  induction n with
  | zero =>
    intro pending ks k r0 hlen h
    cases ks with
    | nil => simp [parseStringFrom] at h
    | cons c cs => simp at hlen
  | succ n ih =>
    intro pending ks k r0 hlen h
    cases ks with
    | nil => simp [parseStringFrom] at h
    | cons c cs =>
      rw [parseStringFrom.eq_def] at h
      simp only at h
      by_cases hq : c = '"'
      · subst hq
        simp only [if_true, Option.some.injEq, Prod.mk.injEq] at h
        obtain ⟨_, h2⟩ := h
        subst h2
        refine ⟨['"'], by rw [squeeze.eq_def]; simp, fun t => ?_⟩
        rw [List.singleton_append, parseStringFrom.eq_def]
        simp
      · simp only [hq, if_false] at h
        by_cases hb : c = '\\'
        · subst hb
          simp only [if_true] at h
          cases cs with
          | nil => simp at h
          | cons e cs1 =>
            simp only at h
            have hsq : squeeze true ('\\' :: e :: cs1) = '\\' :: e :: squeeze true cs1 := by
              rw [squeeze.eq_def]; simp
            by_cases hu : e = 'u'
            · subst hu
              simp only [if_true] at h
              match cs1, h, hlen, hsq with
              | [], h, _, _ => simp at h
              | [_], h, _, _ => simp at h
              | [_, _], h, _, _ => simp at h
              | [_, _, _], h, _, _ => simp at h
              | a :: b :: c2 :: d :: cs2, h, hlen, hsq =>
                simp only at h
                cases hx : hex4 a b c2 d with
                | none => simp [hx] at h
                | some v =>
                  simp only [hx] at h
                  have hl2 : cs2.length ≤ n := by simp at hlen; omega
                  rw [squeeze_true_hex a b c2 d cs2 v hx] at hsq
                  have step : ∀ (p1 : Option Nat) (k1 : List Char),
                      parseStringFrom p1 cs2 = some (k1, r0) →
                      ∃ Ks, squeeze true ('\\' :: 'u' :: a :: b :: c2 :: d :: cs2) =
                        Ks ++ squeeze false r0 ∧ ∃ Ks1, Ks = '\\' :: 'u' :: a :: b :: c2 :: d :: Ks1 ∧
                        ∀ t, ∃ k2, parseStringFrom p1 (Ks1 ++ t) = some (k2, t) := by
                    intro p1 k1 hp
                    obtain ⟨Ks1, e1, e2⟩ := ih p1 cs2 k1 r0 hl2 hp
                    exact ⟨'\\' :: 'u' :: a :: b :: c2 :: d :: Ks1, by rw [hsq, e1]; rfl, Ks1, rfl, e2⟩
                  split_ifs at h with hlo hhi
                  · cases pending with
                    | some hi =>
                      simp only at h
                      obtain ⟨k1, hp⟩ := map_snd_eq h (fun _ => rfl)
                      obtain ⟨Ks, e1, Ks1, e2, e3⟩ := step none k1 hp
                      refine ⟨Ks, e1, fun t => ?_⟩
                      obtain ⟨k2, hk2⟩ := e3 t
                      subst e2
                      simp only [List.cons_append]
                      rw [parseStringFrom.eq_def]
                      simp [hx, hlo, hk2]
                    | none =>
                      simp only at h
                      obtain ⟨k1, hp⟩ := map_snd_eq h (fun _ => rfl)
                      obtain ⟨Ks, e1, Ks1, e2, e3⟩ := step none k1 hp
                      refine ⟨Ks, e1, fun t => ?_⟩
                      obtain ⟨k2, hk2⟩ := e3 t
                      subst e2
                      simp only [List.cons_append]
                      rw [parseStringFrom.eq_def]
                      simp [hx, hlo, hk2]
                  · obtain ⟨k1, hp⟩ := map_snd_eq h (fun _ => rfl)
                    obtain ⟨Ks, e1, Ks1, e2, e3⟩ := step (some v) k1 hp
                    refine ⟨Ks, e1, fun t => ?_⟩
                    obtain ⟨k2, hk2⟩ := e3 t
                    subst e2
                    simp only [List.cons_append]
                    rw [parseStringFrom.eq_def]
                    simp [hx, hlo, hhi, hk2]
                  · obtain ⟨k1, hp⟩ := map_snd_eq h (fun _ => rfl)
                    obtain ⟨Ks, e1, Ks1, e2, e3⟩ := step none k1 hp
                    refine ⟨Ks, e1, fun t => ?_⟩
                    obtain ⟨k2, hk2⟩ := e3 t
                    subst e2
                    simp only [List.cons_append]
                    rw [parseStringFrom.eq_def]
                    simp [hx, hlo, hhi, hk2]
            · simp only [hu, if_false] at h
              cases hse : simpleEscape e with
              | none => simp [hse] at h
              | some x =>
                simp only [hse] at h
                obtain ⟨k1, hp⟩ := map_snd_eq h (fun _ => rfl)
                have hl1 : cs1.length ≤ n := by simp at hlen; omega
                obtain ⟨Ks1, e1, e2⟩ := ih none cs1 k1 r0 hl1 hp
                refine ⟨'\\' :: e :: Ks1, by rw [hsq, e1]; rfl, fun t => ?_⟩
                obtain ⟨k2, hk2⟩ := e2 t
                simp only [List.cons_append]
                rw [parseStringFrom.eq_def]
                simp [hu, hse, hk2]
        · simp only [hb, if_false] at h
          split_ifs at h with h32
          obtain ⟨k1, hp⟩ := map_snd_eq h (fun _ => rfl)
          have hl1 : cs.length ≤ n := by simp at hlen; omega
          obtain ⟨Ks1, e1, e2⟩ := ih none cs k1 r0 hl1 hp
          by_cases hh : isHTMLUnsafe c = true
          · refine ⟨unicodeEscape c ++ Ks1, ?_, fun t => ?_⟩
            · rw [squeeze.eq_def]
              simp [hq, hb, hh, e1]
            · obtain ⟨k2, hk2⟩ := e2 t
              rw [List.append_assoc, parseStringFrom_unicodeEscape_pending pending c _ hh, hk2]
              exact ⟨_, rfl⟩
          · refine ⟨c :: Ks1, ?_, fun t => ?_⟩
            · rw [squeeze.eq_def]
              simp [hq, hb, hh, e1]
            · obtain ⟨k2, hk2⟩ := e2 t
              simp only [List.cons_append]
              rw [parseStringFrom.eq_def]
              simp [hq, hb, h32, hk2]

/-! ## Values, arrays and objects under `squeeze` -/

theorem squeeze_skipWS (l : List Char) : squeeze false (skipWS l) = squeeze false l := by
  induction l with
  | nil => rfl
  | cons c cs ih =>
    by_cases hc : isSpace c = true
    · rw [skipWS, if_pos hc, ih]
      conv_rhs => rw [squeeze.eq_def]
      simp [hc]
    · rw [skipWS, if_neg hc]

theorem skipWS_cons (c : Char) (l : List Char) (h : isSpace c = false) :
    skipWS (c :: l) = c :: l := by
  rw [skipWS]; simp [h]

theorem skipWS_head (l : List Char) (c : Char) (r : List Char) (h : skipWS l = c :: r) :
    isSpace c = false := by
  induction l with
  | nil => simp [skipWS] at h
  | cons x xs ih =>
    rw [skipWS] at h
    split_ifs at h with hx
    · exact ih h
    · simp only [List.cons.injEq] at h
      rw [← h.1]; simpa using hx

theorem squeeze_false_cons (c : Char) (l : List Char) (h1 : isSpace c = false)
    (h2 : c ≠ '"') : squeeze false (c :: l) = c :: squeeze false l := by
  rw [squeeze.eq_def]; simp [h1, h2]

theorem squeeze_false_quote (l : List Char) : squeeze false ('"' :: l) = '"' :: squeeze true l := by
  rw [squeeze.eq_def]
  have : isSpace '"' = false := by decide
  simp [this]

theorem isDelim_cons (c : Char) (l : List Char) (h : c = ',' ∨ c = ']' ∨ c = '\x7d') :
    isDelim (c :: l) = true := by
  simp only [isDelim, Bool.or_eq_true, decide_eq_true_eq]
  tauto

theorem isDelim_endsNumber (t : List Char) (h : isDelim t = true) : endsNumber t = true := by
  cases t with
  | nil => rfl
  | cons c r =>
    simp only [isDelim, Bool.or_eq_true, decide_eq_true_eq] at h
    rcases h with (h | h) | h <;> subst h <;> rfl

theorem parseValue_succ (f d : Nat) (c : Char) (cs : List Char) :
    parseValue (f + 1) d (c :: cs) =
      if c = '"' then (parseString cs).map fun p => (JSON.str p.1, p.2)
      else if c = '\x7b' then
        if d < maxNestingDepth then
          match skipWS cs with
          | [] => none
          | x :: r =>
            if x = '\x7d' then some (JSON.obj [], r)
            else (parseMembers f (d + 1) (x :: r)).map fun p => (JSON.obj p.1, p.2)
        else none
      else if c = '[' then
        if d < maxNestingDepth then
          match skipWS cs with
          | [] => none
          | x :: r =>
            if x = ']' then some (JSON.arr [], r)
            else (parseElems f (d + 1) (x :: r)).map fun p => (JSON.arr p.1, p.2)
        else none
      else if c = 't' then (expect ['r', 'u', 'e'] cs).map fun r => (JSON.bool true, r)
      else if c = 'f' then (expect ['a', 'l', 's', 'e'] cs).map fun r => (JSON.bool false, r)
      else if c = 'n' then (expect ['u', 'l', 'l'] cs).map fun r => (JSON.null, r)
      else (parseNumber (c :: cs)).map fun p => (JSON.num p.1, p.2) := by
  rw [parseValue.eq_def]

theorem parseElems_succ (f d : Nat) (cs : List Char) :
    parseElems (f + 1) d cs =
      match parseValue f d cs with
      | none => none
      | some (v, r) =>
        match skipWS r with
        | [] => none
        | x :: r1 =>
          if x = ',' then (parseElems f d (skipWS r1)).map fun p => (v :: p.1, p.2)
          else if x = ']' then some ([v], r1)
          else none := by
  rw [parseElems.eq_def]

theorem parseMembers_succ (f d : Nat) (ks : List Char) :
    parseMembers (f + 1) d ('"' :: ks) =
      match parseString ks with
      | none => none
      | some (k, r) =>
        match skipWS r with
        | [] => none
        | x :: r1 =>
          if x = ':' then
            match parseValue f d (skipWS r1) with
            | none => none
            | some (v, r2) =>
              match skipWS r2 with
              | [] => none
              | y :: r3 =>
                if y = ',' then
                  (parseMembers f d (skipWS r3)).map fun p =>
                    ((k, consumed (skipWS r1) r2, v) :: p.1, p.2)
                else if y = '\x7d' then some ([(k, consumed (skipWS r1) r2, v)], r3)
                else none
          else none := by
  rw [parseMembers.eq_def]
  simp

theorem map_rest_eq {α β : Type} {g : α × List Char → β × List Char}
    {o : Option (α × List Char)} {k : β} {r : List Char}
    (h : o.map g = some (k, r)) (hg : ∀ p, (g p).2 = p.2) : ∃ k1, o = some (k1, r) := by
  cases o with
  | none => simp at h
  | some p =>
    simp only [Option.map_some', Option.some.injEq] at h
    have := hg p
    rw [h] at this
    simp only at this
    exact ⟨p.1, by rw [this]⟩

theorem squeezeElems_step (f : Nat) (hV : SqueezeValue f) (hE : SqueezeElems f) :
    SqueezeElems (f + 1) := by
  intro d cs vs r h
  rw [parseElems_succ] at h
  cases hv : parseValue f d cs with
  | none => simp [hv] at h
  | some p =>
    obtain ⟨v, r1⟩ := p
    simp only [hv] at h
    obtain ⟨c, Xv, hc1, hc2, hsq, hpv⟩ := hV d cs v r1 hv
    cases hs : skipWS r1 with
    | nil => simp [hs] at h
    | cons x r2 =>
      simp only [hs] at h
      have hsq1 : squeeze false r1 = squeeze false (x :: r2) := by
        rw [← hs, squeeze_skipWS]
      split_ifs at h with hx1 hx2
      · subst hx1
        obtain ⟨vs1, hp⟩ := map_rest_eq h (fun _ => rfl)
        obtain ⟨ce, Xe, he1, he2, hesq, hpe⟩ := hE d _ _ _ hp
        refine ⟨c, Xv ++ ',' :: ce :: Xe, hc1, hc2, ?_, fun f1 t hf1 => ?_⟩
        · rw [hsq, hsq1, squeeze_false_cons ',' r2 (by decide) (by decide), ← squeeze_skipWS r2,
            hesq]
          simp
        · obtain ⟨g, rfl⟩ : ∃ g, f1 = g + 1 := ⟨f1 - 1, by omega⟩
          simp only [List.length_append, List.length_cons] at hf1
          obtain ⟨v1, hv1⟩ := hpv g (',' :: ce :: Xe ++ t) (by omega) (isDelim_cons _ _ (Or.inl rfl))
          obtain ⟨vs2, hvs2⟩ := hpe g t (by omega)
          have e1 : c :: (Xv ++ ',' :: ce :: Xe) ++ t = c :: Xv ++ (',' :: ce :: Xe ++ t) := by
            simp
          rw [e1, parseElems_succ, hv1]
          simp only [List.cons_append] at hvs2 ⊢
          simp only [skipWS_cons ',' _ (by decide : isSpace ',' = false), if_true,
            skipWS_cons ce _ he2, hvs2]
          exact ⟨_, rfl⟩
      · subst hx2
        simp only [Option.some.injEq, Prod.mk.injEq] at h
        obtain ⟨_, h2⟩ := h
        subst h2
        refine ⟨c, Xv ++ [']'], hc1, hc2, ?_, fun f1 t hf1 => ?_⟩
        · rw [hsq, hsq1, squeeze_false_cons ']' r2 (by decide) (by decide)]
          simp
        · obtain ⟨g, rfl⟩ : ∃ g, f1 = g + 1 := ⟨f1 - 1, by omega⟩
          simp only [List.length_append, List.length_cons, List.length_nil] at hf1
          obtain ⟨v1, hv1⟩ := hpv g (']' :: t) (by omega) (isDelim_cons _ _ (Or.inr (Or.inl rfl)))
          have e1 : c :: (Xv ++ [']']) ++ t = c :: Xv ++ (']' :: t) := by simp
          rw [e1, parseElems_succ, hv1]
          simp only [List.cons_append, skipWS_cons ']' _ (by decide : isSpace ']' = false)]
          simp

theorem squeezeMembers_step (f : Nat) (hV : SqueezeValue f) (hM : SqueezeMembers f) :
    SqueezeMembers (f + 1) := by
  intro d cs ms r h
  cases cs with
  | nil => rw [parseMembers.eq_def] at h; simp at h
  | cons q ks =>
    by_cases hq : q = '"'
    swap
    · rw [parseMembers.eq_def] at h; simp [hq] at h
    subst hq
    rw [parseMembers_succ] at h
    cases hk : parseString ks with
    | none => simp [hk] at h
    | some p =>
      obtain ⟨k, r0⟩ := p
      simp only [hk] at h
      obtain ⟨Ks, hKs, hpK⟩ := squeeze_string ks.length none ks k r0 le_rfl hk
      cases hs0 : skipWS r0 with
      | nil => simp [hs0] at h
      | cons x r1 =>
        simp only [hs0] at h
        split_ifs at h with hx
        subst hx
        have hsq0 : squeeze false r0 = ':' :: squeeze false (skipWS r1) := by
          rw [← squeeze_skipWS r0, hs0, squeeze_false_cons ':' r1 (by decide) (by decide),
            squeeze_skipWS]
        cases hv : parseValue f d (skipWS r1) with
        | none => simp [hv] at h
        | some p =>
          obtain ⟨v, r2⟩ := p
          simp only [hv] at h
          obtain ⟨c, Xv, hc1, hc2, hsq, hpv⟩ := hV d _ v r2 hv
          cases hs2 : skipWS r2 with
          | nil => simp [hs2] at h
          | cons y r3 =>
            simp only [hs2] at h
            have hsq2 : squeeze false r2 = squeeze false (y :: r3) := by
              rw [← hs2, squeeze_skipWS]
            split_ifs at h with hy1 hy2
            · subst hy1
              obtain ⟨ms1, hp⟩ := map_rest_eq h (fun _ => rfl)
              obtain ⟨Xm, hmsq, hpm⟩ := hM d _ _ _ hp
              refine ⟨Ks ++ ':' :: c :: Xv ++ ',' :: '"' :: Xm, ?_, fun f1 t hf1 => ?_⟩
              · rw [squeeze_false_quote, hKs, hsq0, hsq, hsq2,
                  squeeze_false_cons ',' r3 (by decide) (by decide), ← squeeze_skipWS r3, hmsq]
                simp
              · obtain ⟨g, rfl⟩ : ∃ g, f1 = g + 1 := ⟨f1 - 1, by omega⟩
                simp only [List.length_append, List.length_cons] at hf1
                obtain ⟨k1, hk1⟩ := hpK (':' :: c :: (Xv ++ ',' :: '"' :: (Xm ++ t)))
                obtain ⟨v1, hv1⟩ := hpv g (',' :: '"' :: (Xm ++ t)) (by omega)
                  (isDelim_cons _ _ (Or.inl rfl))
                obtain ⟨ms2, hms2⟩ := hpm g t (by omega)
                have e1 : '"' :: (Ks ++ ':' :: c :: Xv ++ ',' :: '"' :: Xm) ++ t =
                    '"' :: (Ks ++ ':' :: c :: (Xv ++ ',' :: '"' :: (Xm ++ t))) := by simp
                simp only [List.cons_append] at hv1 hms2
                rw [e1, parseMembers_succ]
                unfold parseString
                rw [hk1]
                simp only [skipWS_cons ':' _ (by decide : isSpace ':' = false), if_true,
                  skipWS_cons c _ hc2, hv1,
                  skipWS_cons ',' _ (by decide : isSpace ',' = false),
                  skipWS_cons '"' _ (by decide : isSpace '"' = false), hms2]
                exact ⟨_, rfl⟩
            · subst hy2
              simp only [Option.some.injEq, Prod.mk.injEq] at h
              obtain ⟨_, h2⟩ := h
              subst h2
              refine ⟨Ks ++ ':' :: c :: Xv ++ ['\x7d'], ?_, fun f1 t hf1 => ?_⟩
              · rw [squeeze_false_quote, hKs, hsq0, hsq, hsq2,
                  squeeze_false_cons '\x7d' r3 (by decide) (by decide)]
                simp
              · obtain ⟨g, rfl⟩ : ∃ g, f1 = g + 1 := ⟨f1 - 1, by omega⟩
                simp only [List.length_append, List.length_cons, List.length_nil] at hf1
                obtain ⟨k1, hk1⟩ := hpK (':' :: c :: (Xv ++ '\x7d' :: t))
                obtain ⟨v1, hv1⟩ := hpv g ('\x7d' :: t) (by omega)
                  (isDelim_cons _ _ (Or.inr (Or.inr rfl)))
                have e1 : '"' :: (Ks ++ ':' :: c :: Xv ++ ['\x7d']) ++ t =
                    '"' :: (Ks ++ ':' :: c :: (Xv ++ '\x7d' :: t)) := by simp
                simp only [List.cons_append] at hv1
                rw [e1, parseMembers_succ]
                unfold parseString
                rw [hk1]
                simp only [skipWS_cons ':' _ (by decide : isSpace ':' = false), if_true,
                  skipWS_cons c _ hc2, hv1,
                  skipWS_cons '\x7d' _ (by decide : isSpace '\x7d' = false),
                  show ¬ ('\x7d' = ',') by decide, if_false]
                exact ⟨_, rfl⟩

theorem expect_spec (p cs r : List Char) (h : expect p cs = some r) : cs = p ++ r := by
  induction p generalizing cs with
  | nil => simp only [expect, Option.some.injEq] at h; simp [h]
  | cons x xs ih =>
    cases cs with
    | nil => simp [expect] at h
    | cons c cs1 =>
      simp only [expect] at h
      split_ifs at h with hx
      rw [ih cs1 h, hx]; rfl

theorem expect_append (p t : List Char) : expect p (p ++ t) = some t := by
  induction p with
  | nil => rfl
  | cons x xs ih => simp [expect, ih]

theorem isNumChar_not_space (c : Char) (h : isDigit c = true ∨ c = '-') : isSpace c = false := by
  rcases h with h | h
  · simp only [isDigit, Bool.and_eq_true, decide_eq_true_eq] at h
    simp only [isSpace, Bool.or_eq_false_iff, decide_eq_false_iff_not]
    omega
  · subst h; decide

theorem squeezeValue_literal (c : Char) (p : List Char) (v : JSON) (d : Nat)
    (hcp : squeeze false (c :: p) = c :: p ∧ (∀ r, squeeze false (c :: p ++ r) = c :: p ++ squeeze false r))
    (hsp : isSpace c = false)
    (hparse : ∀ g t, parseValue (g + 1) d (c :: p ++ t) = some (v, t))
    (cs1 r : List Char) (h : expect p cs1 = some r) :
    ∃ (c1 : Char) (X : List Char), (c :: cs1).head? = some c1 ∧ isSpace c1 = false ∧
      squeeze false (c :: cs1) = (c1 :: X) ++ squeeze false r ∧
      ∀ (f1 : Nat) (t : List Char), 2 * (X.length + 1) + 1 ≤ f1 → isDelim t = true →
        ∃ v1, parseValue f1 d (c1 :: X ++ t) = some (v1, t) := by
  have hcs := expect_spec p cs1 r h
  subst hcs
  refine ⟨c, p, rfl, hsp, ?_, fun f1 t hf1 _ => ?_⟩
  · have := hcp.2 r
    simpa using this
  · obtain ⟨g, rfl⟩ : ∃ g, f1 = g + 1 := ⟨f1 - 1, by omega⟩
    exact ⟨v, hparse g t⟩

theorem squeeze_true_lit (r : List Char) :
    squeeze false ('t' :: ['r', 'u', 'e'] ++ r) = 't' :: ['r', 'u', 'e'] ++ squeeze false r := by
  simp only [List.cons_append, List.nil_append]
  rw [squeeze_false_cons 't' _ (by decide) (by decide),
    squeeze_false_cons 'r' _ (by decide) (by decide),
    squeeze_false_cons 'u' _ (by decide) (by decide),
    squeeze_false_cons 'e' _ (by decide) (by decide)]

theorem squeeze_false_lit (r : List Char) :
    squeeze false ('f' :: ['a', 'l', 's', 'e'] ++ r) =
      'f' :: ['a', 'l', 's', 'e'] ++ squeeze false r := by
  simp only [List.cons_append, List.nil_append]
  rw [squeeze_false_cons 'f' _ (by decide) (by decide),
    squeeze_false_cons 'a' _ (by decide) (by decide),
    squeeze_false_cons 'l' _ (by decide) (by decide),
    squeeze_false_cons 's' _ (by decide) (by decide),
    squeeze_false_cons 'e' _ (by decide) (by decide)]

theorem squeeze_null_lit (r : List Char) :
    squeeze false ('n' :: ['u', 'l', 'l'] ++ r) = 'n' :: ['u', 'l', 'l'] ++ squeeze false r := by
  simp only [List.cons_append, List.nil_append]
  rw [squeeze_false_cons 'n' _ (by decide) (by decide),
    squeeze_false_cons 'u' _ (by decide) (by decide),
    squeeze_false_cons 'l' _ (by decide) (by decide),
    squeeze_false_cons 'l' _ (by decide) (by decide)]

theorem squeezeValue_step (f : Nat) (hE : SqueezeElems f) (hM : SqueezeMembers f) :
    SqueezeValue (f + 1) := by
  intro d cs v r h
  cases cs with
  | nil => rw [parseValue.eq_def] at h; simp at h
  | cons c cs1 =>
    rw [parseValue_succ] at h
    by_cases h1 : c = '"'
    · -- a string
      subst h1
      simp only [if_true] at h
      obtain ⟨k1, hk⟩ := map_rest_eq h (fun _ => rfl)
      obtain ⟨Ks, hKs, hpK⟩ := squeeze_string cs1.length none cs1 k1 r le_rfl hk
      refine ⟨'"', Ks, rfl, by decide, by rw [squeeze_false_quote, hKs]; rfl,
        fun f1 t hf1 _ => ?_⟩
      obtain ⟨g, rfl⟩ : ∃ g, f1 = g + 1 := ⟨f1 - 1, by omega⟩
      obtain ⟨k2, hk2⟩ := hpK t
      rw [List.cons_append, parseValue_succ, if_pos rfl]
      unfold parseString
      rw [hk2]
      exact ⟨_, rfl⟩
    simp only [h1, if_false] at h
    by_cases h2 : c = '\x7b'
    · -- an object
      subst h2
      simp only [if_true] at h
      by_cases hd2 : d < maxNestingDepth
      swap
      · simp [hd2] at h
      simp only [hd2, if_true] at h
      cases hs : skipWS cs1 with
      | nil => simp [hs] at h
      | cons x r0 =>
        simp only [hs] at h
        have hsq : squeeze false ('\x7b' :: cs1) = '\x7b' :: squeeze false (x :: r0) := by
          rw [squeeze_false_cons '\x7b' _ (by decide) (by decide), ← squeeze_skipWS cs1, hs]
        split_ifs at h with hx
        · subst hx
          simp only [Option.some.injEq, Prod.mk.injEq] at h
          obtain ⟨_, hr⟩ := h
          subst hr
          refine ⟨'\x7b', ['\x7d'], rfl, by decide, ?_, fun f1 t hf1 _ => ?_⟩
          · rw [hsq, squeeze_false_cons '\x7d' _ (by decide) (by decide)]; rfl
          · obtain ⟨g, rfl⟩ : ∃ g, f1 = g + 1 := ⟨f1 - 1, by omega⟩
            rw [List.cons_append, parseValue_succ]
            simp only [show ¬ ('\x7b' = '"') by decide, if_false, if_true, hd2,
              List.singleton_append, skipWS_cons '\x7d' _ (by decide : isSpace '\x7d' = false)]
            exact ⟨_, rfl⟩
        · obtain ⟨ms1, hp⟩ := map_rest_eq h (fun _ => rfl)
          obtain ⟨Xm, hmsq, hpm⟩ := hM (d + 1) _ _ _ hp
          refine ⟨'\x7b', '"' :: Xm, rfl, by decide, by rw [hsq, hmsq]; rfl,
            fun f1 t hf1 _ => ?_⟩
          obtain ⟨g, rfl⟩ : ∃ g, f1 = g + 1 := ⟨f1 - 1, by omega⟩
          simp only [List.length_cons] at hf1
          obtain ⟨ms2, hms2⟩ := hpm g t (by omega)
          simp only [List.cons_append] at hms2 ⊢
          rw [parseValue_succ]
          simp only [show ¬ ('\x7b' = '"') by decide, if_false, if_true, hd2,
            skipWS_cons '"' _ (by decide : isSpace '"' = false),
            show ¬ ('"' = '\x7d') by decide, hms2]
          exact ⟨_, rfl⟩
    simp only [h2, if_false] at h
    by_cases h3 : c = '['
    · -- an array
      subst h3
      simp only [if_true] at h
      by_cases hd3 : d < maxNestingDepth
      swap
      · simp [hd3] at h
      simp only [hd3, if_true] at h
      cases hs : skipWS cs1 with
      | nil => simp [hs] at h
      | cons x r0 =>
        simp only [hs] at h
        have hsq : squeeze false ('[' :: cs1) = '[' :: squeeze false (x :: r0) := by
          rw [squeeze_false_cons '[' _ (by decide) (by decide), ← squeeze_skipWS cs1, hs]
        split_ifs at h with hx
        · subst hx
          simp only [Option.some.injEq, Prod.mk.injEq] at h
          obtain ⟨_, hr⟩ := h
          subst hr
          refine ⟨'[', [']'], rfl, by decide, ?_, fun f1 t hf1 _ => ?_⟩
          · rw [hsq, squeeze_false_cons ']' _ (by decide) (by decide)]; rfl
          · obtain ⟨g, rfl⟩ : ∃ g, f1 = g + 1 := ⟨f1 - 1, by omega⟩
            rw [List.cons_append, parseValue_succ]
            simp only [show ¬ ('[' = '"') by decide, show ¬ ('[' = '\x7b') by decide, if_false,
              if_true, hd3, List.singleton_append,
              skipWS_cons ']' _ (by decide : isSpace ']' = false)]
            exact ⟨_, rfl⟩
        · obtain ⟨vs1, hp⟩ := map_rest_eq h (fun _ => rfl)
          obtain ⟨ce, Xe, he1, he2, hesq, hpe⟩ := hE (d + 1) _ _ _ hp
          simp only [List.head?_cons, Option.some.injEq] at he1
          subst he1
          refine ⟨'[', x :: Xe, rfl, by decide, by rw [hsq, hesq]; rfl,
            fun f1 t hf1 _ => ?_⟩
          obtain ⟨g, rfl⟩ : ∃ g, f1 = g + 1 := ⟨f1 - 1, by omega⟩
          simp only [List.length_cons] at hf1
          obtain ⟨vs2, hvs2⟩ := hpe g t (by omega)
          simp only [List.cons_append] at hvs2 ⊢
          rw [parseValue_succ]
          simp only [show ¬ ('[' = '"') by decide, show ¬ ('[' = '\x7b') by decide, if_false,
            if_true, hd3, skipWS_cons x _ he2, hx, hvs2]
          exact ⟨_, rfl⟩
    simp only [h3, if_false] at h
    by_cases h4 : c = 't'
    · -- true
      subst h4
      simp only [if_true] at h
      obtain ⟨r1, hr1⟩ : ∃ r1, expect ['r', 'u', 'e'] cs1 = some r1 := by
        cases he : expect ['r', 'u', 'e'] cs1 with
        | none => simp [he] at h
        | some r1 => exact ⟨r1, rfl⟩
      have hrr : r1 = r := by simp [hr1] at h; exact h.2
      subst hrr
      exact squeezeValue_literal 't' ['r', 'u', 'e'] (JSON.bool true) d
        ⟨by simpa using squeeze_true_lit [], squeeze_true_lit⟩ (by decide)
        (fun g t => by
          show parseValue (g + 1) d ('t' :: (['r', 'u', 'e'] ++ t)) = _
          rw [parseValue_succ]
          simp [expect, show ¬ ('t' = '"') by decide, show ¬ ('t' = '\x7b') by decide,
            show ¬ ('t' = '[') by decide]) cs1 r1 hr1
    simp only [h4, if_false] at h
    by_cases h5 : c = 'f'
    · -- false
      subst h5
      simp only [if_true] at h
      obtain ⟨r1, hr1⟩ : ∃ r1, expect ['a', 'l', 's', 'e'] cs1 = some r1 := by
        cases he : expect ['a', 'l', 's', 'e'] cs1 with
        | none => simp [he] at h
        | some r1 => exact ⟨r1, rfl⟩
      have hrr : r1 = r := by simp [hr1] at h; exact h.2
      subst hrr
      exact squeezeValue_literal 'f' ['a', 'l', 's', 'e'] (JSON.bool false) d
        ⟨by simpa using squeeze_false_lit [], squeeze_false_lit⟩ (by decide)
        (fun g t => by
          show parseValue (g + 1) d ('f' :: (['a', 'l', 's', 'e'] ++ t)) = _
          rw [parseValue_succ]
          simp [expect, show ¬ ('f' = '"') by decide, show ¬ ('f' = '\x7b') by decide,
            show ¬ ('f' = '[') by decide, show ¬ ('f' = 't') by decide]) cs1 r1 hr1
    simp only [h5, if_false] at h
    by_cases h6 : c = 'n'
    · -- null
      subst h6
      simp only [if_true] at h
      obtain ⟨r1, hr1⟩ : ∃ r1, expect ['u', 'l', 'l'] cs1 = some r1 := by
        cases he : expect ['u', 'l', 'l'] cs1 with
        | none => simp [he] at h
        | some r1 => exact ⟨r1, rfl⟩
      have hrr : r1 = r := by simp [hr1] at h; exact h.2
      subst hrr
      exact squeezeValue_literal 'n' ['u', 'l', 'l'] JSON.null d
        ⟨by simpa using squeeze_null_lit [], squeeze_null_lit⟩ (by decide)
        (fun g t => by
          show parseValue (g + 1) d ('n' :: (['u', 'l', 'l'] ++ t)) = _
          rw [parseValue_succ]
          simp [expect, show ¬ ('n' = '"') by decide, show ¬ ('n' = '\x7b') by decide,
            show ¬ ('n' = '[') by decide, show ¬ ('n' = 't') by decide,
            show ¬ ('n' = 'f') by decide]) cs1 r1 hr1
    simp only [h6, if_false] at h
    · -- a number
      obtain ⟨lit, hp⟩ := map_rest_eq h (fun _ => rfl)
      obtain ⟨hcs, hnum, ⟨c0, hl0, hc0, hdig⟩, hpn⟩ := parseNumber_spec _ _ _ hp
      simp only [List.head?_cons, Option.some.injEq] at hc0
      subst hc0
      cases lit with
      | nil => simp at hl0
      | cons l0 X =>
        simp only [List.head?_cons, Option.some.injEq] at hl0
        subst hl0
        refine ⟨l0, X, rfl, isNumChar_not_space l0 hdig, ?_, fun f1 t hf1 ht => ?_⟩
        · rw [hcs, squeeze_numChars _ _ hnum]
        · obtain ⟨g, rfl⟩ : ∃ g, f1 = g + 1 := ⟨f1 - 1, by omega⟩
          have := hpn t (isDelim_endsNumber t ht)
          simp only [List.cons_append] at this ⊢
          rw [parseValue_succ]
          simp only [h1, h2, h3, h4, h5, h6, if_false, this]
          exact ⟨_, rfl⟩

theorem squeeze_all (f : Nat) : SqueezeValue f ∧ SqueezeElems f ∧ SqueezeMembers f := by
  induction f with
  | zero =>
    refine ⟨?_, ?_, ?_⟩
    · intro d cs v r h; rw [parseValue.eq_def] at h; simp at h
    · intro d cs v r h; rw [parseElems.eq_def] at h; simp at h
    · intro d cs v r h; rw [parseMembers.eq_def] at h; simp at h
  | succ f ih =>
    exact ⟨squeezeValue_step f ih.2.1 ih.2.2, squeezeElems_step f ih.1 ih.2.1,
      squeezeMembers_step f ih.1 ih.2.2⟩

/-- A payload that is JSON at depth `d` is squeezed to a text that parses as one value at
depth `d` in front of any delimiter, with any fuel above twice its length. -/
theorem squeeze_payload (d : Nat) (p : List Char) (h : validJSONAt d p = true) :
    squeeze false p ≠ [] ∧ (∀ c, (squeeze false p).head? = some c → isSpace c = false) ∧
    ∀ (f1 : Nat) (t : List Char), 2 * (squeeze false p).length + 1 ≤ f1 → isDelim t = true →
      ∃ v1, parseValue f1 d (squeeze false p ++ t) = some (v1, t) := by
  unfold validJSONAt at h
  cases hv : parseValue (2 * p.length + 2) d (skipWS p) with
  | none => simp [hv] at h
  | some x =>
    obtain ⟨v, r⟩ := x
    simp only [hv, List.isEmpty_iff] at h
    obtain ⟨c, X, hc1, hc2, hsq, hpv⟩ := (squeeze_all _).1 d _ v r hv
    have hr : squeeze false r = [] := by rw [← squeeze_skipWS, h]; rfl
    rw [squeeze_skipWS, hr, List.append_nil] at hsq
    rw [hsq]
    refine ⟨by simp, ?_, fun f1 t hf1 ht => ?_⟩
    · intro c1 hc
      simp only [List.head?_cons, Option.some.injEq] at hc
      rw [← hc]; exact hc2
    · exact hpv f1 t (by simpa using hf1) ht

/-! ## The encoded envelope -/

theorem consumed_append (X t : List Char) : consumed (X ++ t) t = X := by
  simp [consumed]

theorem escapeChar_plain (c : Char) (h1 : c ≠ '"') (h2 : c ≠ '\\') (h3 : 32 ≤ c.toNat)
    (h4 : isHTMLUnsafe c = false) : escapeChar c = [c] := by
  unfold escapeChar
  have e1 : ¬ c.toNat = 8 := by omega
  have e2 : ¬ c.toNat = 12 := by omega
  have e3 : ¬ c.toNat = 10 := by omega
  have e4 : ¬ c.toNat = 13 := by omega
  have e5 : ¬ c.toNat = 9 := by omega
  have e6 : ¬ c.toNat < 32 := by omega
  simp [h1, h2, e1, e2, e3, e4, e5, e6, h4]

theorem escapeString_plain (s : List Char) (h : ∀ c ∈ s, escapeChar c = [c]) :
    escapeString s = s := by
  induction s with
  | nil => rfl
  | cons c cs ih =>
    rw [escapeString, h c (List.mem_cons_self _ _), ih fun x hx => h x (List.mem_cons_of_mem _ hx)]
    rfl

theorem escapeChar_hexDigit : ∀ n : Fin 16, escapeChar (hexDigit n.val) = [hexDigit n.val] := by
  decide

theorem escapeChar_digit (c : Char) (h : isDigit c = true) : escapeChar c = [c] := by
  simp only [isDigit, Bool.and_eq_true, decide_eq_true_eq] at h
  apply escapeChar_plain
  · intro hc; subst hc; revert h; decide
  · intro hc; subst hc; revert h; decide
  · omega
  · simp only [isHTMLUnsafe, Bool.or_eq_false_iff, decide_eq_false_iff_not]
    refine ⟨⟨⟨⟨?_, ?_⟩, ?_⟩, ?_⟩, ?_⟩
    · intro hc; subst hc; revert h; decide
    · intro hc; subst hc; revert h; decide
    · intro hc; subst hc; revert h; decide
    · omega
    · omega

theorem escapeString_append (a b : List Char) :
    escapeString (a ++ b) = escapeString a ++ escapeString b := by
  induction a with
  | nil => rfl
  | cons c cs ih => simp [escapeString, ih]

theorem escapeString_hexByte (b : Fin 256) : escapeString (hexByte b) = hexByte b := by
  apply escapeString_plain
  intro x hx
  simp only [hexByte, List.mem_cons, List.mem_singleton, List.not_mem_nil, or_false] at hx
  rcases hx with hx | hx
  · rw [hx]; exact escapeChar_hexDigit ⟨b.val / 16, by omega⟩
  · rw [hx]; exact escapeChar_hexDigit ⟨b.val % 16, by omega⟩

theorem escapeString_dash (l : List Char) : escapeString ('-' :: l) = '-' :: escapeString l := by
  have hdash : escapeChar '-' = ['-'] := by decide
  rw [escapeString, hdash]; rfl

theorem escapeString_toText (u : UUID) : escapeString u.toText = u.toText := by
  unfold UUID.toText
  simp only [escapeString_append, escapeString_hexByte, escapeString_dash]

theorem escapeString_cons (c : Char) (h : escapeChar c = [c]) (l : List Char) :
    escapeString (c :: l) = c :: escapeString l := by
  rw [escapeString, h]; rfl

theorem escapeString_pad2 (n : Nat) : escapeString (pad2 n) = pad2 n := by
  apply escapeString_plain
  intro x hx
  simp only [pad2, List.mem_cons, List.mem_singleton, List.not_mem_nil, or_false] at hx
  rcases hx with hx | hx <;> rw [hx] <;> exact escapeChar_digit _ (isDigit_digitChar _)

theorem escapeString_formatFrac (n : Nat) : escapeString (formatFrac n) = formatFrac n := by
  obtain ⟨k, hk, hzero, hmem⟩ := trimZeros_spec (nineDigits n)
  unfold formatFrac
  cases ht : trimZeros (nineDigits n) with
  | nil => rfl
  | cons d ds =>
    apply escapeString_plain
    intro x hx
    rcases List.mem_cons.1 hx with hx | hx
    · rw [hx]; decide
    · exact escapeChar_digit x (nineDigits_digits n x (hmem x (by rw [ht]; exact hx)))

theorem escapeString_formatZone (o : Int) : escapeString (formatZone o) = formatZone o := by
  unfold formatZone
  split_ifs with h0 hneg
  · decide
  · rw [escapeString_cons '-' (by decide), escapeString_append, escapeString_pad2,
      escapeString_cons ':' (by decide), escapeString_pad2]
  · rw [escapeString_cons '+' (by decide), escapeString_append, escapeString_pad2,
      escapeString_cons ':' (by decide), escapeString_pad2]

theorem escapeString_format (t : Time) : escapeString t.format = t.format := by
  unfold Time.format pad4
  simp only [escapeString_append, escapeString_pad2, escapeString_cons '-' (by decide),
    escapeString_cons 'T' (by decide), escapeString_cons ':' (by decide),
    escapeString_formatFrac, escapeString_formatZone]

theorem parseString_plain (s rest : List Char) (h : escapeString s = s) :
    parseString (s ++ '"' :: rest) = some (s, rest) := by
  have := parseStringFrom_escapeString s rest
  rw [h] at this
  exact this

theorem betweenQuotes_quoted (s : List Char) : betweenQuotes ('"' :: s ++ ['"']) = some s := by
  simp [betweenQuotes]

theorem Time.unmarshalJSON_marshal (old t : Time) (hw : t.wellFormed) (hm : t.marshals) :
    Time.unmarshalJSON old ('"' :: t.format ++ ['"']) = some t.wire := by
  unfold Time.unmarshalJSON
  have hne : ¬ ('"' :: t.format ++ ['"'] = "null".toList) := by
    intro hc
    have := congrArg List.head? hc
    simp at this
  rw [if_neg hne, betweenQuotes_quoted]
  exact Time.parse_format t hw hm

/-- One member that is not the last: key, colon, value, comma, next member. -/
theorem parseMembers_member (g d : Nat) (key val rest : List Char) (v : JSON)
    (ms : List (List Char × List Char × JSON)) (r : List Char)
    (hk : escapeString key = key)
    (hc : ∀ c, val.head? = some c → isSpace c = false)
    (hv : parseValue g d (val ++ ',' :: '"' :: rest) = some (v, ',' :: '"' :: rest))
    (hm : parseMembers g d ('"' :: rest) = some (ms, r)) :
    parseMembers (g + 1) d ('"' :: (key ++ '"' :: ':' :: (val ++ ',' :: '"' :: rest))) =
      some ((key, val, v) :: ms, r) := by
  have hsk : skipWS (val ++ ',' :: '"' :: rest) = val ++ ',' :: '"' :: rest := by
    cases val with
    | nil => exact skipWS_cons ',' _ (by decide)
    | cons x xs => exact skipWS_cons x _ (hc x rfl)
  rw [parseMembers_succ, parseString_plain key _ hk]
  simp only [skipWS_cons ':' _ (by decide : isSpace ':' = false), if_true, hsk, hv,
    skipWS_cons ',' _ (by decide : isSpace ',' = false),
    skipWS_cons '"' _ (by decide : isSpace '"' = false), hm, consumed_append]
  rfl

/-- The last member: key, colon, value, closing brace. -/
theorem parseMembers_last (g d : Nat) (key val rest : List Char) (v : JSON)
    (hk : escapeString key = key)
    (hc : ∀ c, val.head? = some c → isSpace c = false)
    (hv : parseValue g d (val ++ '\x7d' :: rest) = some (v, '\x7d' :: rest)) :
    parseMembers (g + 1) d ('"' :: (key ++ '"' :: ':' :: (val ++ '\x7d' :: rest))) =
      some ([(key, val, v)], rest) := by
  have hsk : skipWS (val ++ '\x7d' :: rest) = val ++ '\x7d' :: rest := by
    cases val with
    | nil => exact skipWS_cons '\x7d' _ (by decide)
    | cons x xs => exact skipWS_cons x _ (hc x rfl)
  rw [parseMembers_succ, parseString_plain key _ hk]
  simp only [skipWS_cons ':' _ (by decide : isSpace ':' = false), if_true, hsk, hv,
    skipWS_cons '\x7d' _ (by decide : isSpace '\x7d' = false),
    show ¬ ('\x7d' = ',') by decide, if_false, consumed_append]

/-- A string value in front of any text. -/
theorem parseValue_string (g d : Nat) (s t : List Char) :
    parseValue (g + 1) d ('"' :: escapeString s ++ '"' :: t) = some (JSON.str s, t) := by
  rw [List.cons_append, parseValue_succ, if_pos rfl]
  unfold parseString
  rw [parseStringFrom_escapeString]
  rfl

/-- A number value in front of a delimiter. -/
theorem parseValue_int (g d : Nat) (n : Int) (t : List Char) (ht : isDelim t = true) :
    parseValue (g + 1) d (formatInt n ++ t) = some (JSON.num (formatInt n), t) := by
  have hp := parseNumber_formatInt n t (isDelim_endsNumber t ht)
  obtain ⟨_, _, ⟨c, hl, _, hdig⟩, _⟩ := parseNumber_spec _ _ _ hp
  cases hf : formatInt n with
  | nil => rw [hf] at hl; simp at hl
  | cons x xs =>
    rw [hf] at hl hp
    simp only [List.head?_cons, Option.some.injEq] at hl
    subst hl
    have hne : x ≠ '"' ∧ x ≠ '\x7b' ∧ x ≠ '[' ∧ x ≠ 't' ∧ x ≠ 'f' ∧ x ≠ 'n' := by
      rcases hdig with hdig | hdig
      · refine ⟨?_, ?_, ?_, ?_, ?_, ?_⟩ <;> (intro hx; subst hx; revert hdig; decide)
      · subst hdig; decide
    simp only [List.cons_append] at hp ⊢
    rw [parseValue_succ]
    simp only [hne.1, hne.2.1, hne.2.2.1, hne.2.2.2.1, hne.2.2.2.2.1, hne.2.2.2.2.2, if_false,
      hp]
    rfl

/-! ## The fuel and the depth of the parser -/

theorem skipWS_length (l : List Char) : (skipWS l).length ≤ l.length := by
  induction l with
  | nil => simp [skipWS]
  | cons c cs ih =>
    rw [skipWS]
    split_ifs
    · simp only [List.length_cons]; omega
    · exact le_rfl

theorem skipWS_eq_cons_length (l : List Char) (x : Char) (r : List Char)
    (h : skipWS l = x :: r) : r.length < l.length := by
  have := skipWS_length l
  rw [h] at this
  simp only [List.length_cons] at this
  omega

/-- A string literal body that parses leaves a strictly shorter rest. -/
theorem parseStringFrom_length (n : Nat) : ∀ (pending : Option Nat) (ks k r : List Char),
    ks.length ≤ n → parseStringFrom pending ks = some (k, r) → r.length < ks.length := by
  induction n with
  | zero =>
    intro pending ks k r hlen h
    cases ks with
    | nil => simp [parseStringFrom] at h
    | cons c cs => simp at hlen
  | succ n ih =>
    intro pending ks k r hlen h
    cases ks with
    | nil => simp [parseStringFrom] at h
    | cons c cs =>
      rw [parseStringFrom.eq_def] at h
      simp only at h
      by_cases hq : c = '"'
      · subst hq
        simp only [if_true, Option.some.injEq, Prod.mk.injEq] at h
        rw [← h.2]; simp
      · simp only [hq, if_false] at h
        by_cases hb : c = '\\'
        · subst hb
          simp only [if_true] at h
          cases cs with
          | nil => simp at h
          | cons e cs1 =>
            simp only at h
            by_cases hu : e = 'u'
            · subst hu
              simp only [if_true] at h
              match cs1, h, hlen with
              | [], h, _ => simp at h
              | [_], h, _ => simp at h
              | [_, _], h, _ => simp at h
              | [_, _, _], h, _ => simp at h
              | a :: b :: c2 :: d :: cs2, h, hlen =>
                simp only at h
                have hl2 : cs2.length ≤ n := by simp at hlen; omega
                have step : ∀ (p1 : Option Nat) (k1 : List Char),
                    parseStringFrom p1 cs2 = some (k1, r) →
                    r.length < ('\\' :: 'u' :: a :: b :: c2 :: d :: cs2).length := by
                  intro p1 k1 hp
                  have := ih p1 cs2 k1 r hl2 hp
                  simp only [List.length_cons]; omega
                cases hx : hex4 a b c2 d with
                | none => simp [hx] at h
                | some v =>
                  simp only [hx] at h
                  split_ifs at h with hlo hhi
                  · cases pending with
                    | some hi =>
                      simp only at h
                      obtain ⟨k1, hp⟩ := map_snd_eq h (fun _ => rfl)
                      exact step _ _ hp
                    | none =>
                      simp only at h
                      obtain ⟨k1, hp⟩ := map_snd_eq h (fun _ => rfl)
                      exact step _ _ hp
                  · obtain ⟨k1, hp⟩ := map_snd_eq h (fun _ => rfl)
                    exact step _ _ hp
                  · obtain ⟨k1, hp⟩ := map_snd_eq h (fun _ => rfl)
                    exact step _ _ hp
            · simp only [hu, if_false] at h
              cases hse : simpleEscape e with
              | none => simp [hse] at h
              | some x =>
                simp only [hse] at h
                obtain ⟨k1, hp⟩ := map_snd_eq h (fun _ => rfl)
                have hl1 : cs1.length ≤ n := by simp at hlen; omega
                have := ih none cs1 k1 r hl1 hp
                simp only [List.length_cons]; omega
        · simp only [hb, if_false] at h
          split_ifs at h with h32
          obtain ⟨k1, hp⟩ := map_snd_eq h (fun _ => rfl)
          have hl1 : cs.length ≤ n := by simp at hlen; omega
          have := ih none cs k1 r hl1 hp
          simp only [List.length_cons]; omega

theorem parseString_length (ks k r : List Char) (h : parseString ks = some (k, r)) :
    r.length < ks.length :=
  parseStringFrom_length ks.length none ks k r le_rfl h

/-- A value, the elements of an array and the members of an object that parse leave a
strictly shorter rest. -/
theorem parse_length (f : Nat) :
    (∀ d cs v r, parseValue f d cs = some (v, r) → r.length < cs.length) ∧
    (∀ d cs vs r, parseElems f d cs = some (vs, r) → r.length < cs.length) ∧
    (∀ d cs ms r, parseMembers f d cs = some (ms, r) → r.length < cs.length) := by
  induction f with
  | zero =>
    refine ⟨?_, ?_, ?_⟩
    · intro d cs v r h; rw [parseValue.eq_def] at h; simp at h
    · intro d cs v r h; rw [parseElems.eq_def] at h; simp at h
    · intro d cs v r h; rw [parseMembers.eq_def] at h; simp at h
  | succ f ih =>
    obtain ⟨ihV, ihE, ihM⟩ := ih
    refine ⟨?_, ?_, ?_⟩
    · intro d cs v r h
      cases cs with
      | nil => rw [parseValue.eq_def] at h; simp at h
      | cons c cs1 =>
        rw [parseValue_succ] at h
        simp only [List.length_cons]
        by_cases h1 : c = '"'
        · simp only [h1, if_true] at h
          obtain ⟨k1, hk⟩ := map_rest_eq h (fun _ => rfl)
          have := parseString_length _ _ _ hk
          omega
        simp only [h1, if_false] at h
        by_cases h2 : c = '\x7b'
        · simp only [h2, if_true] at h
          by_cases hd2 : d < maxNestingDepth
          swap
          · simp [hd2] at h
          simp only [hd2, if_true] at h
          cases hs : skipWS cs1 with
          | nil => simp [hs] at h
          | cons x r0 =>
            simp only [hs] at h
            have hl := skipWS_length cs1
            rw [hs] at hl
            simp only [List.length_cons] at hl
            split_ifs at h with hx
            · simp only [Option.some.injEq, Prod.mk.injEq] at h
              rw [← h.2]; omega
            · obtain ⟨ms1, hp⟩ := map_rest_eq h (fun _ => rfl)
              have := ihM _ _ _ _ hp
              simp only [List.length_cons] at this
              omega
        simp only [h2, if_false] at h
        by_cases h3 : c = '['
        · simp only [h3, if_true] at h
          by_cases hd3 : d < maxNestingDepth
          swap
          · simp [hd3] at h
          simp only [hd3, if_true] at h
          cases hs : skipWS cs1 with
          | nil => simp [hs] at h
          | cons x r0 =>
            simp only [hs] at h
            have hl := skipWS_length cs1
            rw [hs] at hl
            simp only [List.length_cons] at hl
            split_ifs at h with hx
            · simp only [Option.some.injEq, Prod.mk.injEq] at h
              rw [← h.2]; omega
            · obtain ⟨vs1, hp⟩ := map_rest_eq h (fun _ => rfl)
              have := ihE _ _ _ _ hp
              simp only [List.length_cons] at this
              omega
        simp only [h3, if_false] at h
        have hexp : ∀ (p : List Char) (w : JSON),
            Option.map (fun r => (w, r)) (expect p cs1) = some (v, r) → r.length < cs1.length + 1 := by
          intro p w hh
          cases he : expect p cs1 with
          | none => simp [he] at hh
          | some r1 =>
            simp only [he, Option.map_some', Option.some.injEq, Prod.mk.injEq] at hh
            have := expect_spec p cs1 r1 he
            rw [this, ← hh.2]
            simp only [List.length_append]; omega
        by_cases h4 : c = 't'
        · simp only [h4, if_true] at h
          exact hexp _ _ h
        simp only [h4, if_false] at h
        by_cases h5 : c = 'f'
        · simp only [h5, if_true] at h
          exact hexp _ _ h
        simp only [h5, if_false] at h
        by_cases h6 : c = 'n'
        · simp only [h6, if_true] at h
          exact hexp _ _ h
        simp only [h6, if_false] at h
        obtain ⟨lit, hp⟩ := map_rest_eq h (fun _ => rfl)
        obtain ⟨hcs, _, ⟨c0, hl0, _, _⟩, _⟩ := parseNumber_spec _ _ _ hp
        have hlen := congrArg List.length hcs
        simp only [List.length_cons, List.length_append] at hlen
        cases lit with
        | nil => simp at hl0
        | cons x xs => simp only [List.length_cons] at hlen; omega
    · intro d cs vs r h
      rw [parseElems_succ] at h
      cases hv : parseValue f d cs with
      | none => simp [hv] at h
      | some p =>
        obtain ⟨v, r1⟩ := p
        simp only [hv] at h
        have h1 := ihV _ _ _ _ hv
        cases hs : skipWS r1 with
        | nil => simp [hs] at h
        | cons x r2 =>
          simp only [hs] at h
          have h2 := skipWS_eq_cons_length _ _ _ hs
          split_ifs at h with hx1 hx2
          · obtain ⟨vs1, hp⟩ := map_rest_eq h (fun _ => rfl)
            have h3 := ihE _ _ _ _ hp
            have h4 := skipWS_length r2
            omega
          · simp only [Option.some.injEq, Prod.mk.injEq] at h
            rw [← h.2]; omega
    · intro d cs ms r h
      cases cs with
      | nil => rw [parseMembers.eq_def] at h; simp at h
      | cons q ks =>
        by_cases hq : q = '"'
        swap
        · rw [parseMembers.eq_def] at h; simp [hq] at h
        subst hq
        rw [parseMembers_succ] at h
        simp only [List.length_cons]
        cases hk : parseString ks with
        | none => simp [hk] at h
        | some p =>
          obtain ⟨k, r0⟩ := p
          simp only [hk] at h
          have h0 := parseString_length _ _ _ hk
          cases hs0 : skipWS r0 with
          | nil => simp [hs0] at h
          | cons x r1 =>
            simp only [hs0] at h
            have h1 := skipWS_eq_cons_length _ _ _ hs0
            split_ifs at h with hx
            cases hv : parseValue f d (skipWS r1) with
            | none => simp [hv] at h
            | some p =>
              obtain ⟨v, r2⟩ := p
              simp only [hv] at h
              have h2 := ihV _ _ _ _ hv
              have h2a := skipWS_length r1
              cases hs2 : skipWS r2 with
              | nil => simp [hs2] at h
              | cons y r3 =>
                simp only [hs2] at h
                have h3 := skipWS_eq_cons_length _ _ _ hs2
                split_ifs at h with hy1 hy2
                · obtain ⟨ms1, hp⟩ := map_rest_eq h (fun _ => rfl)
                  have h4 := ihM _ _ _ _ hp
                  have h5 := skipWS_length r3
                  omega
                · simp only [Option.some.injEq, Prod.mk.injEq] at h
                  rw [← h.2]; omega

/-- More fuel than twice the length of the text changes nothing: the fuel of `parseJSON`
is never what makes a text fail to parse. -/
theorem parse_fuel (f : Nat) :
    (∀ d cs f1, 2 * cs.length + 1 ≤ f → f ≤ f1 → parseValue f1 d cs = parseValue f d cs) ∧
    (∀ d cs f1, 2 * cs.length + 2 ≤ f → f ≤ f1 → parseElems f1 d cs = parseElems f d cs) ∧
    (∀ d cs f1, 2 * cs.length + 2 ≤ f → f ≤ f1 →
      parseMembers f1 d cs = parseMembers f d cs) := by
  induction f with
  | zero =>
    refine ⟨?_, ?_, ?_⟩ <;> (intro d cs f1 h; omega)
  | succ g ih =>
    obtain ⟨ihV, ihE, ihM⟩ := ih
    refine ⟨?_, ?_, ?_⟩
    · intro d cs f1 hlen hf
      obtain ⟨g1, rfl⟩ : ∃ g1, f1 = g1 + 1 := ⟨f1 - 1, by omega⟩
      cases cs with
      | nil => rw [parseValue.eq_def, parseValue.eq_def]
      | cons c cs1 =>
        simp only [List.length_cons] at hlen
        rw [parseValue_succ, parseValue_succ]
        cases hs : skipWS cs1 with
        | nil => rfl
        | cons x r =>
          have hl := skipWS_length cs1
          rw [hs] at hl
          simp only
          rw [ihM (d + 1) (x :: r) g1 (by omega) (by omega),
            ihE (d + 1) (x :: r) g1 (by omega) (by omega)]
    · intro d cs f1 hlen hf
      obtain ⟨g1, rfl⟩ : ∃ g1, f1 = g1 + 1 := ⟨f1 - 1, by omega⟩
      rw [parseElems_succ, parseElems_succ, ihV d cs g1 (by omega) (by omega)]
      cases hv : parseValue g d cs with
      | none => rfl
      | some p =>
        obtain ⟨v, r1⟩ := p
        have h1 := (parse_length g).1 _ _ _ _ hv
        simp only
        cases hs : skipWS r1 with
        | nil => rfl
        | cons x r2 =>
          have h2 := skipWS_eq_cons_length _ _ _ hs
          have h3 := skipWS_length r2
          simp only
          rw [ihE d (skipWS r2) g1 (by omega) (by omega)]
    · intro d cs f1 hlen hf
      obtain ⟨g1, rfl⟩ : ∃ g1, f1 = g1 + 1 := ⟨f1 - 1, by omega⟩
      cases cs with
      | nil => rw [parseMembers.eq_def, parseMembers.eq_def]
      | cons q ks =>
        by_cases hq : q = '"'
        swap
        · rw [parseMembers.eq_def, parseMembers.eq_def]; simp [hq]
        subst hq
        simp only [List.length_cons] at hlen
        rw [parseMembers_succ, parseMembers_succ]
        cases hk : parseString ks with
        | none => rfl
        | some p =>
          obtain ⟨k, r0⟩ := p
          have h0 := parseString_length _ _ _ hk
          simp only
          cases hs0 : skipWS r0 with
          | nil => rfl
          | cons x r1 =>
            have h1 := skipWS_eq_cons_length _ _ _ hs0
            have h1a := skipWS_length r1
            simp only
            rw [ihV d (skipWS r1) g1 (by omega) (by omega)]
            cases hv : parseValue g d (skipWS r1) with
            | none => rfl
            | some p =>
              obtain ⟨v, r2⟩ := p
              have h2 := (parse_length g).1 _ _ _ _ hv
              simp only
              cases hs2 : skipWS r2 with
              | nil => rfl
              | cons y r3 =>
                have h3 := skipWS_eq_cons_length _ _ _ hs2
                have h4 := skipWS_length r3
                simp only
                rw [ihM d (skipWS r3) g1 (by omega) (by omega)]

/-- The fuel of `parseJSON` is enough: any larger fuel gives the same result. -/
theorem parseJSONFuel_eq (cs : List Char) (f : Nat) (h : 2 * cs.length + 2 ≤ f) :
    parseJSONFuel f cs = parseJSON cs := by
  unfold parseJSON parseJSONFuel
  have := skipWS_length cs
  rw [(parse_fuel (2 * cs.length + 2)).1 0 (skipWS cs) f (by omega) h]

/-- A text that parses at a nesting depth parses, to the same result, one level higher. -/
theorem parse_depth (f : Nat) :
    (∀ d cs x, parseValue f (d + 1) cs = some x → parseValue f d cs = some x) ∧
    (∀ d cs x, parseElems f (d + 1) cs = some x → parseElems f d cs = some x) ∧
    (∀ d cs x, parseMembers f (d + 1) cs = some x → parseMembers f d cs = some x) := by
  induction f with
  | zero =>
    refine ⟨?_, ?_, ?_⟩
    · intro d cs x h; rw [parseValue.eq_def] at h; simp at h
    · intro d cs x h; rw [parseElems.eq_def] at h; simp at h
    · intro d cs x h; rw [parseMembers.eq_def] at h; simp at h
  | succ f ih =>
    obtain ⟨ihV, ihE, ihM⟩ := ih
    refine ⟨?_, ?_, ?_⟩
    · intro d cs x h
      cases cs with
      | nil => rw [parseValue.eq_def] at h; simp at h
      | cons c cs1 =>
        rw [parseValue_succ] at h ⊢
        by_cases hd : d + 1 < maxNestingDepth
        · have hd0 : d < maxNestingDepth := by omega
          simp only [hd, hd0, if_true] at h ⊢
          cases hs : skipWS cs1 with
          | nil => rw [hs] at h; exact h
          | cons y r =>
            rw [hs] at h
            simp only at h ⊢
            have hM : ∀ (q : List (List Char × List Char × JSON) × List Char → JSON × List Char) z,
                (parseMembers f (d + 1 + 1) (y :: r)).map q = some z →
                (parseMembers f (d + 1) (y :: r)).map q = some z := by
              intro q z hz
              cases hp : parseMembers f (d + 1 + 1) (y :: r) with
              | none => simp [hp] at hz
              | some w => rw [ihM _ _ _ hp]; rw [hp] at hz; exact hz
            have hE : ∀ (q : List JSON × List Char → JSON × List Char) z,
                (parseElems f (d + 1 + 1) (y :: r)).map q = some z →
                (parseElems f (d + 1) (y :: r)).map q = some z := by
              intro q z hz
              cases hp : parseElems f (d + 1 + 1) (y :: r) with
              | none => simp [hp] at hz
              | some w => rw [ihE _ _ _ hp]; rw [hp] at hz; exact hz
            split_ifs at h ⊢ with h1 h2 h3 h4 h5 h6 h7 h8
            all_goals first
              | exact h
              | exact hM _ _ h
              | exact hE _ _ h
        · simp only [hd, if_false] at h
          split_ifs at h ⊢ with h1 h2 h3 h4 h5 h6
          all_goals exact h
    · intro d cs x h
      rw [parseElems_succ] at h ⊢
      cases hv : parseValue f (d + 1) cs with
      | none => simp [hv] at h
      | some p =>
        obtain ⟨v, r1⟩ := p
        rw [ihV _ _ _ hv]
        simp only [hv] at h ⊢
        cases hs : skipWS r1 with
        | nil => simp [hs] at h
        | cons y r2 =>
          simp only [hs] at h ⊢
          split_ifs at h ⊢ with h1 h2
          · cases hp : parseElems f (d + 1) (skipWS r2) with
            | none => simp [hp] at h
            | some w => rw [ihE _ _ _ hp]; rw [hp] at h; exact h
          · exact h
    · intro d cs x h
      cases cs with
      | nil => rw [parseMembers.eq_def] at h; simp at h
      | cons q ks =>
        by_cases hq : q = '"'
        swap
        · rw [parseMembers.eq_def] at h; simp [hq] at h
        subst hq
        rw [parseMembers_succ] at h ⊢
        cases hk : parseString ks with
        | none => simp [hk] at h
        | some p =>
          obtain ⟨k, r0⟩ := p
          simp only [hk] at h ⊢
          cases hs0 : skipWS r0 with
          | nil => simp [hs0] at h
          | cons y r1 =>
            simp only [hs0] at h ⊢
            split_ifs at h ⊢ with hy
            cases hv : parseValue f (d + 1) (skipWS r1) with
            | none => simp [hv] at h
            | some p =>
              obtain ⟨v, r2⟩ := p
              rw [ihV _ _ _ hv]
              simp only [hv] at h ⊢
              cases hs2 : skipWS r2 with
              | nil => simp [hs2] at h
              | cons z r3 =>
                simp only [hs2] at h ⊢
                split_ifs at h ⊢ with h1 h2
                · cases hp : parseMembers f (d + 1) (skipWS r3) with
                  | none => simp [hp] at h
                  | some w => rw [ihM _ _ _ hp]; rw [hp] at h; exact h
                · exact h

theorem validJSONAt_parseJSON (p : List Char) (h : validJSONAt 1 p = true) :
    (parseJSON p).isSome = true := by
  unfold validJSONAt at h
  cases hv : parseValue (2 * p.length + 2) 1 (skipWS p) with
  | none => simp [hv] at h
  | some x =>
    obtain ⟨v, r⟩ := x
    simp only [hv, List.isEmpty_iff] at h
    unfold parseJSON parseJSONFuel
    rw [(parse_depth _).1 0 _ _ hv]
    simp [h]

theorem marshalEnvelope_text (e : EventEnvelope) (p : List Char) (hd : e.Data = some p)
    (ht : e.Timestamp.marshals) (hp : (parseJSON p).isSome = true) :
    marshalEnvelope e = some (envelopeText ('"' :: escapeString e.ID.toText ++ ['"'])
      ('"' :: escapeString e.Type_.toList ++ ['"']) (formatInt e.Version)
      ('"' :: e.Timestamp.format ++ ['"']) (squeeze false p)) := by
  have hts : Time.marshalJSON e.Timestamp = some ('"' :: e.Timestamp.format ++ ['"']) := by
    unfold Time.marshalJSON
    exact if_pos ht
  have hdm : e.Data.marshal = some (squeeze false p) := by
    rw [hd]
    cases hj : parseJSON p with
    | none => simp [hj] at hp
    | some v => simp [RawMessage.marshal, compact, hj]
  unfold marshalEnvelope envelopeText
  rw [hts, hdm, escapeString_toText]
  simp only [quote, List.append_assoc, List.cons_append, List.nil_append, Option.some.injEq]
  rfl

/-- The members an encoded envelope parses to. -/
theorem parseEnvelopeText (g : Nat) (id ty ver ts X : List Char) (n : Int)
    (hX1 : ∀ c, X.head? = some c → isSpace c = false)
    (hX2 : ∃ v1, parseValue (g + 1) 1 (X ++ '\x7d' :: []) = some (v1, '\x7d' :: []))
    (hver : ver = formatInt n) (hts : escapeString ts = ts) :
    ∃ v1, parseJSONFuel (g + 7) (envelopeText ('"' :: escapeString id ++ ['"'])
      ('"' :: escapeString ty ++ ['"']) ver ('"' :: ts ++ ['"']) X)
      = some (JSON.obj [("id".toList, '"' :: escapeString id ++ ['"'], JSON.str id),
        ("type".toList, '"' :: escapeString ty ++ ['"'], JSON.str ty),
        ("version".toList, ver, JSON.num ver),
        ("timestamp".toList, '"' :: ts ++ ['"'], JSON.str ts),
        ("data".toList, X, v1)]) := by
  obtain ⟨v1, hv1⟩ := hX2
  refine ⟨v1, ?_⟩
  have hq : ∀ c, ('"' :: ([] : List Char)).head? = some c → isSpace c = false := by
    intro c hc; simp at hc; rw [← hc]; decide
  have hstr : ∀ (s : List Char) (c : Char),
      ('"' :: escapeString s ++ ['"']).head? = some c → isSpace c = false := by
    intro s c hc; simp at hc; rw [← hc]; decide
  have sv : ∀ (g1 : Nat) (s t : List Char),
      parseValue (g1 + 1) 1 (('"' :: escapeString s ++ ['"']) ++ t) = some (JSON.str s, t) := by
    intro g1 s t
    have := parseValue_string g1 1 s t
    simpa [List.append_assoc] using this
  have m5 := parseMembers_last (g + 1) 1 "data".toList X [] v1 (by decide) hX1 hv1
  have m4 := parseMembers_member (g + 2) 1 "timestamp".toList ('"' :: ts ++ ['"']) _
    (JSON.str ts) _ _ (by decide) (by intro c hc; simp at hc; rw [← hc]; decide)
    (by have := sv (g + 1) ts; rw [hts] at this; exact this _) m5
  have hvd : ∀ c, ver.head? = some c → isSpace c = false := by
    intro c hc
    have hp := parseNumber_formatInt n [] rfl
    obtain ⟨_, _, ⟨c0, hl, _, hdig⟩, _⟩ := parseNumber_spec _ _ _ hp
    rw [hver] at hc
    rw [hc] at hl
    simp only [Option.some.injEq] at hl
    subst hl
    exact isNumChar_not_space c hdig
  have m3 := parseMembers_member (g + 3) 1 "version".toList ver _ (JSON.num ver) _ _
    (by decide) hvd
    (by rw [hver]; exact parseValue_int (g + 2) 1 n _ (isDelim_cons _ _ (Or.inl rfl))) m4
  have m2 := parseMembers_member (g + 4) 1 "type".toList ('"' :: escapeString ty ++ ['"']) _
    (JSON.str ty) _ _ (by decide) (hstr ty) (sv (g + 3) ty _) m3
  have m1 := parseMembers_member (g + 5) 1 "id".toList ('"' :: escapeString id ++ ['"']) _
    (JSON.str id) _ _ (by decide) (hstr id) (sv (g + 4) id _) m2
  unfold parseJSONFuel envelopeText
  rw [skipWS_cons '\x7b' _ (by decide), parseValue_succ]
  simp only [show ¬ ('\x7b' = '"') by decide, if_false, if_true,
    show (0 < maxNestingDepth) by decide,
    skipWS_cons '"' _ (by decide : isSpace '"' = false), show ¬ ('"' = '\x7d') by decide,
    m1, Option.map_some']
  rfl

theorem storeMembers_envelope (id ty ver ts X : List Char) (v1 : JSON) (e : EventEnvelope)
    (t : Time) (hid : UUID.parse id = some e.ID) (hty : String.mk ty = e.Type_)
    (hver : parseInt64 ver = some e.Version)
    (hts : Time.unmarshalJSON Time.zero ('"' :: ts ++ ['"']) = some t) :
    storeMembers EventEnvelope.setField EventEnvelope.zero
      [("id".toList, '"' :: escapeString id ++ ['"'], JSON.str id),
        ("type".toList, '"' :: escapeString ty ++ ['"'], JSON.str ty),
        ("version".toList, ver, JSON.num ver),
        ("timestamp".toList, '"' :: ts ++ ['"'], JSON.str ts),
        ("data".toList, X, v1)] =
      some ⟨e.ID, e.Type_, e.Version, t, some X⟩ := by
  have k1 : keyIs "id".toList "id" = true := by decide
  have k2 : keyIs "type".toList "id" = false := by decide
  have k3 : keyIs "type".toList "type" = true := by decide
  have k4 : keyIs "version".toList "id" = false := by decide
  have k5 : keyIs "version".toList "type" = false := by decide
  have k6 : keyIs "version".toList "version" = true := by decide
  have k7 : keyIs "timestamp".toList "id" = false := by decide
  have k8 : keyIs "timestamp".toList "type" = false := by decide
  have k9 : keyIs "timestamp".toList "version" = false := by decide
  have k10 : keyIs "timestamp".toList "timestamp" = true := by decide
  have k11 : keyIs "data".toList "id" = false := by decide
  have k12 : keyIs "data".toList "type" = false := by decide
  have k13 : keyIs "data".toList "version" = false := by decide
  have k14 : keyIs "data".toList "timestamp" = false := by decide
  have k15 : keyIs "data".toList "data" = true := by decide
  simp only [storeMembers, EventEnvelope.setField, k1, k2, k3, k4, k5, k6, k7, k8, k9, k10,
    k11, k12, k13, k14, k15, if_true, if_false, Bool.false_eq_true, uuidField, stringField,
    intField, hid, hty, hver, Option.map_some', EventEnvelope.zero, hts]

/-- Decoding the encoding of an envelope: every field comes back, the payload in its
squeezed form. -/
theorem unmarshal_marshalEnvelope (e : EventEnvelope) (p : List Char) (hd : e.Data = some p)
    (hw : e.Timestamp.wellFormed) (ht : e.Timestamp.marshals)
    (hv : -9223372036854775808 ≤ e.Version ∧ e.Version ≤ 9223372036854775807)
    (hp1 : validJSONAt 1 p = true) :
    ∃ bs, marshalEnvelope e = some bs ∧
      unmarshalEnvelope bs =
        Except.ok ⟨e.ID, e.Type_, e.Version, e.Timestamp.wire, some (squeeze false p)⟩ := by
  rw [marshalEnvelope_text e p hd ht (validJSONAt_parseJSON p hp1)]
  refine ⟨_, rfl, ?_⟩
  obtain ⟨hne, hhead, hparse⟩ := squeeze_payload 1 p hp1
  unfold unmarshalEnvelope unmarshalStruct parseJSON
  have hlen : 2 * (squeeze false p).length + 8 ≤
      2 * (envelopeText ('"' :: escapeString e.ID.toText ++ ['"'])
        ('"' :: escapeString e.Type_.toList ++ ['"']) (formatInt e.Version)
        ('"' :: e.Timestamp.format ++ ['"']) (squeeze false p)).length + 2 := by
    simp only [envelopeText, List.length_cons, List.length_append]
    omega
  obtain ⟨g, hg⟩ : ∃ g, 2 * (envelopeText ('"' :: escapeString e.ID.toText ++ ['"'])
        ('"' :: escapeString e.Type_.toList ++ ['"']) (formatInt e.Version)
        ('"' :: e.Timestamp.format ++ ['"']) (squeeze false p)).length + 2 = g + 7 :=
    ⟨_, (Nat.sub_add_cancel (by omega)).symm⟩
  have hgX : 2 * (squeeze false p).length + 1 ≤ g + 1 := by omega
  rw [hg]
  obtain ⟨v1, hv1⟩ := parseEnvelopeText g e.ID.toText e.Type_.toList (formatInt e.Version)
    e.Timestamp.format (squeeze false p) e.Version hhead
    (hparse (g + 1) ['\x7d'] hgX rfl) rfl (escapeString_format _)
  rw [hv1]
  simp only
  rw [storeMembers_envelope e.ID.toText e.Type_.toList (formatInt e.Version) e.Timestamp.format
    (squeeze false p) v1 e e.Timestamp.wire (UUID.parse_toText _) rfl
    (parseInt64_formatInt _ hv) (Time.unmarshalJSON_marshal _ _ hw ht)]

/-- Every status payload the producer builds decodes to the status it was built from. -/
theorem unmarshalPing_marshalPing (s : String) :
    unmarshalPing (some (marshalPing ⟨s⟩)) = Except.ok ⟨s⟩ := by
  have htext : marshalPing ⟨s⟩ = '\x7b' :: '"' :: ("status".toList ++ '"' :: ':' ::
      (('"' :: escapeString s.toList ++ ['"']) ++ '\x7d' :: [])) := by
    simp only [marshalPing, quote, List.append_assoc, List.cons_append, List.nil_append]
    rfl
  obtain ⟨g, hg⟩ : ∃ g, 2 * (marshalPing ⟨s⟩).length + 2 = g + 3 :=
    ⟨2 * (marshalPing ⟨s⟩).length - 1, by rw [htext]; simp only [List.length_cons]; omega⟩
  have hv : parseValue (g + 1) 1 (('"' :: escapeString s.toList ++ ['"']) ++ '\x7d' :: []) =
      some (JSON.str s.toList, '\x7d' :: []) := by
    have := parseValue_string g 1 s.toList ['\x7d']
    simpa [List.append_assoc] using this
  have hm := parseMembers_last (g + 1) 1 "status".toList ('"' :: escapeString s.toList ++ ['"'])
    [] (JSON.str s.toList) (by decide) (by intro c hc; simp at hc; rw [← hc]; decide) hv
  have hp : parseJSON (marshalPing ⟨s⟩) = some (JSON.obj
      [("status".toList, '"' :: escapeString s.toList ++ ['"'], JSON.str s.toList)]) := by
    unfold parseJSON parseJSONFuel
    rw [hg, htext, skipWS_cons '\x7b' _ (by decide), parseValue_succ]
    simp only [show ¬ ('\x7b' = '"') by decide, if_false, if_true,
      show (0 < maxNestingDepth) by decide,
      skipWS_cons '"' _ (by decide : isSpace '"' = false), show ¬ ('"' = '\x7d') by decide,
      hm, Option.map_some']
    rfl
  have hk : keyIs "status".toList "status" = true := by decide
  simp only [unmarshalPing, unmarshalStruct, RawMessage.bytes, Option.getD_some, hp,
    storeMembers, PingEvent.setField, hk, if_true, stringField, Option.map_some',
    PingEvent.zero]
  rfl

/-! ## The payloads the producer builds -/

theorem squeeze_true_escapeChar (c : Char) (rest : List Char) :
    squeeze true (escapeChar c ++ rest) = escapeChar c ++ squeeze true rest := by
  unfold escapeChar
  have two : ∀ (e : Char) (r : List Char),
      squeeze true ('\\' :: e :: r) = '\\' :: e :: squeeze true r := by
    intro e r
    rw [squeeze.eq_def]
    simp only [show ¬ ('\\' = '"') by decide, if_false, if_true]
  split_ifs with h1 h2 h3 h4 h5 h6 h7 h8
  · exact two _ _
  · exact two _ _
  · exact two _ _
  · exact two _ _
  · exact two _ _
  · exact two _ _
  · exact two _ _
  · have hlt : c.toNat < 65536 := by
      rcases h8 with h | h
      · omega
      · simp only [isHTMLUnsafe, Bool.or_eq_true, decide_eq_true_eq] at h
        rcases h with (((h | h) | h) | h) | h
        · subst h; decide
        · subst h; decide
        · subst h; decide
        · omega
        · omega
    simp only [unicodeEscape, List.cons_append, List.nil_append]
    rw [two, squeeze_true_hex _ _ _ _ _ _ (hex4_unicodeEscape c.toNat hlt)]
  · simp only [List.cons_append, List.nil_append]
    refine squeeze_true_plain c _ ⟨h1, h2, ?_⟩
    cases hu : isHTMLUnsafe c with
    | false => rfl
    | true => exact absurd (Or.inr hu) h8

theorem squeeze_true_escapeString (s rest : List Char) :
    squeeze true (escapeString s ++ '"' :: rest) = escapeString s ++ '"' :: squeeze false rest := by
  induction s with
  | nil =>
    simp only [escapeString, List.nil_append]
    rw [squeeze.eq_def]
    simp
  | cons c cs ih =>
    simp only [escapeString, List.append_assoc]
    rw [squeeze_true_escapeChar, ih]

/-- A string literal written by `json.Marshal` is left as it is by `compact`. -/
theorem squeeze_false_string (s rest : List Char) :
    squeeze false (('"' :: escapeString s ++ ['"']) ++ rest) =
      ('"' :: escapeString s ++ ['"']) ++ squeeze false rest := by
  simp only [List.cons_append, List.append_assoc, List.nil_append]
  rw [squeeze_false_quote, squeeze_true_escapeString]

/-- A member with a plain key in front of a value: `compact` leaves the key as it is. -/
theorem squeeze_false_key (key rest : List Char) (hk : escapeString key = key) :
    squeeze false ('"' :: (key ++ '"' :: ':' :: rest)) =
      '"' :: (key ++ '"' :: ':' :: squeeze false rest) := by
  rw [squeeze_false_quote]
  conv_lhs => rw [← hk]
  rw [squeeze_true_escapeString, hk, squeeze_false_cons ':' _ (by decide) (by decide)]

theorem formatInt_numChars (n : Int) :
    (∀ c ∈ formatInt n, isNumChar c = true) ∧
    (∀ c, (formatInt n).head? = some c → isSpace c = false) := by
  have hp := parseNumber_formatInt n [] rfl
  obtain ⟨_, h2, ⟨c0, hl, _, hdig⟩, _⟩ := parseNumber_spec _ _ _ hp
  refine ⟨h2, fun c hc => ?_⟩
  rw [hc] at hl
  simp only [Option.some.injEq] at hl
  subst hl
  exact isNumChar_not_space c hdig

theorem marshalPriceCreated_text (e : PriceCreatedEvent) :
    marshalPriceCreated e = priceCreatedText ('"' :: escapeString e.StbxProductID.toText ++ ['"'])
      ('"' :: escapeString e.StbxPriceID.toText ++ ['"'])
      ('"' :: escapeString e.Name.toList ++ ['"']) (formatInt e.Amount)
      ('"' :: escapeString e.Currency.toList ++ ['"']) := by
  have e1 : "\x7b\"stbx_product_id\":\"".toList =
      '\x7b' :: '"' :: ("stbx_product_id".toList ++ ['"', ':', '"']) := by decide
  have e2 : "\",\"stbx_price_id\":\"".toList =
      '"' :: ',' :: '"' :: ("stbx_price_id".toList ++ ['"', ':', '"']) := by decide
  have e3 : "\",\"name\":".toList = '"' :: ',' :: '"' :: ("name".toList ++ ['"', ':']) := by
    decide
  have e4 : ",\"amount\":".toList = ',' :: '"' :: ("amount".toList ++ ['"', ':']) := by decide
  have e5 : ",\"currency\":".toList = ',' :: '"' :: ("currency".toList ++ ['"', ':']) := by
    decide
  have e6 : "\x7d".toList = ['\x7d'] := by decide
  unfold marshalPriceCreated priceCreatedText
  rw [escapeString_toText, escapeString_toText, e1, e2, e3, e4, e5, e6]
  simp only [quote, List.append_assoc, List.cons_append, List.nil_append]

theorem marshalPing_text (e : PingEvent) :
    marshalPing e = pingText ('"' :: escapeString e.Status.toList ++ ['"']) := by
  unfold marshalPing pingText
  simp only [quote, List.append_assoc, List.cons_append, List.nil_append]
  rfl

/-- An encoded Price-Created event parses, as a value nested in an envelope. -/
theorem parsePriceCreatedText (g : Nat) (a b nm cu : List Char) (n : Int) :
    ∃ v, parseValue (g + 7) 1 (priceCreatedText ('"' :: escapeString a ++ ['"'])
      ('"' :: escapeString b ++ ['"']) ('"' :: escapeString nm ++ ['"']) (formatInt n)
      ('"' :: escapeString cu ++ ['"'])) = some (v, []) := by
  have hstr : ∀ (s : List Char) (c : Char),
      ('"' :: escapeString s ++ ['"']).head? = some c → isSpace c = false := by
    intro s c hc; simp at hc; rw [← hc]; decide
  have sv : ∀ (g1 : Nat) (s t : List Char),
      parseValue (g1 + 1) (1 + 1) (('"' :: escapeString s ++ ['"']) ++ t) = some (JSON.str s, t) := by
    intro g1 s t
    have := parseValue_string g1 (1 + 1) s t
    simpa [List.append_assoc] using this
  have m5 := parseMembers_last (g + 1) (1 + 1) "currency".toList ('"' :: escapeString cu ++ ['"']) []
    (JSON.str cu) (by decide) (hstr cu) (sv g cu _)
  have m4 := parseMembers_member (g + 2) (1 + 1) "amount".toList (formatInt n) _
    (JSON.num (formatInt n)) _ _ (by decide) (formatInt_numChars n).2
    (parseValue_int (g + 1) (1 + 1) n _ (isDelim_cons _ _ (Or.inl rfl))) m5
  have m3 := parseMembers_member (g + 3) (1 + 1) "name".toList ('"' :: escapeString nm ++ ['"']) _
    (JSON.str nm) _ _ (by decide) (hstr nm) (sv (g + 2) nm _) m4
  have m2 := parseMembers_member (g + 4) (1 + 1) "stbx_price_id".toList
    ('"' :: escapeString b ++ ['"']) _ (JSON.str b) _ _ (by decide) (hstr b) (sv (g + 3) b _) m3
  have m1 := parseMembers_member (g + 5) (1 + 1) "stbx_product_id".toList
    ('"' :: escapeString a ++ ['"']) _ (JSON.str a) _ _ (by decide) (hstr a) (sv (g + 4) a _) m2
  unfold priceCreatedText
  rw [parseValue_succ]
  simp only [show ¬ ('\x7b' = '"') by decide, if_false, if_true,
    show (1 < maxNestingDepth) by decide,
    skipWS_cons '"' _ (by decide : isSpace '"' = false), show ¬ ('"' = '\x7d') by decide,
    m1, Option.map_some']
  exact ⟨_, rfl⟩

/-- An encoded status event parses, as a value nested in an envelope. -/
theorem parsePingText (g : Nat) (s : List Char) :
    ∃ v, parseValue (g + 3) 1 (pingText ('"' :: escapeString s ++ ['"'])) = some (v, []) := by
  have hv : parseValue (g + 1) (1 + 1) (('"' :: escapeString s ++ ['"']) ++ '\x7d' :: []) =
      some (JSON.str s, '\x7d' :: []) := by
    have := parseValue_string g (1 + 1) s ['\x7d']
    simpa [List.append_assoc] using this
  have m1 := parseMembers_last (g + 1) (1 + 1) "status".toList ('"' :: escapeString s ++ ['"'])
    [] (JSON.str s) (by decide) (by intro c hc; simp at hc; rw [← hc]; decide) hv
  unfold pingText
  rw [parseValue_succ]
  simp only [show ¬ ('\x7b' = '"') by decide, if_false, if_true,
    show (1 < maxNestingDepth) by decide,
    skipWS_cons '"' _ (by decide : isSpace '"' = false), show ¬ ('"' = '\x7d') by decide,
    m1, Option.map_some']
  exact ⟨_, rfl⟩

/-- Every Price-Created payload the producer builds is well-formed JSON. -/
theorem marshalPriceCreated_valid (e : PriceCreatedEvent) :
    validJSONAt 1 (marshalPriceCreated e) = true := by
  rw [marshalPriceCreated_text]
  unfold validJSONAt
  obtain ⟨g, hg⟩ : ∃ g, 2 * (priceCreatedText
      ('"' :: escapeString e.StbxProductID.toText ++ ['"'])
      ('"' :: escapeString e.StbxPriceID.toText ++ ['"'])
      ('"' :: escapeString e.Name.toList ++ ['"']) (formatInt e.Amount)
      ('"' :: escapeString e.Currency.toList ++ ['"'])).length + 2 = g + 7 :=
    ⟨_, (Nat.sub_add_cancel (by unfold priceCreatedText; simp only [List.length_cons, List.length_append]; omega)).symm⟩
  obtain ⟨v, hv⟩ := parsePriceCreatedText g e.StbxProductID.toText e.StbxPriceID.toText
    e.Name.toList e.Currency.toList e.Amount
  have hs : ∀ v1 v2 v3 v4 v5, skipWS (priceCreatedText v1 v2 v3 v4 v5) =
      priceCreatedText v1 v2 v3 v4 v5 := fun _ _ _ _ _ => skipWS_cons _ _ (by decide)
  rw [hg, hs, hv]
  rfl

/-- Every status payload the producer builds is well-formed JSON. -/
theorem marshalPing_valid (e : PingEvent) : validJSONAt 1 (marshalPing e) = true := by
  rw [marshalPing_text]
  unfold validJSONAt
  obtain ⟨g, hg⟩ : ∃ g, 2 * (pingText ('"' :: escapeString e.Status.toList ++ ['"'])).length
      + 2 = g + 3 :=
    ⟨_, (Nat.sub_add_cancel (by unfold pingText; simp only [List.length_cons, List.length_append]; omega)).symm⟩
  obtain ⟨v, hv⟩ := parsePingText g e.Status.toList
  have hs : ∀ v1, skipWS (pingText v1) = pingText v1 := fun _ => skipWS_cons _ _ (by decide)
  rw [hg, hs, hv]
  rfl

/-- Every Price-Created payload the producer builds is in compact form. -/
theorem squeeze_marshalPriceCreated (e : PriceCreatedEvent) :
    squeeze false (marshalPriceCreated e) = marshalPriceCreated e := by
  rw [marshalPriceCreated_text]
  unfold priceCreatedText
  rw [squeeze_false_cons '\x7b' _ (by decide) (by decide),
    squeeze_false_key _ _ (by decide), squeeze_false_string,
    squeeze_false_cons ',' _ (by decide) (by decide),
    squeeze_false_key _ _ (by decide), squeeze_false_string,
    squeeze_false_cons ',' _ (by decide) (by decide),
    squeeze_false_key _ _ (by decide), squeeze_false_string,
    squeeze_false_cons ',' _ (by decide) (by decide),
    squeeze_false_key _ _ (by decide), squeeze_numChars _ _ (formatInt_numChars _).1,
    squeeze_false_cons ',' _ (by decide) (by decide),
    squeeze_false_key _ _ (by decide), squeeze_false_string,
    squeeze_false_cons '\x7d' _ (by decide) (by decide)]
  rfl

/-- Every status payload the producer builds is in compact form. -/
theorem squeeze_marshalPing (e : PingEvent) :
    squeeze false (marshalPing e) = marshalPing e := by
  rw [marshalPing_text]
  unfold pingText
  rw [squeeze_false_cons '\x7b' _ (by decide) (by decide),
    squeeze_false_key _ _ (by decide), squeeze_false_string,
    squeeze_false_cons '\x7d' _ (by decide) (by decide)]
  rfl

/-! ## The claims -/

/-- Claim C1: `Process` routes by the envelope type.  The three status subjects select the
status branch, `price.created` selects the price-created branch, every other type makes
`Process` return the unknown-type error with the store untouched, and `Process` returns
an unknown-type error exactly when the type is none of the four strings. -/
theorem process_routes_by_type (ee : EventEnvelope) (db : DBStore) (a b : UUID) :
    ((ee.Type_ = "ping.api.status" ∨ ee.Type_ = "ping.db.status" ∨
        ee.Type_ = "ping.cache.status") → route ee.Type_ = Branch.pingStatus) ∧
    (ee.Type_ = "price.created" → route ee.Type_ = Branch.priceCreated) ∧
    (¬ (ee.Type_ = "price.created" ∨ ee.Type_ = "ping.api.status" ∨
        ee.Type_ = "ping.db.status" ∨ ee.Type_ = "ping.cache.status") →
      ee.Process db a b = (some (ProcessError.unknownType ee.Type_), db)) ∧
    ((∃ t, (ee.Process db a b).1 = some (ProcessError.unknownType t)) ↔
      ¬ (ee.Type_ = "price.created" ∨ ee.Type_ = "ping.api.status" ∨
        ee.Type_ = "ping.db.status" ∨ ee.Type_ = "ping.cache.status")) := by
  refine ⟨(route_pingStatus_iff _).2, (route_priceCreated_iff _).2, ?_, ?_⟩
  · intro h
    have hr := (route_unknown_iff _).2 h
    simp [EventEnvelope.Process, hr]
  · rw [process_unknown_iff, route_unknown_iff]

/-- Claim C2 fails, in the payload and in the timestamp.  The valid envelope with the
well-formed payload `{"a": 1}` encodes, the encoding decodes, and the decoded payload is not
the payload of the envelope (it is `{"a":1}`, without the space).  And the valid envelope
whose timestamp is a time as `time.Now` returns it, in the local zone and with a monotonic
clock reading, encodes, the encoding decodes, the payload comes back as it was, and the
decoded timestamp is not the timestamp of the envelope: it has no monotonic reading. -/
theorem spaced_payload_not_round_tripped :
    (validJSONAt 1 spacedPayload = true ∧ Time.zero.wellFormed ∧ Time.zero.marshals ∧
      ∃ bs e, marshalEnvelope (sampleEnvelope "price.created" 1 spacedPayload) = some bs ∧
        unmarshalEnvelope bs = Except.ok e ∧
        e.Data ≠ (sampleEnvelope "price.created" 1 spacedPayload).Data) ∧
    (validJSONAt 1 downPayload = true ∧ sampleNow.wellFormed ∧ sampleNow.marshals ∧
      ∃ bs e, marshalEnvelope ⟨UUID.nil, "ping.cache.status", 1, sampleNow, some downPayload⟩ =
          some bs ∧
        unmarshalEnvelope bs = Except.ok e ∧ e.Data = some downPayload ∧
        e.Timestamp ≠ sampleNow ∧ e.Timestamp.mono = none ∧ sampleNow.mono = some 1) := by
  refine ⟨⟨by rfl, by decide, by decide, ?_⟩, ⟨by rfl, by decide, by decide, ?_⟩⟩
  · obtain ⟨bs, h1, h2⟩ := unmarshal_marshalEnvelope
      (sampleEnvelope "price.created" 1 spacedPayload) spacedPayload rfl (by decide) (by decide)
      (by decide) (by rfl)
    exact ⟨bs, _, h1, h2, by decide⟩
  · obtain ⟨bs, h1, h2⟩ := unmarshal_marshalEnvelope
      ⟨UUID.nil, "ping.cache.status", 1, sampleNow, some downPayload⟩ downPayload rfl
      (by decide) (by decide) (by decide) (by rfl)
    exact ⟨bs, _, h1, h2, by decide, by decide, by decide, by decide⟩

/-- Claim C2 as amended: for every envelope with a well-formed time that `Time.MarshalJSON`
accepts (year within `[0,9999]`, zone offset below 24 hours), a version within `int64` and
a payload that is well-formed JSON (nested fewer than 10000 deep), the encoding succeeds,
decoding it succeeds, and the decoded envelope has the id, type and version of the
envelope; as timestamp the same date, time of day and nanoseconds, with the zone offset cut
to whole minutes, the location UTC for the offset zero and the location of `time.Parse`
otherwise, and no monotonic reading; and as payload the payload in compact form (white
space between tokens removed, HTML-unsafe characters of strings escaped).  When the payload
is already in that form and the timestamp already of that kind, the decoded envelope is the
envelope itself.  Every payload the producer builds, the encoding of a `PriceCreatedEvent`
or of a `PingEvent`, is well-formed JSON in compact form. -/
theorem envelope_round_trip (e : EventEnvelope) (p : List Char) (hd : e.Data = some p)
    (hw : e.Timestamp.wellFormed) (ht : e.Timestamp.marshals)
    (hv : -9223372036854775808 ≤ e.Version ∧ e.Version ≤ 9223372036854775807)
    (hp : validJSONAt 1 p = true) :
    (∃ bs, marshalEnvelope e = some bs ∧
      unmarshalEnvelope bs =
        Except.ok ⟨e.ID, e.Type_, e.Version, e.Timestamp.wire, some (squeeze false p)⟩ ∧
      (squeeze false p = p → e.Timestamp.wire = e.Timestamp →
        unmarshalEnvelope bs = Except.ok e)) ∧
    e.Timestamp.wire =
      ⟨e.Timestamp.year, e.Timestamp.month, e.Timestamp.day, e.Timestamp.hour,
        e.Timestamp.minute, e.Timestamp.second, e.Timestamp.nanos,
        (if e.Timestamp.offset < 0 then -((e.Timestamp.offset.natAbs / 60 * 60 : Nat) : Int)
          else ((e.Timestamp.offset.natAbs / 60 * 60 : Nat) : Int)),
        (if e.Timestamp.offset = 0 then Location.utc else Location.parsed), none⟩ ∧
    (∀ pe : PriceCreatedEvent, validJSONAt 1 (marshalPriceCreated pe) = true ∧
      squeeze false (marshalPriceCreated pe) = marshalPriceCreated pe) ∧
    (∀ pe : PingEvent, validJSONAt 1 (marshalPing pe) = true ∧
      squeeze false (marshalPing pe) = marshalPing pe) := by
  obtain ⟨bs, h1, h2⟩ := unmarshal_marshalEnvelope e p hd hw ht hv hp
  refine ⟨⟨bs, h1, h2, fun hc hc2 => ?_⟩, rfl,
    fun pe => ⟨marshalPriceCreated_valid pe, squeeze_marshalPriceCreated pe⟩,
    fun pe => ⟨marshalPing_valid pe, squeeze_marshalPing pe⟩⟩
  rw [h2, hc, hc2, ← hd]

set_option maxRecDepth 100000 in
theorem envelope_round_trip_witness :
    ∃ bs, marshalEnvelope (sampleEnvelope "price.created" 1 widgetPayload) = some bs ∧
      unmarshalEnvelope bs = Except.ok (sampleEnvelope "price.created" 1 widgetPayload) := by
  obtain ⟨⟨bs, h1, _, h3⟩, _⟩ := envelope_round_trip
    (sampleEnvelope "price.created" 1 widgetPayload) widgetPayload rfl (by decide) (by decide)
    (by decide) (by rfl)
  exact ⟨bs, h1, h3 (by decide) (by decide)⟩

/-- Claim C3: atomicity on error.  Whenever the subscription callback does not end with a
processed message (the envelope does not decode, or `Process` returns an error), the store
after the callback is the store before it; and whenever `Process` returns an error, the
store after `Process` is the store before it. -/
theorem failed_message_keeps_store (db : DBStore) (data : List Char) (a b : UUID) :
    ((onMessage db data a b).1 ≠ Outcome.processed → (onMessage db data a b).2 = db) ∧
    (∀ ee : EventEnvelope, (ee.Process db a b).1 ≠ none → (ee.Process db a b).2 = db) := by
  refine ⟨?_, fun ee h => process_error_keeps_store ee db a b h⟩
  intro h
  unfold onMessage at h ⊢
  cases hu : unmarshalEnvelope data with
  | error e => rfl
  | ok ev =>
    simp only [hu] at h ⊢
    cases hp : ev.Process db a b with
    | mk r db1 =>
      cases r with
      | none => simp [hp] at h
      | some e =>
        have := process_error_keeps_store ev db a b (by simp [hp])
        simpa [hp] using this

/-- Claim C4: effect of a Price-Created event.  For an envelope of type `price.created`
whose payload decodes to the event `ev`, `Process` returns no error, the store afterwards
maps the product identifier of `ev` to the record `prod_<a>:price_<b>`, the text `prod_`,
the canonical text of the generated identifier `a`, a colon, the text `price_` and the
canonical text of the generated identifier `b`, whatever the store held under that key
before; every other key keeps its value, and from the empty store the only key present is
that product identifier. -/
theorem price_created_writes_record (ee : EventEnvelope) (db : DBStore) (a b : UUID)
    (ev : PriceCreatedEvent) (ht : ee.Type_ = "price.created")
    (hd : unmarshalPriceCreated ee.Data = Except.ok ev) :
    (ee.Process db a b).1 = none ∧
    (ee.Process db a b).2.Data ev.StbxProductID =
      some ("prod_" ++ String.mk a.toText ++ ":" ++ "price_" ++ String.mk b.toText) ∧
    (∀ k, k ≠ ev.StbxProductID → (ee.Process db a b).2.Data k = db.Data k) ∧
    (∀ k, (ee.Process DBStore.empty a b).2.Data k ≠ none ↔ k = ev.StbxProductID) := by
  have hr : route ee.Type_ = Branch.priceCreated := (route_priceCreated_iff _).2 ht
  have hrec : fakeStripeRecord a b =
      "prod_" ++ String.mk a.toText ++ ":" ++ "price_" ++ String.mk b.toText := by
    apply String.ext
    simp [fakeStripeRecord, String.data_append]
  simp only [EventEnvelope.Process, hr, hd, DBStore.handleProductCreatedEvent]
  refine ⟨trivial, by simp [hrec], fun k hk => by simp [Function.update, hk], fun k => ?_⟩
  by_cases hk : k = ev.StbxProductID
  · subst hk; simp
  · simp [Function.update, hk, DBStore.empty]

set_option maxRecDepth 100000 in
theorem price_created_writes_record_witness :
    ((sampleEnvelope "price.created" 1 widgetPayload).Process DBStore.empty widgetID
      widgetEvent.StbxPriceID).1 = none ∧
    ((sampleEnvelope "price.created" 1 widgetPayload).Process DBStore.empty widgetID
      widgetEvent.StbxPriceID).2.Data widgetID =
      some ("prod_6ba7b810-9dad-11d1-80b4-00c04fd430c8:" ++
        "price_6ba7b811-9dad-11d1-80b4-00c04fd430c8") ∧
    ((sampleEnvelope "price.created" 1 widgetPayload).Process
      ⟨fun _ => some "old"⟩ UUID.nil UUID.nil).2.Data widgetID =
      some ("prod_00000000-0000-0000-0000-000000000000:" ++
        "price_00000000-0000-0000-0000-000000000000") :=
  ⟨(price_created_writes_record (sampleEnvelope "price.created" 1 widgetPayload) DBStore.empty
      widgetID widgetEvent.StbxPriceID widgetEvent rfl widgetPayload_decodes).1,
   (price_created_writes_record (sampleEnvelope "price.created" 1 widgetPayload) DBStore.empty
      widgetID widgetEvent.StbxPriceID widgetEvent rfl widgetPayload_decodes).2.1.trans
      (by decide),
   (price_created_writes_record (sampleEnvelope "price.created" 1 widgetPayload)
      ⟨fun _ => some "old"⟩ UUID.nil UUID.nil widgetEvent rfl widgetPayload_decodes).2.1.trans
      (by decide)⟩

/-- Claim C5: the status handler has no store side effect.  For an envelope whose type is
one of the three status subjects, with any version and payload, the store after `Process`
is the store before; `Process` returns no error when the payload decodes as a status
payload, which every payload `json.Marshal` builds from a `PingEvent` does, among them
`{"status":"Down"}`. -/
theorem status_handler_keeps_store (ee : EventEnvelope) (db : DBStore) (a b : UUID)
    (ht : ee.Type_ = "ping.api.status" ∨ ee.Type_ = "ping.db.status" ∨
      ee.Type_ = "ping.cache.status") :
    (ee.Process db a b).2 = db ∧
    (∀ ev, unmarshalPing ee.Data = Except.ok ev → (ee.Process db a b).1 = none) ∧
    (∀ s : String, ee.Data = some (marshalPing ⟨s⟩) → (ee.Process db a b).1 = none) ∧
    (ee.Data = some downPayload → (ee.Process db a b).1 = none) := by
  have hr : route ee.Type_ = Branch.pingStatus := (route_pingStatus_iff _).2 ht
  have key : ∀ ev, unmarshalPing ee.Data = Except.ok ev → (ee.Process db a b).1 = none := by
    intro ev hev
    simp [EventEnvelope.Process, hr, hev]
  refine ⟨?_, key, ?_, ?_⟩
  · simp only [EventEnvelope.Process, hr]
    cases unmarshalPing ee.Data <;> rfl
  · intro s hd
    exact key ⟨s⟩ (by rw [hd]; exact unmarshalPing_marshalPing s)
  · intro hd
    exact key ⟨"Down"⟩ (by rw [hd]; rfl)

theorem status_handler_keeps_store_witness :
    ((sampleEnvelope "ping.cache.status" 1 downPayload).Process DBStore.empty UUID.nil UUID.nil).2
      = DBStore.empty ∧
    ((sampleEnvelope "ping.cache.status" 1 downPayload).Process DBStore.empty UUID.nil UUID.nil).1
      = none :=
  ⟨(status_handler_keeps_store (sampleEnvelope "ping.cache.status" 1 downPayload) DBStore.empty
      UUID.nil UUID.nil (Or.inr (Or.inr rfl))).1,
   (status_handler_keeps_store (sampleEnvelope "ping.cache.status" 1 downPayload) DBStore.empty
      UUID.nil UUID.nil (Or.inr (Or.inr rfl))).2.2.2 rfl⟩

/-- Claim C6 fails: with the payload bytes `{`, which are not JSON, `json.Marshal` fails and
`publishMessage` hands nothing to the publish primitive. -/
theorem publishMessage_bad_payload_not_published :
    (publishMessage "ping.api.status" (some ['\x7b']) UUID.nil Time.zero).2 = [] := by
  rfl

/-- Claim C6 as amended: the envelope `publishMessage` builds has type `t`, version 1,
payload `p` (and the generated id and time); every publish call is made on the subject
`t`, the type of the envelope, with the encoding of the envelope; when the envelope
encodes there is exactly one publish call, and it encodes whenever the payload is nil or
well-formed JSON and the time can be marshalled; when it does not encode there is no
publish call. -/
theorem publishMessage_builds_envelope (t : String) (p : RawMessage) (id : UUID) (now : Time) :
    (publishMessage t p id now).1.Type_ = t ∧
    (publishMessage t p id now).1.Version = 1 ∧
    (publishMessage t p id now).1.Data = p ∧
    (publishMessage t p id now).1.ID = id ∧
    (publishMessage t p id now).1.Timestamp = now ∧
    (∀ call ∈ (publishMessage t p id now).2,
      call.1 = t ∧ call.1 = (publishMessage t p id now).1.Type_ ∧
      marshalEnvelope (publishMessage t p id now).1 = some call.2) ∧
    (∀ eventBytes, marshalEnvelope (publishMessage t p id now).1 = some eventBytes →
      (publishMessage t p id now).2 = [(t, eventBytes)]) ∧
    (now.marshals →
      (p = none ∨ ∃ bs, p = some bs ∧ (parseJSON bs).isSome = true) →
      ∃ eventBytes, (publishMessage t p id now).2 = [(t, eventBytes)]) ∧
    (marshalEnvelope (publishMessage t p id now).1 = none →
      (publishMessage t p id now).2 = []) := by
  rw [publishMessage_envelope, publishMessage_calls]
  refine ⟨rfl, rfl, rfl, rfl, rfl, ?_, ?_, ?_, ?_⟩
  · intro call hc
    cases h : marshalEnvelope ⟨id, t, 1, now, p⟩ with
    | none => simp [h] at hc
    | some bs =>
      simp only [h, List.mem_singleton] at hc
      subst hc
      exact ⟨rfl, rfl, rfl⟩
  · intro bs h
    simp [h]
  · intro hnow hp
    have h1 : ∃ d, p.marshal = some d := by
      rcases hp with hp | ⟨bs, hp, hbs⟩
      · exact ⟨_, by rw [hp]; rfl⟩
      · cases hj : parseJSON bs with
        | none => simp [hj] at hbs
        | some v => exact ⟨squeeze false bs, by simp [hp, RawMessage.marshal, compact, hj]⟩
    obtain ⟨d, hd⟩ := h1
    obtain ⟨hy0, hy1, ho⟩ := hnow
    simp [marshalEnvelope, Time.marshalJSON, hy0, hy1, ho, hd]
  · intro h
    simp [h]

theorem publishMessage_builds_envelope_witness :
    ∃ eventBytes, (publishMessage "ping.cache.status" (some downPayload) UUID.nil Time.zero).2 =
      [("ping.cache.status", eventBytes)] :=
  (publishMessage_builds_envelope "ping.cache.status" (some downPayload) UUID.nil
    Time.zero).2.2.2.2.2.2.2.1 (by decide) (Or.inr ⟨downPayload, rfl, by rfl⟩)

set_option maxRecDepth 100000 in
/-- Claim C7 fails: the envelope of type `price.created` with version 2 and a well-formed
payload is not rejected, `Process` returns no error. -/
theorem version_two_is_applied :
    ¬ (∀ (ee : EventEnvelope) (db : DBStore) (a b : UUID),
        ee.Type_ = "price.created" → ee.Version ≠ 1 →
        (∃ e, (ee.Process db a b).1 = some (ProcessError.productData e)) ∧
          (ee.Process db a b).2 = db) := by
  intro h
  have h1 := (h (sampleEnvelope "price.created" 2 widgetPayload) DBStore.empty UUID.nil UUID.nil
    rfl (by decide)).1
  obtain ⟨e, he⟩ := h1
  have h2 : ((sampleEnvelope "price.created" 2 widgetPayload).Process DBStore.empty UUID.nil
    UUID.nil).1 = none := by rfl
  rw [h2] at he
  cases he

/-- Claim C7 as amended: `Process` does not read the version.  Replacing the version of
an envelope by any other leaves the error returned and the resulting store the same, so
a version other than 1 is handled exactly as version 1. -/
theorem process_ignores_version (ee : EventEnvelope) (v : Int) (db : DBStore) (a b : UUID) :
    ({ ee with Version := v } : EventEnvelope).Process db a b = ee.Process db a b := rfl

/-- Claim C8 fails: with the status payload `{"status":"Down"}` in an envelope of type
`price.created`, `Process` returns no error and writes a record under the zero
identifier. -/
theorem status_payload_read_as_price_created :
    ((sampleEnvelope "price.created" 1 downPayload).Process DBStore.empty UUID.nil UUID.nil).1
      = none ∧
    ((sampleEnvelope "price.created" 1 downPayload).Process DBStore.empty UUID.nil UUID.nil).2.Data
      UUID.nil = some (fakeStripeRecord UUID.nil UUID.nil) := by
  constructor <;> rfl

/-- Claim C8 as amended: for an envelope of type `price.created`, a payload that is not
JSON gives a payload decode error (syntax) and a payload that is a JSON array, string,
number or boolean gives a payload decode error (mismatch), the store unchanged in both
cases; a JSON object none of whose keys names a Price-Created field is accepted as the
zero event: no error, and the record is written under the zero product identifier. -/
theorem price_created_payload_shapes (ee : EventEnvelope) (db : DBStore) (a b : UUID)
    (ht : ee.Type_ = "price.created") :
    (parseJSON ee.Data.bytes = none →
      ee.Process db a b = (some (ProcessError.productData UnmarshalError.syntaxError), db)) ∧
    (∀ v, parseJSON ee.Data.bytes = some v → (∀ ms, v ≠ JSON.obj ms) → v ≠ JSON.null →
      ee.Process db a b = (some (ProcessError.productData UnmarshalError.mismatch), db)) ∧
    (∀ ms, parseJSON ee.Data.bytes = some (JSON.obj ms) →
      (∀ m ∈ ms, PriceCreatedEvent.isFieldKey m.1 = false) →
      ee.Process db a b = (none, db.handleProductCreatedEvent PriceCreatedEvent.zero a b)) := by
  have hr : route ee.Type_ = Branch.priceCreated := (route_priceCreated_iff _).2 ht
  refine ⟨?_, ?_, ?_⟩
  · intro h
    simp [EventEnvelope.Process, hr, unmarshalPriceCreated, unmarshalStruct, h]
  · intro v h hobj hnull
    cases v with
    | obj ms => exact absurd rfl (hobj ms)
    | null => exact absurd rfl hnull
    | bool x => simp [EventEnvelope.Process, hr, unmarshalPriceCreated, unmarshalStruct, h]
    | num x => simp [EventEnvelope.Process, hr, unmarshalPriceCreated, unmarshalStruct, h]
    | str x => simp [EventEnvelope.Process, hr, unmarshalPriceCreated, unmarshalStruct, h]
    | arr x => simp [EventEnvelope.Process, hr, unmarshalPriceCreated, unmarshalStruct, h]
  · intro ms h hk
    simp [EventEnvelope.Process, hr, unmarshalPriceCreated, unmarshalStruct, h,
      storeMembers_no_field _ ms hk]

set_option maxRecDepth 100000 in
theorem price_created_payload_shapes_witness :
    (sampleEnvelope "price.created" 1 arrayPayload).Process DBStore.empty UUID.nil UUID.nil =
      (some (ProcessError.productData UnmarshalError.mismatch), DBStore.empty) ∧
    (sampleEnvelope "price.created" 1 downPayload).Process DBStore.empty UUID.nil UUID.nil =
      (none, DBStore.empty.handleProductCreatedEvent PriceCreatedEvent.zero UUID.nil UUID.nil) :=
  ⟨(price_created_payload_shapes (sampleEnvelope "price.created" 1 arrayPayload) DBStore.empty
      UUID.nil UUID.nil rfl).2.1
      (JSON.arr [JSON.num ['1'], JSON.num ['2']]) (by rfl) (fun ms h => by cases h)
      (fun h => by cases h),
   (price_created_payload_shapes (sampleEnvelope "price.created" 1 downPayload) DBStore.empty
      UUID.nil UUID.nil rfl).2.2
      [("status".toList, "\"Down\"".toList, JSON.str "Down".toList)] (by rfl)
      (by decide)⟩

/-- Claim C9: the idempotency gap.  Processing the same valid Price-Created envelope twice,
with generated identifiers `(a, b)` and then `(c, d)`, succeeds both times (no
deduplication), leaves the same set of keys as the first application, leaves every other
key as it was, stores the record of `(c, d)` under the product identifier, and that value
differs from the first one whenever `(a, b)` differs from `(c, d)`. -/
theorem redelivery_overwrites (ee : EventEnvelope) (db : DBStore) (a b c d : UUID)
    (ev : PriceCreatedEvent) (ht : ee.Type_ = "price.created")
    (hd : unmarshalPriceCreated ee.Data = Except.ok ev) :
    (ee.Process db a b).1 = none ∧
    (ee.Process (ee.Process db a b).2 c d).1 = none ∧
    (∀ k, (ee.Process (ee.Process db a b).2 c d).2.Data k ≠ none ↔
      (ee.Process db a b).2.Data k ≠ none) ∧
    (ee.Process db a b).2.Data ev.StbxProductID = some (fakeStripeRecord a b) ∧
    (ee.Process (ee.Process db a b).2 c d).2.Data ev.StbxProductID =
      some (fakeStripeRecord c d) ∧
    (∀ k, k ≠ ev.StbxProductID →
      (ee.Process (ee.Process db a b).2 c d).2.Data k = (ee.Process db a b).2.Data k) ∧
    ((a, b) ≠ (c, d) →
      (ee.Process (ee.Process db a b).2 c d).2.Data ev.StbxProductID ≠
        (ee.Process db a b).2.Data ev.StbxProductID) := by
  have hr : route ee.Type_ = Branch.priceCreated := (route_priceCreated_iff _).2 ht
  simp only [EventEnvelope.Process, hr, hd, DBStore.handleProductCreatedEvent]
  refine ⟨trivial, trivial, fun k => ?_, by simp, by simp,
    fun k hk => by simp [Function.update, hk], fun hne => ?_⟩
  · by_cases hk : k = ev.StbxProductID
    · subst hk; simp
    · simp [Function.update, hk]
  · simp only [Function.update_same, ne_eq, Option.some.injEq]
    intro h
    have := fakeStripeRecord_inj c d a b h
    exact hne (by rw [this.1, this.2])

set_option maxRecDepth 100000 in
theorem redelivery_overwrites_witness :
    ((sampleEnvelope "price.created" 1 widgetPayload).Process
      ((sampleEnvelope "price.created" 1 widgetPayload).Process DBStore.empty UUID.nil
        UUID.nil).2 widgetID widgetID).2.Data widgetID ≠
    ((sampleEnvelope "price.created" 1 widgetPayload).Process DBStore.empty UUID.nil
      UUID.nil).2.Data widgetID :=
  (redelivery_overwrites (sampleEnvelope "price.created" 1 widgetPayload) DBStore.empty
    UUID.nil UUID.nil widgetID widgetID widgetEvent rfl widgetPayload_decodes).2.2.2.2.2.2
    (by decide)

/-- Claim C10: producer and consumer agree on event types.  Every subject the producer
passes to `publishMessage` is the type of the envelope built, selects a handler branch and
never yields the unknown-type error; and every type the consumer dispatches is one of the
subjects the producer publishes. -/
theorem producer_and_consumer_agree_on_types :
    (∀ t ∈ publishedSubjects, ∀ (p : RawMessage) (id : UUID) (now : Time),
      (publishMessage t p id now).1.Type_ = t ∧ route t ≠ Branch.unknown ∧
      ∀ (ee : EventEnvelope) (db : DBStore) (a b : UUID), ee.Type_ = t →
        ¬ ∃ u, (ee.Process db a b).1 = some (ProcessError.unknownType u)) ∧
    (∀ t, route t ≠ Branch.unknown → t ∈ publishedSubjects) := by
  have key : ∀ t, t ∈ publishedSubjects ↔ route t ≠ Branch.unknown := by
    intro t
    rw [Ne, route_unknown_iff, not_not]
    simp [publishedSubjects, pingedAPISubject, pingedDBSubject, pingedCacheSubject,
      priceCreatedSubject]
    tauto
  refine ⟨fun t ht p id now => ⟨?_, (key t).1 ht, fun ee db a b he => ?_⟩,
    fun t ht => (key t).2 ht⟩
  · rw [publishMessage_envelope]
  · rw [process_unknown_iff, he]
    exact (key t).1 ht

end Natsy
